import Mathlib

/-!
# Student roster component (`src/App.jsx`)

A shallow embedding of the React component `App` and of the JavaScript
built-ins it calls (`parseFloat`, `isNaN`, the comparison operators, `+`, `/`,
`Number.prototype.toFixed`, `Number::toString`, `JSON.stringify`,
`JSON.parse`), followed by theorems about the handlers `handleChange`,
`handleSubmit`, `handleEdit`, `handleDelete`, the derived values `average`,
`getApreciacion` and `stats`, and the roster kept in `localStorage`.

## Numbers

A JavaScript Number is an IEEE 754 binary64 value.  `JS.Number` carries the
three non-finite values and, for a finite value, the exact rational it denotes.
Every operation that produces a Number rounds its exact result to the nearest
binary64 value, ties to even (`JS.Number.ofFrac`).  The two zeros are
identified: they compare equal, and none of the modelled operations tells them
apart.
-/

namespace JS

/-! ### Rounding to binary64 -/

/-- Number of binary digits of `n`, by repeated halving (`fuel` bounds the depth). -/
def bitLengthAux : Nat → Nat → Nat
  | 0, _ => 0
  | fuel + 1, n => if n = 0 then 0 else bitLengthAux fuel (n / 2) + 1

/-- Number of binary digits of `n`: `0` for `0`, otherwise `⌊log₂ n⌋ + 1`. -/
def bitLength (n : Nat) : Nat := bitLengthAux n n

/-- The integer nearest to `p / q`, a tie going to the even neighbour. -/
def roundHalfEven (p q : Nat) : Nat :=
  let d := p / q
  let r := p % q
  if 2 * r < q then d
  else if q < 2 * r then d + 1
  else if d % 2 = 0 then d else d + 1

/-- For positive `p` and `q`, the integer `e` with `2 ^ e ≤ p / q < 2 ^ (e + 1)`. -/
def floorLog2 (p q : Nat) : Int :=
  let e : Int := (bitLength p : Int) - (bitLength q : Int)
  if (if 0 ≤ e then q * 2 ^ e.toNat ≤ p else q ≤ p * 2 ^ (-e).toNat) then e else e - 1

/-- JavaScript Number values. -/
inductive Number where
  | nan
  | posInf
  | negInf
  | fin (q : ℚ)
deriving DecidableEq

namespace Number

/-- The integer nearest to `(p / q) / 2 ^ s`, a tie going to the even neighbour. -/
def mantissa (p q : Nat) (s : Int) : Nat :=
  if 0 ≤ s then roundHalfEven p (q * 2 ^ s.toNat) else roundHalfEven (p * 2 ^ (-s).toNat) q

/-- The rational `m * 2 ^ s`. -/
def scale (m : Nat) (s : Int) : ℚ :=
  if 0 ≤ s then ((m * 2 ^ s.toNat : Nat) : ℚ) else mkRat m (2 ^ (-s).toNat)

/-- The Number value for the real `± p / q` (`q > 0`): round to the nearest
binary64 value, ties to even.  With `e` the binary exponent of `p / q`, clamped
at `-1022` (subnormals), the result is the nearest multiple of `2 ^ (e - 52)`;
a result of magnitude `2 ^ 1024` or more becomes an infinity. -/
def ofFrac (neg : Bool) (p q : Nat) : Number :=
  if p = 0 then fin 0
  else
    let e := max (floorLog2 p q) (-1022)
    let m := mantissa p q (e - 52)
    if 1023 < e ∨ (e = 1023 ∧ 2 ^ 53 ≤ m) then (if neg then negInf else posInf)
    else fin (if neg then -scale m (e - 52) else scale m (e - 52))

/-- The Number value for the real `n / d` (`d > 0`). -/
def ofIntFrac (n : Int) (d : Nat) : Number := ofFrac (decide (n < 0)) n.natAbs d

/-- The Number value for a rational. -/
def ofRat (x : ℚ) : Number := ofIntFrac x.num x.den

/-- The rational `q` is a binary64 value: rounding it to binary64 gives `q`
itself.  Every finite Number of a running program is one. -/
def IsBinary64 (q : ℚ) : Prop := ofRat q = fin q

/-- The Number value of a decimal numeral with digits `n` scaled by `10 ^ e`:
`ofDecimal 56 (-1)` is the literal `5.6`. -/
def ofDecimal (neg : Bool) (n : Nat) (e : Int) : Number :=
  if 0 ≤ e then ofFrac neg (n * 10 ^ e.toNat) 1 else ofFrac neg n (10 ^ (-e).toNat)

/-- The Number value of a non-negative integer such as an array length. -/
def ofNat (n : Nat) : Number := ofFrac false n 1

/-- The global function `isNaN` on a Number. -/
def isNaN : Number → Bool
  | nan => true
  | _ => false

/-- The operator `x < y`: false as soon as an operand is NaN. -/
def lt : Number → Number → Bool
  | fin a, fin b => decide (a < b)
  | negInf, fin _ => true
  | negInf, posInf => true
  | fin _, posInf => true
  | _, _ => false

/-- The operator `x > y`. -/
def gt (x y : Number) : Bool := lt y x

/-- The operator `x >= y`: false when an operand is NaN, otherwise the negation of `x < y`. -/
def ge (x y : Number) : Bool := !(isNaN x || isNaN y) && !lt x y

/-- The operator `x <= y`: false when an operand is NaN, otherwise the negation of `y < x`. -/
def le (x y : Number) : Bool := !(isNaN x || isNaN y) && !lt y x

/-- The operator `x + y` on Numbers. -/
def add : Number → Number → Number
  | nan, _ => nan
  | _, nan => nan
  | posInf, negInf => nan
  | negInf, posInf => nan
  | posInf, _ => posInf
  | _, posInf => posInf
  | negInf, _ => negInf
  | _, negInf => negInf
  | fin a, fin b => ofIntFrac (a.num * b.den + b.num * a.den) (a.den * b.den)

/-- The operator `x / y` on Numbers. -/
def div : Number → Number → Number
  | nan, _ => nan
  | _, nan => nan
  | fin a, fin b =>
    if b = 0 then (if a = 0 then nan else if 0 < a then posInf else negInf)
    else ofFrac (decide (a.num < 0) != decide (b.num < 0))
      (a.num.natAbs * b.den) (a.den * b.num.natAbs)
  | fin _, _ => fin 0
  | posInf, fin b => if b < 0 then negInf else posInf
  | negInf, fin b => if b < 0 then posInf else negInf
  | _, _ => nan

end Number

/-! ### Strings and Numbers -/

/-- The character of a decimal digit `d < 10`. -/
def digitChar (d : Nat) : Char := Char.ofNat (48 + d)

/-- The value of a decimal digit character. -/
def digitValue (c : Char) : Nat := c.toNat - 48

/-- Decimal digits of `n`, most significant first, in front of `acc`
(`fuel` bounds the number of digits). -/
def natDigitsAux : Nat → Nat → List Char → List Char
  | 0, _, acc => acc
  | fuel + 1, n, acc =>
    if n < 10 then digitChar n :: acc
    else natDigitsAux fuel (n / 10) (digitChar (n % 10) :: acc)

/-- Decimal digits of `n`, most significant first; `0` gives `['0']`. -/
def natDigits (n : Nat) : List Char := natDigitsAux (n + 1) n []

/-- The natural number written by a list of decimal digit characters. -/
def digitsToNat (cs : List Char) : Nat := cs.foldl (fun acc c => 10 * acc + digitValue c) 0

/-- For positive `p` and `q`, the integer `e` with `10 ^ e ≤ p / q < 10 ^ (e + 1)`. -/
def floorLog10 (p q : Nat) : Int :=
  let e : Int := ((natDigits p).length : Int) - ((natDigits q).length : Int)
  if (if 0 ≤ e then q * 10 ^ e.toNat ≤ p else q ≤ p * 10 ^ (-e).toNat) then e else e - 1

/-- The characters removed by `TrimString`: WhiteSpace and LineTerminator. -/
def isWhiteSpace (c : Char) : Bool :=
  c.toNat ∈ [0x09, 0x0A, 0x0B, 0x0C, 0x0D, 0x20, 0xA0, 0x1680, 0x2028, 0x2029,
    0x202F, 0x205F, 0x3000, 0xFEFF] || (0x2000 ≤ c.toNat && c.toNat ≤ 0x200A)

/-- An optional sign: whether it is `-`, and the rest of the input. -/
def takeSign : List Char → Bool × List Char
  | '+' :: cs => (false, cs)
  | '-' :: cs => (true, cs)
  | cs => (false, cs)

/-- The ExponentPart of a StrDecimalLiteral at the head of the input, if one is
there: `e` or `E`, an optional sign and at least one digit.  Its value, `0` when
absent. -/
def exponentPart : List Char → Int
  | c :: cs =>
    if c = 'e' ∨ c = 'E' then
      let (neg, r) := takeSign cs
      let ds := r.takeWhile Char.isDigit
      if ds = [] then 0
      else if neg then -(digitsToNat ds : Int) else (digitsToNat ds : Int)
    else 0
  | [] => 0

/-- The function `parseFloat` on the characters of a string: skip leading white
space, take the longest prefix that is a StrDecimalLiteral and return its
Number value; NaN when no prefix is one. -/
def parseFloatChars (input : List Char) : Number :=
  let (neg, cs) := takeSign (input.dropWhile isWhiteSpace)
  if "Infinity".toList.isPrefixOf cs then (if neg then .negInf else .posInf)
  else
    let ip := cs.takeWhile Char.isDigit
    let r1 := cs.dropWhile Char.isDigit
    let fp := match r1 with
      | '.' :: r => r.takeWhile Char.isDigit
      | _ => []
    let r2 := match r1 with
      | '.' :: r => r.dropWhile Char.isDigit
      | _ => r1
    if ip = [] ∧ fp = [] then .nan
    else Number.ofDecimal neg (digitsToNat (ip ++ fp)) (exponentPart r2 - (fp.length : Int))

/-- For a positive finite value `p / q` and a digit count `k`: the `k`-digit
integer `s` and the exponent `n` with `s * 10 ^ (n - k)` rounding to `p / q`, if
there is one; of two candidates the one nearer to `p / q`, the even one on a
tie. -/
def shortestAt (p q : Nat) (k : Nat) : Option (Nat × Int) :=
  let n0 : Int := floorLog10 p q + 1
  let sh : Int := (k : Int) - n0
  let P := if 0 ≤ sh then p * 10 ^ sh.toNat else p
  let Q := if 0 ≤ sh then q else q * 10 ^ (-sh).toNat
  let lo := P / Q
  let hi := lo + 1
  let x := Number.ofFrac false p q
  let okLo := decide (Number.ofDecimal false lo (n0 - k) = x)
  let okHi := decide (Number.ofDecimal false hi (n0 - k) = x)
  let pickLo : Option (Nat × Int) := some (lo, n0)
  let pickHi : Option (Nat × Int) :=
    if hi = 10 ^ k then some (10 ^ (k - 1), n0 + 1) else some (hi, n0)
  if okLo && okHi then
    (if 2 * (P % Q) < Q then pickLo
     else if Q < 2 * (P % Q) then pickHi
     else if lo % 2 = 0 then pickLo else pickHi)
  else if okLo then pickLo
  else if okHi then pickHi
  else none

/-- The digits `s` and exponent `n` of `Number::toString` for a positive finite
value: the least digit count `k` for which `shortestAt` succeeds.  Seventeen
digits identify every binary64 value; should none of `1 .. 17` succeed, the
nearest 17-digit integer is taken. -/
def shortestDigits (p q : Nat) : Nat × Int :=
  match (List.range 17).findSome? (fun i => shortestAt p q (i + 1)) with
  | some r => r
  | none =>
    let n0 : Int := floorLog10 p q + 1
    let sh : Int := 17 - n0
    (if 0 ≤ sh then roundHalfEven (p * 10 ^ sh.toNat) q
     else roundHalfEven p (q * 10 ^ (-sh).toNat), n0)

/-- The string of `Number::toString` for the digits `ds` (of the integer `s`)
and the exponent `n`. -/
def formatDigits (ds : List Char) (n : Int) : List Char :=
  let k : Int := ds.length
  if k ≤ n ∧ n ≤ 21 then ds ++ List.replicate (n - k).toNat '0'
  else if 0 < n ∧ n ≤ 21 then ds.take n.toNat ++ '.' :: ds.drop n.toNat
  else if -6 < n ∧ n ≤ 0 then '0' :: '.' :: (List.replicate (-n).toNat '0' ++ ds)
  else
    let e := n - 1
    let es := (if e < 0 then '-' else '+') :: natDigits e.natAbs
    match ds with
    | [d] => d :: 'e' :: es
    | d :: rest => d :: '.' :: (rest ++ 'e' :: es)
    | [] => []

/-- The abstract operation `Number::toString` with radix 10, as characters. -/
def numberToChars : Number → List Char
  | .nan => "NaN".toList
  | .posInf => "Infinity".toList
  | .negInf => "-Infinity".toList
  | .fin x =>
    if x = 0 then ['0']
    else
      let r := shortestDigits x.num.natAbs x.den
      let body := formatDigits (natDigits r.1) r.2
      if x < 0 then '-' :: body else body

/-- The method `Number.prototype.toFixed(f)` for `f ≤ 100`, as characters. -/
def toFixedChars (x : Number) (f : Nat) : List Char :=
  match x with
  | .fin q =>
    let p := q.num.natAbs
    let d := q.den
    let sign : List Char := if q < 0 then ['-'] else []
    if d * 10 ^ 21 ≤ p then numberToChars x
    else
      let n := (2 * p * 10 ^ f + d) / (2 * d)
      let m := natDigits n
      let m := if m.length ≤ f then List.replicate (f + 1 - m.length) '0' ++ m else m
      if f = 0 then sign ++ m
      else sign ++ (m.take (m.length - f) ++ '.' :: m.drop (m.length - f))
  | _ => numberToChars x

/-- The decimal numeral with exactly two fractional digits for `n` hundredths:
the digits of `n / 100`, a point, and the two digits of `n % 100`. -/
def twoDecimals (n : Nat) : List Char :=
  natDigits (n / 100) ++ ['.', digitChar (n / 10 % 10), digitChar (n % 10)]

/-- A JavaScript value that a form field for the grade can hold: the text typed
into the input, or the Number copied from a Student by `handleEdit`. -/
inductive Value where
  | str (s : String)
  | num (x : Number)
deriving DecidableEq

/-- The abstract operation `ToString` on such a value. -/
def Value.toChars : Value → List Char
  | .str s => s.toList
  | .num x => numberToChars x

/-- The global function `parseFloat`: its argument is first converted to a string. -/
def parseFloat (v : Value) : Number := parseFloatChars v.toChars

/-- The method `Number.prototype.toFixed`. -/
def Number.toFixed (x : Number) (f : Nat) : String := String.mk (toFixedChars x f)

/-- The test `/\d/.test(value)`: some character of the string is one of `0` .. `9`. -/
def containsDigit (value : String) : Bool := value.toList.any Char.isDigit

/-! ### JSON -/

/-- A value of the JSON data model, as `JSON.parse` builds it and
`JSON.stringify` writes it.  An object is the list of its properties in the
order of the text. -/
inductive Json where
  | null
  | bool (b : Bool)
  | num (x : Number)
  | str (s : String)
  | arr (elements : List Json)
  | obj (properties : List (String × Json))

/-- The lower-case hexadecimal digit of `n < 16`. -/
def hexDigit (n : Nat) : Char := if n < 10 then Char.ofNat (48 + n) else Char.ofNat (87 + n)

/-- The value of a hexadecimal digit character, of either case. -/
def hexValue (c : Char) : Option Nat :=
  if 48 ≤ c.toNat ∧ c.toNat ≤ 57 then some (c.toNat - 48)
  else if 97 ≤ c.toNat ∧ c.toNat ≤ 102 then some (c.toNat - 87)
  else if 65 ≤ c.toNat ∧ c.toNat ≤ 70 then some (c.toNat - 55)
  else none

/-- What `QuoteJSONString` writes for one code point: the two-character escapes
of backspace, tab, line feed, form feed, carriage return, the double quote and
the backslash; `\u00xx` for the other code points below U+0020; the code point
itself otherwise. -/
def quoteChar (c : Char) : List Char :=
  if c = '\x08' then ['\x5c', 'b']
  else if c = '\x09' then ['\x5c', 't']
  else if c = '\x0a' then ['\x5c', 'n']
  else if c = '\x0c' then ['\x5c', 'f']
  else if c = '\x0d' then ['\x5c', 'r']
  else if c = '\x22' then ['\x5c', '\x22']
  else if c = '\x5c' then ['\x5c', '\x5c']
  else if c.toNat < 0x20 then
    ['\x5c', 'u', hexDigit (c.toNat / 4096 % 16), hexDigit (c.toNat / 256 % 16),
      hexDigit (c.toNat / 16 % 16), hexDigit (c.toNat % 16)]
  else [c]

/-- The abstract operation `QuoteJSONString`, as characters. -/
def quoteJSONString (s : String) : List Char :=
  '\x22' :: s.toList.foldr (fun c acc => quoteChar c ++ acc) ['\x22']

mutual
/-- The abstract operation `SerializeJSONProperty` without indentation: a Number
that is not finite is written `null`. -/
def stringifyValue : Json → List Char
  | .null => "null".toList
  | .bool b => if b then "true".toList else "false".toList
  | .num x =>
    match x with
    | .fin _ => numberToChars x
    | _ => "null".toList
  | .str s => quoteJSONString s
  | .arr elements => '[' :: (stringifyElements elements ++ [']'])
  | .obj properties => '\x7b' :: (stringifyProperties properties ++ ['\x7d'])
/-- The elements of an array, separated by commas. -/
def stringifyElements : List Json → List Char
  | [] => []
  | [x] => stringifyValue x
  | x :: xs => stringifyValue x ++ ',' :: stringifyElements xs
/-- The properties of an object, each a quoted key, a colon and the value,
separated by commas. -/
def stringifyProperties : List (String × Json) → List Char
  | [] => []
  | [(k, v)] => quoteJSONString k ++ ':' :: stringifyValue v
  | (k, v) :: kvs => quoteJSONString k ++ ':' :: stringifyValue v ++ ',' :: stringifyProperties kvs
end

/-- The function `JSON.stringify` of one argument. -/
def JSON.stringify (value : Json) : String := String.mk (stringifyValue value)

/-- The white space of the JSON grammar: tab, line feed, carriage return, space. -/
def isJsonWhiteSpace (c : Char) : Bool :=
  c = '\x09' || c = '\x0a' || c = '\x0d' || c = ' '

/-- The input after its leading JSON white space. -/
def skipWs (cs : List Char) : List Char := cs.dropWhile isJsonWhiteSpace

/-- The character of an escape sequence after its backslash, and the rest of
the input.  A `\u` escape takes four hexadecimal digits; one that names a
surrogate code unit has no `Char` and is not represented. -/
def unescape : List Char → Option (Char × List Char)
  | [] => none
  | e :: r =>
    if e = '\x22' then some ('\x22', r)
    else if e = '\x5c' then some ('\x5c', r)
    else if e = '/' then some ('/', r)
    else if e = 'b' then some ('\x08', r)
    else if e = 'f' then some ('\x0c', r)
    else if e = 'n' then some ('\x0a', r)
    else if e = 'r' then some ('\x0d', r)
    else if e = 't' then some ('\x09', r)
    else if e = 'u' then
      match r with
      | a :: b :: c :: d :: r' =>
        match hexValue a, hexValue b, hexValue c, hexValue d with
        | some x3, some x2, some x1, some x0 =>
          let n := x3 * 4096 + x2 * 256 + x1 * 16 + x0
          if 0xD800 ≤ n ∧ n ≤ 0xDFFF then none else some (Char.ofNat n, r')
        | _, _, _, _ => none
      | _ => none
    else none

/-- The characters of a JSON string after its opening quote, up to the closing
quote: the string read (`acc` holds its characters so far, last first) and the
rest of the input.  A character below U+0020 may not stand in a JSON string. -/
def parseStringChars : Nat → List Char → List Char → Option (String × List Char)
  | 0, _, _ => none
  | _ + 1, [], _ => none
  | fuel + 1, c :: r, acc =>
    if c = '\x22' then some (String.mk acc.reverse, r)
    else if c = '\x5c' then
      match unescape r with
      | some (ch, r') => parseStringChars fuel r' (ch :: acc)
      | none => none
    else if c.toNat < 0x20 then none
    else parseStringChars fuel r (c :: acc)

/-- A JSON string after its opening quote. -/
def parseString (cs : List Char) : Option (String × List Char) :=
  parseStringChars cs.length cs []

/-- The exponent of a JSON number at the head of the input, `0` when there is
none, and the rest of the input; `e` or `E` must be followed by an optional sign
and at least one digit. -/
def exponentToken : List Char → Option (Int × List Char)
  | [] => some (0, [])
  | c :: cs =>
    if c = 'e' ∨ c = 'E' then
      let (neg, r) := takeSign cs
      let ds := r.takeWhile Char.isDigit
      if ds = [] then none
      else some (if neg then -(digitsToNat ds : Int) else (digitsToNat ds : Int),
        r.dropWhile Char.isDigit)
    else some (0, c :: cs)

/-- A JSON number at the head of the input: an optional minus sign, an integer
part without a superfluous leading zero, an optional fraction with at least one
digit and an optional exponent.  Its value is the Number of the decimal numeral. -/
def parseNumber (cs : List Char) : Option (Number × List Char) :=
  let (neg, r0) : Bool × List Char :=
    match cs with
    | '-' :: r => (true, r)
    | _ => (false, cs)
  let ip := r0.takeWhile Char.isDigit
  let r1 := r0.dropWhile Char.isDigit
  if ip = [] ∨ (ip ≠ ['0'] ∧ ip.head? = some '0') then none
  else
    match r1 with
    | '.' :: r =>
      let fp := r.takeWhile Char.isDigit
      if fp = [] then none
      else
        match exponentToken (r.dropWhile Char.isDigit) with
        | some (e, r3) =>
          some (Number.ofDecimal neg (digitsToNat (ip ++ fp)) (e - (fp.length : Int)), r3)
        | none => none
    | _ =>
      match exponentToken r1 with
      | some (e, r3) => some (Number.ofDecimal neg (digitsToNat ip) e, r3)
      | none => none

mutual
/-- A JSON value at the head of the input, after white space, and the rest of
the input. -/
def parseValue : Nat → List Char → Option (Json × List Char)
  | 0, _ => none
  | fuel + 1, cs =>
    match skipWs cs with
    | [] => none
    | c :: r =>
      if c = '\x7b' then
        match skipWs r with
        | [] => none
        | d :: r' => if d = '\x7d' then some (.obj [], r') else parseProperties fuel (d :: r') []
      else if c = '[' then
        match skipWs r with
        | [] => none
        | d :: r' => if d = ']' then some (.arr [], r') else parseElements fuel (d :: r') []
      else if c = '\x22' then
        match parseString r with
        | some (s, r') => some (.str s, r')
        | none => none
      else if "true".toList.isPrefixOf (c :: r) then some (.bool true, (c :: r).drop 4)
      else if "false".toList.isPrefixOf (c :: r) then some (.bool false, (c :: r).drop 5)
      else if "null".toList.isPrefixOf (c :: r) then some (.null, (c :: r).drop 4)
      else
        match parseNumber (c :: r) with
        | some (x, r') => some (.num x, r')
        | none => none
/-- The elements of an array after its opening bracket, up to the closing
bracket (`acc` holds the elements so far, last first). -/
def parseElements : Nat → List Char → List Json → Option (Json × List Char)
  | 0, _, _ => none
  | fuel + 1, cs, acc =>
    match parseValue fuel cs with
    | none => none
    | some (v, r) =>
      match skipWs r with
      | [] => none
      | c :: r' =>
        if c = ',' then parseElements fuel r' (v :: acc)
        else if c = ']' then some (.arr (v :: acc).reverse, r')
        else none
/-- The properties of an object after its opening brace, up to the closing
brace (`acc` holds the properties so far, last first). -/
def parseProperties : Nat → List Char → List (String × Json) → Option (Json × List Char)
  | 0, _, _ => none
  | fuel + 1, cs, acc =>
    match skipWs cs with
    | [] => none
    | q :: r =>
      if q = '\x22' then
        match parseString r with
        | none => none
        | some (k, r1) =>
          match skipWs r1 with
          | [] => none
          | c :: r2 =>
            if c = ':' then
              match parseValue fuel r2 with
              | none => none
              | some (v, r3) =>
                match skipWs r3 with
                | [] => none
                | d :: r4 =>
                  if d = ',' then parseProperties fuel r4 ((k, v) :: acc)
                  else if d = '\x7d' then some (.obj ((k, v) :: acc).reverse, r4)
                  else none
            else none
      else none
end

/-- The function `JSON.parse` of one argument: the value of the text when the
whole text is one JSON value between white space, none when `JSON.parse` throws
a SyntaxError.  The fuel bounds the depth of the calls of the parser; the
length of the text plus one is the fuel given, which is enough for every text
that `save` writes. -/
def JSON.parse (text : String) : Option Json :=
  match parseValue (text.length + 1) text.toList with
  | some (v, r) => if skipWs r = [] then some v else none
  | none => none

end JS

/-!
## The component

The state of `App` is the three `useState` cells `students`, `form` and
`editIndex`.  Each handler is a function from the state at the render it closes
over to the state after its setters have run.
-/

namespace App

open JS

set_option linter.constructorNameAsVariable false

/-- An entry of `students`. -/
structure Student where
  name : String
  lastName : String
  subject : String
  grade : Number
deriving DecidableEq

/-- The object held in `form`: the three text fields, and `grade`, which is the
text of the number input or, after `handleEdit`, the Number of the Student. -/
structure Form where
  name : String
  lastName : String
  subject : String
  grade : Value
deriving DecidableEq

/-- The three state cells of the component. -/
structure State where
  students : List Student
  form : Form
  editIndex : Option Nat
deriving DecidableEq

/-- The object `{ name: "", lastName: "", subject: "", grade: "" }`. -/
def emptyForm : Form := { name := "", lastName := "", subject := "", grade := .str "" }

/-- The first render when nothing is stored under the key `students`. -/
def initialState : State := { students := [], form := emptyForm, editIndex := none }

/-- The inputs of the form, identified by their `name` attribute. -/
inductive Field where
  | name
  | lastName
  | subject
  | grade
deriving DecidableEq

/-- The `name` attribute of an input. -/
def Field.key : Field → String
  | .name => "name"
  | .lastName => "lastName"
  | .subject => "subject"
  | .grade => "grade"

/-- The object `{ ...prev, [name]: value }`. -/
def Form.set (prev : Form) (name : Field) (value : String) : Form :=
  match name with
  | .name => { prev with name := value }
  | .lastName => { prev with lastName := value }
  | .subject => { prev with subject := value }
  | .grade => { prev with grade := .str value }

/-- The property `form[name]` read back as a value. -/
def Form.get (form : Form) : Field → Value
  | .name => .str form.name
  | .lastName => .str form.lastName
  | .subject => .str form.subject
  | .grade => form.grade

/-- The handler `handleChange` for the event of target `{ name, value }`. -/
def handleChange (s : State) (name : Field) (value : String) : State :=
  if ["name", "lastName", "subject"].contains name.key && containsDigit value then s
  else { s with form := s.form.set name value }

/-- The text shown by `alert` when a submission is rejected. -/
def alertMessage : String := "Por favor completa todos los campos con datos válidos."

/-- What a call of `handleSubmit` leaves behind: the state, and the message of
`alert` if it was called. -/
structure Outcome where
  state : State
  alert : Option String
deriving DecidableEq

/-- The condition of the `if` in `handleSubmit`; `!name` holds of a string
exactly when it is empty. -/
def invalid (name lastName subject : String) (parsedGrade : Number) : Bool :=
  decide (name = "") || decide (lastName = "") || decide (subject = "") ||
    parsedGrade.isNaN || parsedGrade.lt (.fin 1) || parsedGrade.gt (.fin 7)

/-- The handler `handleSubmit`. -/
def handleSubmit (s : State) : Outcome :=
  let parsedGrade := parseFloat s.form.grade
  if invalid s.form.name s.form.lastName s.form.subject parsedGrade then
    { state := s, alert := some alertMessage }
  else
    let newStudent : Student :=
      { name := s.form.name, lastName := s.form.lastName, subject := s.form.subject,
        grade := parsedGrade }
    let updatedStudents :=
      match s.editIndex with
      | some editIndex => s.students.mapIdx (fun i st => if i = editIndex then newStudent else st)
      | none => s.students ++ [newStudent]
    { state := { students := updatedStudents, form := emptyForm, editIndex := none },
      alert := none }

/-- The form object that `setForm(student)` installs. -/
def Student.toForm (student : Student) : Form :=
  { name := student.name, lastName := student.lastName, subject := student.subject,
    grade := .num student.grade }

/-- The handler `handleEdit`.  When `students[index]` is `undefined` the form
becomes `undefined` and the render that follows throws on `form.name`: there is
no next state. -/
def handleEdit (s : State) (index : Nat) : Option State :=
  match s.students[index]? with
  | some student => some { s with form := student.toForm, editIndex := some index }
  | none => none

/-- The handler `handleDelete`; `confirmed` is the answer given to `confirm`. -/
def handleDelete (s : State) (index : Nat) (confirmed : Bool) : State :=
  if confirmed then { s with students := s.students.eraseIdx index } else s

/-- The value `average`. -/
def average (students : List Student) : String :=
  if students.length ≠ 0 then
    ((students.foldl (fun (acc : Number) s => acc.add s.grade) (.fin 0)).div
      (Number.ofNat students.length)).toFixed 2
  else "N/A"

/-- The Number that `average` formats: the sum of the grades, accumulated from
`0` in roster order, divided by the length. -/
def mean (students : List Student) : Number :=
  (students.foldl (fun (acc : Number) s => acc.add s.grade) (.fin 0)).div
    (Number.ofNat students.length)

/-- The exact value of a grade: the rational that a finite Number denotes, and
`0` for a Number that is not finite. -/
def gradeValue (st : Student) : ℚ :=
  match st.grade with
  | .fin q => q
  | _ => 0

/-- The arithmetic mean in the words of the specification: the sum of all grades
divided by the number of students, in exact arithmetic. -/
def arithmeticMean (students : List Student) : ℚ :=
  (students.map gradeValue).sum / students.length

/-- The function `getApreciacion`. -/
def getApreciacion (grade : Number) : String :=
  if grade.ge (Number.ofDecimal false 65 (-1)) then "destacado"
  else if grade.ge (Number.ofDecimal false 56 (-1)) then "buen trabajo"
  else if grade.ge (Number.ofDecimal false 40 (-1)) then "con mejora"
  else "deficiente"

/-- The object `stats`. -/
structure Stats where
  total : Nat
  mustTakeExam : Nat
  exempted : Nat
deriving DecidableEq

/-- The value `stats`. -/
def stats (students : List Student) : Stats :=
  { total := students.length,
    mustTakeExam := (students.filter (fun s => s.grade.lt (.fin 5))).length,
    exempted := (students.filter (fun s => s.grade.ge (.fin 5))).length }

/-- The events the rendered page can deliver to the handlers. -/
inductive Event where
  | change (name : Field) (value : String)
  | submit
  | edit (index : Nat)
  | delete (index : Nat) (confirmed : Bool)

/-- The state after an event, if the component survives it. -/
def step (s : State) : Event → Option State
  | .change name value => some (handleChange s name value)
  | .submit => some (handleSubmit s).state
  | .edit index => handleEdit s index
  | .delete index confirmed => some (handleDelete s index confirmed)

/-- The states the component can be in, starting from `initialState`. -/
inductive Reachable : State → Prop where
  | init : Reachable initialState
  | step {s s' : State} (e : Event) : Reachable s → step s e = some s' → Reachable s'

/-- No character of the string is one of `0` .. `9`. -/
def DigitFree (t : String) : Prop := ∀ c ∈ t.toList, ¬ ('0' ≤ c ∧ c ≤ '9')

/-- The name, lastName and subject of a Student are non-empty and digit-free. -/
def NamesOk (st : Student) : Prop :=
  (st.name ≠ "" ∧ DigitFree st.name) ∧ (st.lastName ≠ "" ∧ DigitFree st.lastName) ∧
    (st.subject ≠ "" ∧ DigitFree st.subject)

/-- The name, lastName and subject of the form are digit-free. -/
def FormDigitFree (form : Form) : Prop :=
  DigitFree form.name ∧ DigitFree form.lastName ∧ DigitFree form.subject

/-- The cell `editIndex` is null or a position of the roster. -/
def EditIndexValid (s : State) : Prop := ∀ i, s.editIndex = some i → i < s.students.length

/-- The grade of a Student is a finite Number between `1` and `7`. -/
def GradeInRange (st : Student) : Prop := ∃ q : ℚ, st.grade = .fin q ∧ 1 ≤ q ∧ q ≤ 7

/-! ### Persistence -/

/-- The JSON value of a Student object: its four properties in the order in
which `handleSubmit` writes them. -/
def Student.toJson (st : Student) : Json :=
  .obj [("name", .str st.name), ("lastName", .str st.lastName), ("subject", .str st.subject),
    ("grade", .num st.grade)]

/-- The value of a property of an object: of several properties with the same
key the last one counts. -/
def getProperty (properties : List (String × Json)) (key : String) : Option Json :=
  properties.reverse.lookup key

/-- The Student that a JSON value is, if it is an object whose name, lastName
and subject are strings and whose grade is a Number. -/
def Student.ofJson : Json → Option Student
  | .obj properties =>
    match getProperty properties "name", getProperty properties "lastName",
      getProperty properties "subject", getProperty properties "grade" with
    | some (.str name), some (.str lastName), some (.str subject), some (.num grade) =>
      some { name := name, lastName := lastName, subject := subject, grade := grade }
    | _, _, _, _ => none
  | _ => none

/-- The roster that a JSON value is, if it is an array of Students. -/
def rosterOfJson : Json → Option (List Student)
  | .arr elements =>
    elements.foldr (fun j acc =>
      match Student.ofJson j, acc with
      | some st, some l => some (st :: l)
      | _, _ => none) (some [])
  | _ => none

/-- The string that the effect stores under the key `students`:
`JSON.stringify(students)`. -/
def save (students : List Student) : String :=
  JSON.stringify (.arr (students.map Student.toJson))

/-- The initialiser of the `students` state: `saved` is the result of
`localStorage.getItem("students")`, none for `null`.  A missing or empty string
gives the empty roster, any other is parsed; the result is none when
`JSON.parse` throws or the value is not a roster. -/
def load (saved : Option String) : Option (List Student) :=
  match saved with
  | none => some []
  | some text => if text = "" then some [] else (JSON.parse text).bind rosterOfJson

end App

/-!
## Theorems
-/

namespace App

open JS

/-! ### Validation in `handleSubmit` -/

/-- A Number with `1 <= g` and `g <= 7` passes the three grade tests of `handleSubmit`. -/
theorem range_of_le_le {g : Number} (h1 : Number.le (.fin 1) g = true)
    (h7 : Number.le g (.fin 7) = true) :
    g.isNaN = false ∧ g.lt (.fin 1) = false ∧ g.gt (.fin 7) = false := by
  cases g <;> simp_all [Number.isNaN, Number.lt, Number.gt, Number.le]

/-- A Number passes the three grade tests of `handleSubmit` exactly when it is a
finite value between `1` and `7`. -/
theorem range_iff_fin (g : Number) :
    (g.isNaN = false ∧ g.lt (.fin 1) = false ∧ g.gt (.fin 7) = false) ↔
      ∃ q : ℚ, g = .fin q ∧ 1 ≤ q ∧ q ≤ 7 := by
  cases g <;> simp [Number.isNaN, Number.lt, Number.gt]

/-- The condition of the `if` fails exactly when every disjunct fails. -/
theorem invalid_eq_false_iff (name lastName subject : String) (g : Number) :
    invalid name lastName subject g = false ↔
      name ≠ "" ∧ lastName ≠ "" ∧ subject ≠ "" ∧
        g.isNaN = false ∧ g.lt (.fin 1) = false ∧ g.gt (.fin 7) = false := by
  simp [invalid, and_assoc]

/-- The result of `handleSubmit` on a form that passes validation. -/
theorem handleSubmit_of_valid (s : State)
    (h : invalid s.form.name s.form.lastName s.form.subject (parseFloat s.form.grade) = false) :
    handleSubmit s =
      { state :=
          { students :=
              match s.editIndex with
              | some editIndex =>
                s.students.mapIdx (fun i st =>
                  if i = editIndex then
                    { name := s.form.name, lastName := s.form.lastName,
                      subject := s.form.subject, grade := parseFloat s.form.grade }
                  else st)
              | none =>
                s.students ++
                  [{ name := s.form.name, lastName := s.form.lastName,
                     subject := s.form.subject, grade := parseFloat s.form.grade }],
            form := emptyForm, editIndex := none },
        alert := none } := by
  simp [handleSubmit, h]

/-- The result of `handleSubmit` on a form that fails validation. -/
theorem handleSubmit_of_invalid (s : State)
    (h : invalid s.form.name s.form.lastName s.form.subject (parseFloat s.form.grade) = true) :
    handleSubmit s = { state := s, alert := some alertMessage } := by
  simp [handleSubmit, h]

/-! ### C1: the create path -/

/-- C1. Create path of `handleSubmit`: with non-empty name, lastName and
subject, a grade that parses to a Number `g` with `1 <= g` and `g <= 7`, and
`editIndex` null, the roster after the call is the old roster followed by the
one Student `{name, lastName, subject, grade: g}`; it is one longer, its last
entry is that Student, every earlier entry keeps its position and value, and no
alert is raised. -/
theorem handleSubmit_create (s : State) (g : Number)
    (hname : s.form.name ≠ "") (hlast : s.form.lastName ≠ "") (hsubj : s.form.subject ≠ "")
    (hg : parseFloat s.form.grade = g)
    (h1 : Number.le (.fin 1) g = true) (h7 : Number.le g (.fin 7) = true)
    (hedit : s.editIndex = none) :
    (handleSubmit s).state.students =
        s.students ++ [{ name := s.form.name, lastName := s.form.lastName,
                         subject := s.form.subject, grade := g }] ∧
      (handleSubmit s).state.students.length = s.students.length + 1 ∧
      (handleSubmit s).state.students[s.students.length]? =
        some { name := s.form.name, lastName := s.form.lastName,
               subject := s.form.subject, grade := g } ∧
      (∀ j, j < s.students.length →
        (handleSubmit s).state.students[j]? = s.students[j]?) ∧
      (handleSubmit s).alert = none := by
  have hv : invalid s.form.name s.form.lastName s.form.subject (parseFloat s.form.grade) = false :=
    (invalid_eq_false_iff _ _ _ _).2
      ⟨hname, hlast, hsubj, range_of_le_le (hg ▸ h1) (hg ▸ h7)⟩
  rw [handleSubmit_of_valid s hv, hedit, hg]
  refine ⟨rfl, by simp, by simp, ?_, rfl⟩
  intro j hj
  simp [List.getElem?_append_left, hj]

/-- C1 at the submission Ana / Lopez / Math / "6.2" on the empty roster: the
text "6.2" parses to the Number `6.2`, which lies between `1` and `7`, and the
roster becomes the single Student `{Ana, Lopez, Math, 6.2}`. -/
theorem handleSubmit_create_witness :
    parseFloat (.str "6.2") = Number.ofDecimal false 62 (-1) ∧
      Number.le (.fin 1) (Number.ofDecimal false 62 (-1)) = true ∧
      Number.le (Number.ofDecimal false 62 (-1)) (.fin 7) = true ∧
      (handleSubmit { students := [], form := ⟨"Ana", "Lopez", "Math", .str "6.2"⟩,
                      editIndex := none }).state.students =
        [{ name := "Ana", lastName := "Lopez", subject := "Math",
           grade := Number.ofDecimal false 62 (-1) }] :=
  ⟨by decide, by decide, by decide,
    (handleSubmit_create
      { students := [], form := ⟨"Ana", "Lopez", "Math", .str "6.2"⟩, editIndex := none }
      (Number.ofDecimal false 62 (-1))
      (by decide) (by decide) (by decide) (by decide) (by decide) (by decide) rfl).1⟩

/-! ### C2: the edit path -/

/-- C2. Edit path of `handleSubmit`: with a valid form (non-empty name,
lastName and subject, a grade that parses to `g` with `1 <= g` and `g <= 7`)
and `editIndex = i` for a row `i` of the roster, the roster after the call has
the same length, holds the Student `{name, lastName, subject, grade: g}` at
position `i`, and holds at every other position the Student it held before. -/
theorem handleSubmit_edit (s : State) (i : Nat) (g : Number)
    (hi : i < s.students.length)
    (hname : s.form.name ≠ "") (hlast : s.form.lastName ≠ "") (hsubj : s.form.subject ≠ "")
    (hg : parseFloat s.form.grade = g)
    (h1 : Number.le (.fin 1) g = true) (h7 : Number.le g (.fin 7) = true)
    (hedit : s.editIndex = some i) :
    (handleSubmit s).state.students.length = s.students.length ∧
      (handleSubmit s).state.students[i]? =
        some { name := s.form.name, lastName := s.form.lastName,
               subject := s.form.subject, grade := g } ∧
      (∀ j, j ≠ i → (handleSubmit s).state.students[j]? = s.students[j]?) ∧
      (handleSubmit s).state.students =
        s.students.set i { name := s.form.name, lastName := s.form.lastName,
                           subject := s.form.subject, grade := g } := by
  have hv : invalid s.form.name s.form.lastName s.form.subject (parseFloat s.form.grade) = false :=
    (invalid_eq_false_iff _ _ _ _).2
      ⟨hname, hlast, hsubj, range_of_le_le (hg ▸ h1) (hg ▸ h7)⟩
  rw [handleSubmit_of_valid s hv, hedit, hg]
  refine ⟨by simp, ?_, ?_, ?_⟩
  · simp [List.getElem?_eq_getElem hi]
  · intro j hj
    rcases lt_or_le j s.students.length with hlt | hge
    · simp [List.getElem?_eq_getElem hlt, hj]
    · simp [List.getElem?_eq_none hge]
  · apply List.ext_getElem?
    intro j
    rcases lt_or_le j s.students.length with hlt | hge
    · by_cases hj : j = i
      · subst hj
        simp [List.getElem?_eq_getElem hlt, List.getElem?_set, hlt]
      · have hj' : ¬ i = j := fun h => hj h.symm
        simp [List.getElem?_eq_getElem hlt, hj, List.getElem?_set, hj']
    · have hj' : ¬ i = j := by omega
      simp [List.getElem?_eq_none hge, List.getElem?_set, hj']

/-- C2 at the flow "edit row 0, change the grade to 7, submit" on the roster
`[{Ana, Lopez, Math, 6.2}]`: the two handlers lead to the state with
`editIndex = 0` and the grade text "7"; after the submission the roster still has
one entry and its grade is the Number `7`. -/
theorem handleSubmit_edit_witness :
    (handleEdit
        { students := [⟨"Ana", "Lopez", "Math", Number.ofDecimal false 62 (-1)⟩],
          form := emptyForm, editIndex := none } 0).map
        (fun s => handleChange s .grade "7") =
      some { students := [⟨"Ana", "Lopez", "Math", Number.ofDecimal false 62 (-1)⟩],
             form := ⟨"Ana", "Lopez", "Math", .str "7"⟩, editIndex := some 0 } ∧
      parseFloat (.str "7") = .fin 7 ∧
      (handleSubmit
        { students := [⟨"Ana", "Lopez", "Math", Number.ofDecimal false 62 (-1)⟩],
          form := ⟨"Ana", "Lopez", "Math", .str "7"⟩,
          editIndex := some 0 }).state.students.length = 1 ∧
      (handleSubmit
        { students := [⟨"Ana", "Lopez", "Math", Number.ofDecimal false 62 (-1)⟩],
          form := ⟨"Ana", "Lopez", "Math", .str "7"⟩,
          editIndex := some 0 }).state.students[0]? =
        some ⟨"Ana", "Lopez", "Math", .fin 7⟩ :=
  have h := handleSubmit_edit
    { students := [⟨"Ana", "Lopez", "Math", Number.ofDecimal false 62 (-1)⟩],
      form := ⟨"Ana", "Lopez", "Math", .str "7"⟩, editIndex := some 0 }
    0 (.fin 7) (by decide) (by decide) (by decide) (by decide) (by decide) (by decide)
    (by decide) rfl
  ⟨by decide, by decide, h.1, h.2.1⟩

/-! ### C3: rejection -/

/-- C3. `handleSubmit` raises its alert exactly when name is empty, or lastName
is empty, or subject is empty, or the parsed grade is NaN, or it is `< 1`, or it
is `> 7`; when it does, the state (roster, form and editIndex) is the state
before the call; and when it does not, no alert is raised at all. -/
theorem handleSubmit_reject_iff (s : State) :
    ((handleSubmit s).alert = some alertMessage ↔
        (s.form.name = "" ∨ s.form.lastName = "" ∨ s.form.subject = "" ∨
          (parseFloat s.form.grade).isNaN = true ∨
          (parseFloat s.form.grade).lt (.fin 1) = true ∨
          (parseFloat s.form.grade).gt (.fin 7) = true)) ∧
      ((handleSubmit s).alert = some alertMessage → (handleSubmit s).state = s) ∧
      ((handleSubmit s).alert ≠ some alertMessage → (handleSubmit s).alert = none) := by
  cases hv : invalid s.form.name s.form.lastName s.form.subject (parseFloat s.form.grade)
  · rw [handleSubmit_of_valid s hv]
    have h := (invalid_eq_false_iff _ _ _ _).1 hv
    obtain ⟨h1, h2, h3, h4, h5, h6⟩ := h
    simp [h1, h2, h3, h4, h5, h6]
  · rw [handleSubmit_of_invalid s hv]
    have h : s.form.name = "" ∨ s.form.lastName = "" ∨ s.form.subject = "" ∨
        (parseFloat s.form.grade).isNaN = true ∨
        (parseFloat s.form.grade).lt (.fin 1) = true ∨
        (parseFloat s.form.grade).gt (.fin 7) = true := by
      simpa [invalid, or_assoc] using hv
    simp [h]

/-- C3 at the grade text "8": it parses to `8`, which is `> 7`; the submission
raises the alert and leaves the state as it was. -/
theorem handleSubmit_reject_witness :
    (parseFloat (.str "8")).gt (.fin 7) = true ∧
      (handleSubmit { students := [⟨"Ana", "Lopez", "Math", .fin 6⟩],
                      form := ⟨"Eva", "Diaz", "Art", .str "8"⟩,
                      editIndex := none }).alert = some alertMessage ∧
      (handleSubmit { students := [⟨"Ana", "Lopez", "Math", .fin 6⟩],
                      form := ⟨"Eva", "Diaz", "Art", .str "8"⟩,
                      editIndex := none }).state =
        { students := [⟨"Ana", "Lopez", "Math", .fin 6⟩],
          form := ⟨"Eva", "Diaz", "Art", .str "8"⟩, editIndex := none } :=
  have h := handleSubmit_reject_iff
    { students := [⟨"Ana", "Lopez", "Math", .fin 6⟩],
      form := ⟨"Eva", "Diaz", "Art", .str "8"⟩, editIndex := none }
  have ha := h.1.2 (Or.inr (Or.inr (Or.inr (Or.inr (Or.inr (by decide))))))
  ⟨by decide, ha, h.2.1 ha⟩

/-! ### C4: the grade-range invariant -/

/-- The handler `handleSubmit` keeps every grade of the roster in range: a
rejected submission changes nothing, an accepted one stores a validated grade. -/
theorem handleSubmit_gradeInRange (s : State) (h : ∀ st ∈ s.students, GradeInRange st) :
    ∀ st ∈ (handleSubmit s).state.students, GradeInRange st := by
  cases hv : invalid s.form.name s.form.lastName s.form.subject (parseFloat s.form.grade)
  · rw [handleSubmit_of_valid s hv]
    have hnew : GradeInRange
        { name := s.form.name, lastName := s.form.lastName, subject := s.form.subject,
          grade := parseFloat s.form.grade } :=
      (range_iff_fin _).1 ((invalid_eq_false_iff _ _ _ _).1 hv).2.2.2
    intro st hst
    cases hedit : s.editIndex with
    | none =>
      rw [hedit] at hst
      rcases List.mem_append.1 hst with h1 | h1
      · exact h st h1
      · rw [List.mem_singleton.1 h1]
        exact hnew
    | some i =>
      rw [hedit] at hst
      obtain ⟨j, hj, rfl⟩ := List.mem_mapIdx.1 hst
      by_cases hji : j = i
      · simp only [hji, if_true]
        exact hnew
      · simp only [hji, if_false]
        exact h _ (List.getElem_mem hj)
  · rw [handleSubmit_of_invalid s hv]
    exact h

/-- Every event keeps every grade of the roster in range. -/
theorem step_gradeInRange {s s' : State} (e : Event) (hs : step s e = some s')
    (h : ∀ st ∈ s.students, GradeInRange st) : ∀ st ∈ s'.students, GradeInRange st := by
  cases e with
  | change f v =>
    simp only [step, Option.some.injEq] at hs
    subst hs
    unfold handleChange
    split <;> exact h
  | submit =>
    simp only [step, Option.some.injEq] at hs
    subst hs
    exact handleSubmit_gradeInRange s h
  | edit index =>
    simp only [step, handleEdit] at hs
    split at hs
    · simp only [Option.some.injEq] at hs
      subst hs
      exact h
    · exact absurd hs (by simp)
  | delete index confirmed =>
    simp only [step, Option.some.injEq] at hs
    subst hs
    unfold handleDelete
    split
    · intro st hst
      exact h st ((List.eraseIdx_sublist s.students index).subset hst)
    · exact h

/-- C4. Grade-range invariant: in every state reachable from the initial state
(empty roster) by any sequence of `handleChange`, `handleSubmit`, `handleEdit`
and `handleDelete` (confirmed or cancelled), every Student of the roster has a
finite grade `g` with `1 ≤ g ≤ 7`. -/
theorem reachable_gradeInRange (s : State) (h : Reachable s) :
    ∀ st ∈ s.students, GradeInRange st := by
  induction h with
  | init => intro st hst; simp [initialState] at hst
  | step e _ hs ih => exact step_gradeInRange e hs ih

/-- C4 at the state reached by typing Ana / Lopez / Math / "6.2" and submitting:
it is reachable, and the one grade it stores is in range. -/
theorem reachable_gradeInRange_witness :
    Reachable { students := [⟨"Ana", "Lopez", "Math", Number.ofDecimal false 62 (-1)⟩],
                form := emptyForm, editIndex := none } ∧
      ∀ st ∈ [(⟨"Ana", "Lopez", "Math", Number.ofDecimal false 62 (-1)⟩ : Student)],
        GradeInRange st :=
  have hR : Reachable { students := [⟨"Ana", "Lopez", "Math", Number.ofDecimal false 62 (-1)⟩],
                        form := emptyForm, editIndex := none } :=
    Reachable.step (s := { students := [], form := ⟨"Ana", "Lopez", "Math", .str "6.2"⟩,
                           editIndex := none }) .submit
      (Reachable.step (.change .grade "6.2")
        (Reachable.step (.change .subject "Math")
          (Reachable.step (.change .lastName "Lopez")
            (Reachable.step (.change .name "Ana") Reachable.init rfl) rfl) rfl)
        (by decide))
      (by decide)
  ⟨hR, reachable_gradeInRange _ hR⟩

/-! ### C5: deletion -/

/-- C5. `handleDelete` on a row `i` of the roster: when the user confirms, the
roster is one shorter, every entry at a position `j < i` is unchanged and every
entry formerly at a position `j > i` is now at position `j - 1`, while form and
editIndex are untouched; when the user cancels, the state is unchanged. -/
theorem handleDelete_spec (s : State) (i : Nat) (hi : i < s.students.length) :
    (handleDelete s i true).students.length = s.students.length - 1 ∧
      (∀ j, j < i → (handleDelete s i true).students[j]? = s.students[j]?) ∧
      (∀ j, i < j → (handleDelete s i true).students[j - 1]? = s.students[j]?) ∧
      (handleDelete s i true).form = s.form ∧
      (handleDelete s i true).editIndex = s.editIndex ∧
      handleDelete s i false = s := by
  refine ⟨?_, ?_, ?_, rfl, rfl, rfl⟩
  · simp [handleDelete, List.length_eraseIdx, hi]
  · intro j hj
    simp [handleDelete, List.getElem?_eraseIdx_of_lt _ _ _ hj]
  · intro j hj
    have h1 : i ≤ j - 1 := by omega
    have h2 : j - 1 + 1 = j := by omega
    simp [handleDelete, List.getElem?_eraseIdx_of_ge _ _ _ h1, h2]

/-- C5 at a roster of three: confirming the deletion of row 1 leaves two rows,
row 0 as before and the former row 2 at index 1. -/
theorem handleDelete_witness :
    (handleDelete
        { students := [⟨"Ana", "Lopez", "Math", .fin 6⟩, ⟨"Eva", "Diaz", "Art", .fin 4⟩,
                       ⟨"Luz", "Rios", "Bio", .fin 5⟩],
          form := emptyForm, editIndex := none } 1 true).students =
      [⟨"Ana", "Lopez", "Math", .fin 6⟩, ⟨"Luz", "Rios", "Bio", .fin 5⟩] ∧
      (handleDelete
        { students := [⟨"Ana", "Lopez", "Math", .fin 6⟩, ⟨"Eva", "Diaz", "Art", .fin 4⟩,
                       ⟨"Luz", "Rios", "Bio", .fin 5⟩],
          form := emptyForm, editIndex := none } 1 true).students[2 - 1]? =
        some ⟨"Luz", "Rios", "Bio", .fin 5⟩ :=
  ⟨by decide,
    (handleDelete_spec
      { students := [⟨"Ana", "Lopez", "Math", .fin 6⟩, ⟨"Eva", "Diaz", "Art", .fin 4⟩,
                     ⟨"Luz", "Rios", "Bio", .fin 5⟩],
        form := emptyForm, editIndex := none } 1 (by decide)).2.2.1 2 (by decide)⟩

/-! ### C6: the pass/fail counts -/

/-- For a grade that is not NaN, `grade >= 5` is the negation of `grade < 5`. -/
theorem ge_five_eq_not_lt (g : Number) (h : g.isNaN = false) :
    g.ge (.fin 5) = !g.lt (.fin 5) := by
  cases g <;> simp_all [Number.ge, Number.isNaN]

/-- The two filters of `stats` split a roster without NaN grades. -/
theorem filter_lt_add_filter_ge (students : List Student)
    (h : ∀ st ∈ students, st.grade.isNaN = false) :
    (students.filter (fun s => s.grade.lt (.fin 5))).length +
      (students.filter (fun s => s.grade.ge (.fin 5))).length = students.length := by
  induction students with
  | nil => rfl
  | cons st rest ih =>
    have hst := ge_five_eq_not_lt st.grade (h st (List.mem_cons_self _ _))
    have ih' := ih (fun x hx => h x (List.mem_cons_of_mem _ hx))
    cases hlt : st.grade.lt (.fin 5) <;>
      simp [List.filter_cons, hst, hlt] <;> omega

/-- A grade in range is not NaN. -/
theorem isNaN_of_gradeInRange (st : Student) (h : GradeInRange st) : st.grade.isNaN = false := by
  obtain ⟨q, hq, -, -⟩ := h
  rw [hq]
  rfl

/-- In every state reachable from the initial state no grade of the roster is
NaN. -/
theorem reachable_not_nan (s : State) (h : Reachable s) :
    ∀ st ∈ s.students, st.grade.isNaN = false := by
  have hr : ∀ st ∈ s.students, GradeInRange st := by
    induction h with
    | init => intro st hst; simp [initialState] at hst
    | step e _ hs ih => exact step_gradeInRange e hs ih
  exact fun st hst => isNaN_of_gradeInRange st (hr st hst)

/-- In every state reachable from the initial state the two counts of `stats`
partition the roster. -/
theorem stats_partition_reachable (s : State) (h : Reachable s) :
    (stats s.students).mustTakeExam + (stats s.students).exempted =
      (stats s.students).total :=
  filter_lt_add_filter_ge s.students (reachable_not_nan s h)

/-- C6. For every roster, `stats.total` is the roster length,
`stats.mustTakeExam` is the number of Students with `grade < 5` and
`stats.exempted` the number with `grade >= 5`; a Student with grade exactly `5`
is counted as exempted and not as mustTakeExam; and
`stats.mustTakeExam + stats.exempted = stats.total` for every roster of grades
that are Numbers other than NaN, which is every roster the component can hold
(`handleSubmit` stores no NaN and `JSON.parse` produces none): in particular
for the roster of every state reachable from the initial state. -/
theorem stats_spec (students : List Student) :
    (stats students).total = students.length ∧
      (stats students).mustTakeExam = students.countP (fun s => s.grade.lt (.fin 5)) ∧
      (stats students).exempted = students.countP (fun s => s.grade.ge (.fin 5)) ∧
      (∀ st : Student, st.grade = .fin 5 →
        st.grade.ge (.fin 5) = true ∧ st.grade.lt (.fin 5) = false) ∧
      ((∀ st ∈ students, st.grade.isNaN = false) →
        (stats students).mustTakeExam + (stats students).exempted = (stats students).total) ∧
      (∀ s : State, Reachable s →
        (stats s.students).mustTakeExam + (stats s.students).exempted =
          (stats s.students).total) := by
  refine ⟨rfl, ?_, ?_, ?_, ?_, stats_partition_reachable⟩
  · simp [stats, List.countP_eq_length_filter]
  · simp [stats, List.countP_eq_length_filter]
  · intro st hst
    rw [hst]
    simp [Number.ge, Number.lt, Number.isNaN]
  · intro h
    exact filter_lt_add_filter_ge students h

/-- C6 at the roster with grades `6`, `4` and `5`: no grade is NaN, one Student
must take the exam and two are exempted, the `5` among them. -/
theorem stats_spec_witness :
    (∀ st ∈ [(⟨"Ana", "Lopez", "Math", .fin 6⟩ : Student), ⟨"Eva", "Diaz", "Art", .fin 4⟩,
              ⟨"Luz", "Rios", "Bio", .fin 5⟩], st.grade.isNaN = false) ∧
      stats [⟨"Ana", "Lopez", "Math", .fin 6⟩, ⟨"Eva", "Diaz", "Art", .fin 4⟩,
             ⟨"Luz", "Rios", "Bio", .fin 5⟩] = ⟨3, 1, 2⟩ ∧
      (stats [⟨"Ana", "Lopez", "Math", .fin 6⟩, ⟨"Eva", "Diaz", "Art", .fin 4⟩,
              ⟨"Luz", "Rios", "Bio", .fin 5⟩]).mustTakeExam +
          (stats [⟨"Ana", "Lopez", "Math", .fin 6⟩, ⟨"Eva", "Diaz", "Art", .fin 4⟩,
                  ⟨"Luz", "Rios", "Bio", .fin 5⟩]).exempted =
        (stats [⟨"Ana", "Lopez", "Math", .fin 6⟩, ⟨"Eva", "Diaz", "Art", .fin 4⟩,
                ⟨"Luz", "Rios", "Bio", .fin 5⟩]).total :=
  have hn : ∀ st ∈ [(⟨"Ana", "Lopez", "Math", .fin 6⟩ : Student),
      ⟨"Eva", "Diaz", "Art", .fin 4⟩, ⟨"Luz", "Rios", "Bio", .fin 5⟩],
      st.grade.isNaN = false := by decide
  ⟨hn, by decide, (stats_spec _).2.2.2.2.1 hn⟩

/-! ### C7: the appreciation bands -/

/-- The literal `6.5` is the Number of value `13 / 2`. -/
theorem lit65 : Number.ofDecimal false 65 (-1) = .fin (mkRat 13 2) := by decide

/-- The literal `5.6` is the binary64 value nearest to `56 / 10`. -/
theorem lit56 : Number.ofDecimal false 56 (-1) = .fin (mkRat 6305039478318694 (2 ^ 50)) := by
  decide

/-- The literal `4.0` is the Number of value `4`. -/
theorem lit40 : Number.ofDecimal false 40 (-1) = .fin 4 := by decide

/-- A cascade of three `>=` tests against decreasing finite thresholds sorts a
Number into four bands; NaN falls through every test. -/
theorem cascade_spec (grade : Number) (t1 t2 t3 : ℚ) (b1 b2 b3 b4 : String)
    (h12 : t2 < t1) (h23 : t3 < t2)
    (d12 : b1 ≠ b2) (d13 : b1 ≠ b3) (d14 : b1 ≠ b4) (d23 : b2 ≠ b3) (d24 : b2 ≠ b4)
    (d34 : b3 ≠ b4) :
    let r := if grade.ge (.fin t1) then b1 else if grade.ge (.fin t2) then b2
      else if grade.ge (.fin t3) then b3 else b4
    (r = b1 ↔ grade.ge (.fin t1) = true) ∧
      (r = b2 ↔ grade.ge (.fin t2) = true ∧ grade.lt (.fin t1) = true) ∧
      (r = b3 ↔ grade.ge (.fin t3) = true ∧ grade.lt (.fin t2) = true) ∧
      (r = b4 ↔ grade.lt (.fin t3) = true ∨ grade.isNaN = true) := by
  intro r
  have e12 := d12.symm
  have e13 := d13.symm
  have e14 := d14.symm
  have e23 := d23.symm
  have e24 := d24.symm
  have e34 := d34.symm
  cases grade with
  | nan => simp [r, Number.ge, Number.lt, Number.isNaN, e14, e24, e34]
  | posInf => simp [r, Number.ge, Number.lt, Number.isNaN, *]
  | negInf => simp [r, Number.ge, Number.lt, Number.isNaN, *]
  | fin q =>
    simp only [r, Number.ge, Number.lt, Number.isNaN]
    by_cases a : q < t1 <;> by_cases b : q < t2 <;> by_cases c : q < t3 <;>
      simp [a, b, c, *] <;> linarith

/-- The bands of `getApreciacion` on every value of the type `Number`: it
returns one of its four labels; "destacado" iff `grade >= 6.5`, "buen trabajo"
iff `grade >= 5.6` and `grade < 6.5`, "con mejora" iff `grade >= 4.0` and
`grade < 5.6`, and "deficiente" iff `grade < 4.0` or the value is NaN, which
fails every comparison.  The boundary values land on the closed lower bounds:
`6.5` is "destacado", `5.6` "buen trabajo", `4.0` "con mejora" and `3.99`
"deficiente". -/
theorem getApreciacion_bands (grade : Number) :
    getApreciacion grade ∈ ["destacado", "buen trabajo", "con mejora", "deficiente"] ∧
      (getApreciacion grade = "destacado" ↔
        grade.ge (Number.ofDecimal false 65 (-1)) = true) ∧
      (getApreciacion grade = "buen trabajo" ↔
        grade.ge (Number.ofDecimal false 56 (-1)) = true ∧
          grade.lt (Number.ofDecimal false 65 (-1)) = true) ∧
      (getApreciacion grade = "con mejora" ↔
        grade.ge (Number.ofDecimal false 40 (-1)) = true ∧
          grade.lt (Number.ofDecimal false 56 (-1)) = true) ∧
      (getApreciacion grade = "deficiente" ↔
        grade.lt (Number.ofDecimal false 40 (-1)) = true ∨ grade.isNaN = true) ∧
      getApreciacion (Number.ofDecimal false 65 (-1)) = "destacado" ∧
      getApreciacion (Number.ofDecimal false 56 (-1)) = "buen trabajo" ∧
      getApreciacion (Number.ofDecimal false 40 (-1)) = "con mejora" ∧
      getApreciacion (Number.ofDecimal false 399 (-2)) = "deficiente" := by
  have h := cascade_spec grade (mkRat 13 2) (mkRat 6305039478318694 (2 ^ 50)) 4
    "destacado" "buen trabajo" "con mejora" "deficiente"
    (by decide) (by decide) (by decide) (by decide) (by decide) (by decide) (by decide)
    (by decide)
  rw [← lit65, ← lit56, ← lit40] at h
  refine ⟨?_, h.1, h.2.1, h.2.2.1, h.2.2.2, by decide, by decide, by decide, by decide⟩
  unfold getApreciacion
  split_ifs <;> simp

/-- C7. `getApreciacion` maps every grade, a Number other than NaN as every
stored grade is, to exactly one of four bands with closed lower bounds: it
returns one of its four labels, "destacado" iff `grade >= 6.5`, "buen trabajo"
iff `5.6 <= grade < 6.5`, "con mejora" iff `4.0 <= grade < 5.6` and "deficiente"
iff `grade < 4.0`.  The boundary values: `6.5` is "destacado", `5.6`
"buen trabajo", `4.0` "con mejora" and `3.99` "deficiente". -/
theorem getApreciacion_spec (grade : Number) (hgrade : grade.isNaN = false) :
    getApreciacion grade ∈ ["destacado", "buen trabajo", "con mejora", "deficiente"] ∧
      (getApreciacion grade = "destacado" ↔
        grade.ge (Number.ofDecimal false 65 (-1)) = true) ∧
      (getApreciacion grade = "buen trabajo" ↔
        grade.ge (Number.ofDecimal false 56 (-1)) = true ∧
          grade.lt (Number.ofDecimal false 65 (-1)) = true) ∧
      (getApreciacion grade = "con mejora" ↔
        grade.ge (Number.ofDecimal false 40 (-1)) = true ∧
          grade.lt (Number.ofDecimal false 56 (-1)) = true) ∧
      (getApreciacion grade = "deficiente" ↔
        grade.lt (Number.ofDecimal false 40 (-1)) = true) ∧
      getApreciacion (Number.ofDecimal false 65 (-1)) = "destacado" ∧
      getApreciacion (Number.ofDecimal false 56 (-1)) = "buen trabajo" ∧
      getApreciacion (Number.ofDecimal false 40 (-1)) = "con mejora" ∧
      getApreciacion (Number.ofDecimal false 399 (-2)) = "deficiente" := by
  obtain ⟨h0, h1, h2, h3, h4, b1, b2, b3, b4⟩ := getApreciacion_bands grade
  refine ⟨h0, h1, h2, h3, ?_, b1, b2, b3, b4⟩
  rw [h4, hgrade]
  simp

/-- C7 at the grade `3.99`: it is not NaN, it is below `4.0`, and its band is
"deficiente", the band of the grades below `4.0`. -/
theorem getApreciacion_spec_witness :
    (Number.ofDecimal false 399 (-2)).isNaN = false ∧
      (Number.ofDecimal false 399 (-2)).lt (Number.ofDecimal false 40 (-1)) = true ∧
      (getApreciacion (Number.ofDecimal false 399 (-2)) = "deficiente" ↔
        (Number.ofDecimal false 399 (-2)).lt (Number.ofDecimal false 40 (-1)) = true) :=
  ⟨by decide, by decide,
    (getApreciacion_spec (Number.ofDecimal false 399 (-2)) (by decide)).2.2.2.2.1⟩

end App

/-! ### Rounding to binary64: bounds -/

namespace JS

/-- `bitLengthAux` of zero is zero. -/
theorem bitLengthAux_zero (fuel : Nat) : bitLengthAux fuel 0 = 0 := by
  cases fuel <;> simp [bitLengthAux]

/-- With enough fuel, `bitLengthAux` brackets a positive number between two powers of two. -/
theorem bitLengthAux_spec (fuel n : Nat) (hf : n ≤ fuel) (hn : n ≠ 0) :
    1 ≤ bitLengthAux fuel n ∧ 2 ^ (bitLengthAux fuel n - 1) ≤ n ∧ n < 2 ^ bitLengthAux fuel n := by
  induction fuel generalizing n with
  | zero => omega
  | succ fuel ih =>
    unfold bitLengthAux
    simp only [hn, if_false]
    by_cases h2 : n / 2 = 0
    · rw [h2, bitLengthAux_zero]
      have : n = 1 := by omega
      subst this
      simp
    · obtain ⟨h1, hlo, hhi⟩ := ih (n / 2) (by omega) h2
      refine ⟨by omega, ?_, ?_⟩
      · have e : bitLengthAux fuel (n / 2) + 1 - 1 = (bitLengthAux fuel (n / 2) - 1) + 1 := by
          omega
        rw [e, pow_succ]
        omega
      · rw [pow_succ]
        omega

/-- A positive number lies between the powers of two given by its bit length. -/
theorem bitLength_spec (n : Nat) (hn : n ≠ 0) :
    1 ≤ bitLength n ∧ 2 ^ (bitLength n - 1) ≤ n ∧ n < 2 ^ bitLength n :=
  bitLengthAux_spec n n le_rfl hn

/-- The comparison made by `floorLog2`, read in the rationals. -/
theorem floorLog2_test_iff (p q : Nat) (hq : q ≠ 0) (e : Int) :
    (if 0 ≤ e then q * 2 ^ e.toNat ≤ p else q ≤ p * 2 ^ (-e).toNat) ↔
      (2 : ℚ) ^ e ≤ (p : ℚ) / q := by
  have hq' : (0 : ℚ) < q := by exact_mod_cast Nat.pos_of_ne_zero hq
  split_ifs with h
  · obtain ⟨n, rfl⟩ := Int.eq_ofNat_of_zero_le h
    rw [Int.toNat_ofNat, zpow_natCast, le_div_iff₀ hq']
    constructor
    · intro h1
      have : ((q * 2 ^ n : ℕ) : ℚ) ≤ (p : ℚ) := by exact_mod_cast h1
      push_cast at this
      linarith
    · intro h1
      have : ((q * 2 ^ n : ℕ) : ℚ) ≤ (p : ℚ) := by push_cast; linarith
      exact_mod_cast this
  · obtain ⟨n, hn⟩ := Int.eq_ofNat_of_zero_le (by omega : 0 ≤ -e)
    have he : e = -(n : ℤ) := by omega
    rw [hn, Int.toNat_ofNat, he, zpow_neg, zpow_natCast, le_div_iff₀ hq']
    have h2 : (0 : ℚ) < 2 ^ n := by positivity
    rw [inv_mul_le_iff₀ h2]
    constructor
    · intro h1
      have : ((q : ℕ) : ℚ) ≤ ((p * 2 ^ n : ℕ) : ℚ) := by exact_mod_cast h1
      push_cast at this
      linarith
    · intro h1
      have : ((q : ℕ) : ℚ) ≤ ((p * 2 ^ n : ℕ) : ℚ) := by push_cast; linarith
      exact_mod_cast this

/-- For positive `p` and `q`, `floorLog2 p q` is the integer `e` with
`2 ^ e ≤ p / q < 2 ^ (e + 1)`. -/
theorem floorLog2_spec (p q : Nat) (hp : p ≠ 0) (hq : q ≠ 0) :
    (2 : ℚ) ^ floorLog2 p q ≤ (p : ℚ) / q ∧ (p : ℚ) / q < (2 : ℚ) ^ (floorLog2 p q + 1) := by
  have hq' : (0 : ℚ) < q := by exact_mod_cast Nat.pos_of_ne_zero hq
  have hp' : (0 : ℚ) < p := by exact_mod_cast Nat.pos_of_ne_zero hp
  obtain ⟨hp1, hplo, hphi⟩ := bitLength_spec p hp
  obtain ⟨hq1, hqlo, hqhi⟩ := bitLength_spec q hq
  have hplo' : (2 : ℚ) ^ ((bitLength p : ℤ) - 1) ≤ p := by
    have : ((2 ^ (bitLength p - 1) : ℕ) : ℚ) ≤ p := by exact_mod_cast hplo
    have e : ((bitLength p : ℤ) - 1) = ((bitLength p - 1 : ℕ) : ℤ) := by omega
    rw [e, zpow_natCast]
    exact_mod_cast this
  have hphi' : (p : ℚ) < (2 : ℚ) ^ (bitLength p : ℤ) := by
    rw [zpow_natCast]
    exact_mod_cast hphi
  have hqlo' : (2 : ℚ) ^ ((bitLength q : ℤ) - 1) ≤ q := by
    have : ((2 ^ (bitLength q - 1) : ℕ) : ℚ) ≤ q := by exact_mod_cast hqlo
    have e : ((bitLength q : ℤ) - 1) = ((bitLength q - 1 : ℕ) : ℤ) := by omega
    rw [e, zpow_natCast]
    exact_mod_cast this
  have hqhi' : (q : ℚ) < (2 : ℚ) ^ (bitLength q : ℤ) := by
    rw [zpow_natCast]
    exact_mod_cast hqhi
  have two_ne : (2 : ℚ) ≠ 0 := by norm_num
  -- the quotient lies strictly between `2 ^ (e₀ - 1)` and `2 ^ (e₀ + 1)`
  have hlow : (2 : ℚ) ^ ((bitLength p : ℤ) - (bitLength q : ℤ) - 1) < (p : ℚ) / q := by
    rw [lt_div_iff₀ hq']
    have e : ((bitLength p : ℤ) - (bitLength q : ℤ) - 1) =
        ((bitLength p : ℤ) - 1) - (bitLength q : ℤ) := by ring
    rw [e, zpow_sub₀ two_ne, div_mul_eq_mul_div, div_lt_iff₀ (by positivity)]
    have h0 : (0 : ℚ) < (2 : ℚ) ^ ((bitLength p : ℤ) - 1) := by positivity
    nlinarith
  have hupp : (p : ℚ) / q < (2 : ℚ) ^ ((bitLength p : ℤ) - (bitLength q : ℤ) + 1) := by
    rw [div_lt_iff₀ hq']
    have e : ((bitLength p : ℤ) - (bitLength q : ℤ) + 1) =
        (bitLength p : ℤ) - ((bitLength q : ℤ) - 1) := by ring
    rw [e, zpow_sub₀ two_ne, div_mul_eq_mul_div, lt_div_iff₀ (by positivity)]
    have h0 : (0 : ℚ) < (2 : ℚ) ^ ((bitLength q : ℤ) - 1) := by positivity
    nlinarith
  unfold floorLog2
  simp only
  by_cases ht : (if 0 ≤ (bitLength p : ℤ) - (bitLength q : ℤ)
      then q * 2 ^ ((bitLength p : ℤ) - (bitLength q : ℤ)).toNat ≤ p
      else q ≤ p * 2 ^ (-((bitLength p : ℤ) - (bitLength q : ℤ))).toNat)
  · rw [if_pos ht]
    exact ⟨(floorLog2_test_iff p q hq _).1 ht, hupp⟩
  · rw [if_neg ht]
    refine ⟨le_of_lt hlow, ?_⟩
    have := (floorLog2_test_iff p q hq ((bitLength p : ℤ) - (bitLength q : ℤ))).not.1 ht
    rw [sub_add_cancel]
    exact not_le.1 this

/-- Rounding to the nearest integer does not cross an integer above the quotient. -/
theorem roundHalfEven_le (P Q N : Nat) (hQ : Q ≠ 0) (h : P ≤ N * Q) : roundHalfEven P Q ≤ N := by
  have hd : P / Q ≤ N := by
    calc P / Q ≤ N * Q / Q := Nat.div_le_div_right h
      _ = N := Nat.mul_div_cancel N (Nat.pos_of_ne_zero hQ)
  have hdm := Nat.div_add_mod P Q
  have hr : P % Q < Q := Nat.mod_lt P (Nat.pos_of_ne_zero hQ)
  have hstep : 0 < P % Q → P / Q + 1 ≤ N := by
    intro hpos
    by_contra hcon
    have hN : N = P / Q := by omega
    rw [hN] at h
    have : Q * (P / Q) = P / Q * Q := Nat.mul_comm _ _
    omega
  unfold roundHalfEven
  simp only
  split_ifs <;> first | exact hd | exact hstep (by omega)

/-- Rounding to the nearest integer does not cross an integer below the quotient. -/
theorem le_roundHalfEven (P Q N : Nat) (hQ : Q ≠ 0) (h : N * Q ≤ P) : N ≤ roundHalfEven P Q := by
  have hd : N ≤ P / Q := (Nat.le_div_iff_mul_le (Nat.pos_of_ne_zero hQ)).2 h
  unfold roundHalfEven
  simp only
  split_ifs <;> omega

/-- A quotient less than one half above an integer rounds to that integer. -/
theorem roundHalfEven_eq (P Q N : Nat) (h1 : N * Q ≤ P)
    (h2 : 2 * P < (2 * N + 1) * Q) : roundHalfEven P Q = N := by
  have hd : P / Q = N := by
    apply Nat.div_eq_of_lt_le
    · exact h1
    · have : (2 * N + 1) * Q ≤ 2 * ((N + 1) * Q) := by
        have : (N + 1) * Q = N * Q + Q := by ring
        have : (2 * N + 1) * Q = 2 * (N * Q) + Q := by ring
        omega
      omega
  have hdm := Nat.div_add_mod P Q
  rw [hd] at hdm
  have h3 : (2 * N + 1) * Q = 2 * (Q * N) + Q := by ring
  have hr : 2 * (P % Q) < Q := by omega
  unfold roundHalfEven
  simp only [hr, if_true, hd]

namespace Number

/-- The value of `scale m s` is `m * 2 ^ s`. -/
theorem scale_eq (m : Nat) (s : Int) : scale m s = (m : ℚ) * (2 : ℚ) ^ s := by
  unfold scale
  split_ifs with h
  · obtain ⟨n, rfl⟩ := Int.eq_ofNat_of_zero_le h
    rw [Int.toNat_ofNat, zpow_natCast]
    push_cast
    rfl
  · obtain ⟨n, hn⟩ := Int.eq_ofNat_of_zero_le (by omega : 0 ≤ -s)
    have he : s = -(n : ℤ) := by omega
    rw [hn, Int.toNat_ofNat, he, zpow_neg, zpow_natCast, Rat.mkRat_eq_div]
    push_cast
    rw [div_eq_mul_inv]

/-- The quotient that `mantissa` rounds, as a pair of naturals. -/
theorem mantissa_eq_round (p q : Nat) (s : Int) :
    ∃ P Q : Nat, mantissa p q s = roundHalfEven P Q ∧ (q ≠ 0 → Q ≠ 0) ∧
      (P : ℚ) * (q : ℚ) * (2 : ℚ) ^ s = (p : ℚ) * (Q : ℚ) := by
  unfold mantissa
  split_ifs with h
  · obtain ⟨n, rfl⟩ := Int.eq_ofNat_of_zero_le h
    refine ⟨p, q * 2 ^ n, by rw [Int.toNat_ofNat], ?_, ?_⟩
    · intro hq
      exact Nat.mul_ne_zero hq (by positivity)
    · rw [zpow_natCast]
      push_cast
      ring
  · obtain ⟨n, hn⟩ := Int.eq_ofNat_of_zero_le (by omega : 0 ≤ -s)
    have he : s = -(n : ℤ) := by omega
    refine ⟨p * 2 ^ n, q, by rw [hn, Int.toNat_ofNat], fun hq => hq, ?_⟩
    rw [he, zpow_neg, zpow_natCast]
    push_cast
    have h2 : (2 : ℚ) ^ n ≠ 0 := by positivity
    field_simp
    ring

/-- If `p / q ≤ N * 2 ^ s` then the mantissa at scale `s` is at most `N`. -/
theorem mantissa_le (p q N : Nat) (s : Int) (hq : q ≠ 0)
    (h : (p : ℚ) / q ≤ (N : ℚ) * (2 : ℚ) ^ s) : mantissa p q s ≤ N := by
  obtain ⟨P, Q, hm, hQ, hPQ⟩ := mantissa_eq_round p q s
  have hq' : (0 : ℚ) < q := by exact_mod_cast Nat.pos_of_ne_zero hq
  have hQ' : (0 : ℚ) < Q := by exact_mod_cast Nat.pos_of_ne_zero (hQ hq)
  have h2 : (0 : ℚ) < (2 : ℚ) ^ s := by positivity
  rw [hm]
  apply roundHalfEven_le P Q N (hQ hq)
  rw [div_le_iff₀ hq'] at h
  have h3 : (P : ℚ) * (q * (2 : ℚ) ^ s) ≤ ((N : ℚ) * Q) * (q * (2 : ℚ) ^ s) := by
    calc (P : ℚ) * (q * (2 : ℚ) ^ s) = (p : ℚ) * Q := by rw [← hPQ]; ring
      _ ≤ ((N : ℚ) * (2 : ℚ) ^ s * q) * Q := mul_le_mul_of_nonneg_right h hQ'.le
      _ = ((N : ℚ) * Q) * (q * (2 : ℚ) ^ s) := by ring
  have h4 : (P : ℚ) ≤ (N : ℚ) * Q := le_of_mul_le_mul_right h3 (by positivity)
  exact_mod_cast h4

/-- If `N * 2 ^ s ≤ p / q` then the mantissa at scale `s` is at least `N`. -/
theorem le_mantissa (p q N : Nat) (s : Int) (hq : q ≠ 0)
    (h : (N : ℚ) * (2 : ℚ) ^ s ≤ (p : ℚ) / q) : N ≤ mantissa p q s := by
  obtain ⟨P, Q, hm, hQ, hPQ⟩ := mantissa_eq_round p q s
  have hq' : (0 : ℚ) < q := by exact_mod_cast Nat.pos_of_ne_zero hq
  have hQ' : (0 : ℚ) < Q := by exact_mod_cast Nat.pos_of_ne_zero (hQ hq)
  have h2 : (0 : ℚ) < (2 : ℚ) ^ s := by positivity
  rw [hm]
  apply le_roundHalfEven P Q N (hQ hq)
  rw [le_div_iff₀ hq'] at h
  have h3 : ((N : ℚ) * Q) * (q * (2 : ℚ) ^ s) ≤ (P : ℚ) * (q * (2 : ℚ) ^ s) := by
    calc ((N : ℚ) * Q) * (q * (2 : ℚ) ^ s) = ((N : ℚ) * (2 : ℚ) ^ s * q) * Q := by ring
      _ ≤ (p : ℚ) * Q := mul_le_mul_of_nonneg_right h hQ'.le
      _ = (P : ℚ) * (q * (2 : ℚ) ^ s) := by rw [← hPQ]; ring
  have h4 : (N : ℚ) * Q ≤ (P : ℚ) := le_of_mul_le_mul_right h3 (by positivity)
  exact_mod_cast h4

/-- If `N * 2 ^ s ≤ p / q < (N + 1/2) * 2 ^ s` then the mantissa at scale `s` is `N`. -/
theorem mantissa_eq (p q N : Nat) (s : Int) (hq : q ≠ 0)
    (h1 : (N : ℚ) * (2 : ℚ) ^ s ≤ (p : ℚ) / q)
    (h2 : (p : ℚ) / q < ((N : ℚ) + 1 / 2) * (2 : ℚ) ^ s) : mantissa p q s = N := by
  obtain ⟨P, Q, hm, hQ, hPQ⟩ := mantissa_eq_round p q s
  have hq' : (0 : ℚ) < q := by exact_mod_cast Nat.pos_of_ne_zero hq
  have hQ' : (0 : ℚ) < Q := by exact_mod_cast Nat.pos_of_ne_zero (hQ hq)
  have hs : (0 : ℚ) < (2 : ℚ) ^ s := by positivity
  rw [hm]
  apply roundHalfEven_eq P Q N
  · rw [le_div_iff₀ hq'] at h1
    have h3 : ((N : ℚ) * Q) * (q * (2 : ℚ) ^ s) ≤ (P : ℚ) * (q * (2 : ℚ) ^ s) := by
      calc ((N : ℚ) * Q) * (q * (2 : ℚ) ^ s) = ((N : ℚ) * (2 : ℚ) ^ s * q) * Q := by ring
        _ ≤ (p : ℚ) * Q := mul_le_mul_of_nonneg_right h1 hQ'.le
        _ = (P : ℚ) * (q * (2 : ℚ) ^ s) := by rw [← hPQ]; ring
    have h4 : (N : ℚ) * Q ≤ (P : ℚ) := le_of_mul_le_mul_right h3 (by positivity)
    exact_mod_cast h4
  · rw [div_lt_iff₀ hq'] at h2
    have h3 : (2 * (P : ℚ)) * (q * (2 : ℚ) ^ s) < ((2 * (N : ℚ) + 1) * Q) * (q * (2 : ℚ) ^ s) := by
      calc (2 * (P : ℚ)) * (q * (2 : ℚ) ^ s) = 2 * ((p : ℚ) * Q) := by rw [← hPQ]; ring
        _ < 2 * ((((N : ℚ) + 1 / 2) * (2 : ℚ) ^ s * q) * Q) := by
          have := mul_lt_mul_of_pos_right h2 hQ'
          linarith
        _ = ((2 * (N : ℚ) + 1) * Q) * (q * (2 : ℚ) ^ s) := by ring
    have h4 : 2 * (P : ℚ) < (2 * (N : ℚ) + 1) * Q := lt_of_mul_lt_mul_right h3 (by positivity)
    exact_mod_cast h4

/-- The binary exponent found by `floorLog2` is the only one that brackets the quotient. -/
theorem floorLog2_eq (p q : Nat) (hp : p ≠ 0) (hq : q ≠ 0) (k : Int)
    (h1 : (2 : ℚ) ^ k ≤ (p : ℚ) / q) (h2 : (p : ℚ) / q < (2 : ℚ) ^ (k + 1)) :
    floorLog2 p q = k := by
  obtain ⟨h3, h4⟩ := floorLog2_spec p q hp hq
  have a : floorLog2 p q < k + 1 :=
    (zpow_lt_zpow_iff_right₀ (by norm_num : (1 : ℚ) < 2)).1 (lt_of_le_of_lt h3 h2)
  have b : k < floorLog2 p q + 1 :=
    (zpow_lt_zpow_iff_right₀ (by norm_num : (1 : ℚ) < 2)).1 (lt_of_le_of_lt h1 h4)
  omega

/-- A quotient of at most `2 ^ k` has binary exponent at most `k`. -/
theorem floorLog2_le (p q : Nat) (hp : p ≠ 0) (hq : q ≠ 0) (k : Int)
    (h : (p : ℚ) / q ≤ (2 : ℚ) ^ k) : floorLog2 p q ≤ k :=
  (zpow_le_zpow_iff_right₀ (by norm_num : (1 : ℚ) < 2)).1
    (le_trans (floorLog2_spec p q hp hq).1 h)

/-- Rounding a positive quotient of at most `2 ^ k`, with `-1022 ≤ k ≤ 1023`, gives
a finite Number of magnitude at most `2 ^ k`, with the sign asked for. -/
theorem ofFrac_le (neg : Bool) (p q : Nat) (hp : p ≠ 0) (hq : q ≠ 0) (k : Int)
    (hk1 : -1022 ≤ k) (hk2 : k ≤ 1023) (h : (p : ℚ) / q ≤ (2 : ℚ) ^ k) :
    ∃ y : ℚ, ofFrac neg p q = fin (if neg then -y else y) ∧ 0 ≤ y ∧ y ≤ (2 : ℚ) ^ k := by
  have he0 := floorLog2_le p q hp hq k h
  have he : max (floorLog2 p q) (-1022) ≤ k := max_le he0 hk1
  have hge : (-1022 : ℤ) ≤ max (floorLog2 p q) (-1022) := le_max_right _ _
  obtain ⟨n, hn⟩ := Int.eq_ofNat_of_zero_le
    (by omega : 0 ≤ k - (max (floorLog2 p q) (-1022) - 52))
  have two_ne : (2 : ℚ) ≠ 0 := by norm_num
  have hsplit : (2 : ℚ) ^ k = ((2 ^ n : ℕ) : ℚ) * (2 : ℚ) ^ (max (floorLog2 p q) (-1022) - 52) := by
    push_cast
    rw [← zpow_natCast, ← zpow_add₀ two_ne, ← hn]
    congr 1
    ring
  have hm : mantissa p q (max (floorLog2 p q) (-1022) - 52) ≤ 2 ^ n :=
    mantissa_le p q (2 ^ n) _ hq (hsplit ▸ h)
  have hno : ¬ (1023 < max (floorLog2 p q) (-1022) ∨
      (max (floorLog2 p q) (-1022) = 1023 ∧
        2 ^ 53 ≤ mantissa p q (max (floorLog2 p q) (-1022) - 52))) := by
    rintro (h1 | ⟨h1, h2⟩)
    · omega
    · have hn52 : n = 52 := by omega
      rw [hn52] at hm
      have : (2 : ℕ) ^ 52 < 2 ^ 53 := by norm_num
      omega
  refine ⟨scale (mantissa p q (max (floorLog2 p q) (-1022) - 52))
    (max (floorLog2 p q) (-1022) - 52), ?_, ?_, ?_⟩
  · unfold ofFrac
    simp only [hp, if_false, hno]
  · rw [scale_eq]
    positivity
  · rw [scale_eq, hsplit]
    have : (mantissa p q (max (floorLog2 p q) (-1022) - 52) : ℚ) ≤ ((2 ^ n : ℕ) : ℚ) := by
      exact_mod_cast hm
    exact mul_le_mul_of_nonneg_right this (by positivity)

/-- A quotient in `[2 ^ k, 2 ^ k + 2 ^ (k - 53))`, less than half a unit in the
last place above `2 ^ k`, rounds to `2 ^ k`. -/
theorem ofFrac_absorb (neg : Bool) (p q : Nat) (hp : p ≠ 0) (hq : q ≠ 0) (k : Int)
    (hk1 : -1022 ≤ k) (hk2 : k ≤ 1023) (h1 : (2 : ℚ) ^ k ≤ (p : ℚ) / q)
    (h2 : (p : ℚ) / q < (2 : ℚ) ^ k + (2 : ℚ) ^ (k - 53)) :
    ofFrac neg p q = fin (if neg then -(2 : ℚ) ^ k else (2 : ℚ) ^ k) := by
  have two_ne : (2 : ℚ) ≠ 0 := by norm_num
  have hk53 : (2 : ℚ) ^ (k - 53) < (2 : ℚ) ^ k :=
    zpow_lt_zpow_right₀ (by norm_num) (by omega)
  have hk1' : (2 : ℚ) ^ (k + 1) = 2 * (2 : ℚ) ^ k := by
    rw [zpow_add₀ two_ne, zpow_one, mul_comm]
  have he0 : floorLog2 p q = k :=
    floorLog2_eq p q hp hq k h1 (by rw [hk1']; linarith)
  have he : max (floorLog2 p q) (-1022) = k := by rw [he0]; exact max_eq_left hk1
  have hA : ((2 ^ 52 : ℕ) : ℚ) * (2 : ℚ) ^ (k - 52) = (2 : ℚ) ^ k := by
    rw [show ((2 ^ 52 : ℕ) : ℚ) = (2 : ℚ) ^ (52 : ℤ) by norm_num, ← zpow_add₀ two_ne]
    congr 1
    ring
  have hB : (1 / 2 : ℚ) * (2 : ℚ) ^ (k - 52) = (2 : ℚ) ^ (k - 53) := by
    have e : k - 52 = (k - 53) + 1 := by ring
    rw [e, zpow_add₀ two_ne, zpow_one]
    ring
  have hm : mantissa p q (k - 52) = 2 ^ 52 := by
    apply mantissa_eq p q (2 ^ 52) (k - 52) hq
    · rw [hA]; exact h1
    · rw [add_mul, hA, hB]; exact h2
  have hno : ¬ (1023 < k ∨ (k = 1023 ∧ 2 ^ 53 ≤ mantissa p q (k - 52))) := by
    rintro (h3 | ⟨_, h3⟩)
    · omega
    · rw [hm] at h3
      norm_num at h3
  rw [hm] at hno
  unfold ofFrac
  simp only [hp, if_false, he, hm, hno, scale_eq, hA]

/-- Rounding a quotient of at least one gives `+∞` or a finite Number of at least one. -/
theorem ofFrac_ge_one (p q : Nat) (hp : p ≠ 0) (hq : q ≠ 0) (h : (1 : ℚ) ≤ (p : ℚ) / q) :
    ofFrac false p q = posInf ∨ ∃ y : ℚ, ofFrac false p q = fin y ∧ 1 ≤ y := by
  have two_ne : (2 : ℚ) ≠ 0 := by norm_num
  obtain ⟨h3, h4⟩ := floorLog2_spec p q hp hq
  have he0 : 0 ≤ floorLog2 p q := by
    have : (2 : ℚ) ^ (0 : ℤ) < (2 : ℚ) ^ (floorLog2 p q + 1) := by
      rw [zpow_zero]; exact lt_of_le_of_lt h h4
    have := (zpow_lt_zpow_iff_right₀ (by norm_num : (1 : ℚ) < 2)).1 this
    omega
  have he : max (floorLog2 p q) (-1022) = floorLog2 p q := max_eq_left (by omega)
  have hA : ((2 ^ 52 : ℕ) : ℚ) * (2 : ℚ) ^ (floorLog2 p q - 52) = (2 : ℚ) ^ floorLog2 p q := by
    rw [show ((2 ^ 52 : ℕ) : ℚ) = (2 : ℚ) ^ (52 : ℤ) by norm_num, ← zpow_add₀ two_ne]
    congr 1
    ring
  have hm : 2 ^ 52 ≤ mantissa p q (floorLog2 p q - 52) :=
    le_mantissa p q (2 ^ 52) _ hq (by rw [hA]; exact h3)
  by_cases hov : 1023 < floorLog2 p q ∨
      (floorLog2 p q = 1023 ∧ 2 ^ 53 ≤ mantissa p q (floorLog2 p q - 52))
  · left
    unfold ofFrac
    simp only [hp, if_false, he, hov, if_true, Bool.false_eq_true]
  · right
    refine ⟨scale (mantissa p q (floorLog2 p q - 52)) (floorLog2 p q - 52), ?_, ?_⟩
    · unfold ofFrac
      simp only [hp, if_false, he, hov, Bool.false_eq_true]
    · rw [scale_eq]
      have h1 : (1 : ℚ) ≤ (2 : ℚ) ^ floorLog2 p q := by
        have := zpow_le_zpow_right₀ (by norm_num : (1 : ℚ) ≤ 2) he0
        rwa [zpow_zero] at this
      have h2 : ((2 ^ 52 : ℕ) : ℚ) ≤ (mantissa p q (floorLog2 p q - 52) : ℚ) := by
        exact_mod_cast hm
      calc (1 : ℚ) ≤ (2 : ℚ) ^ floorLog2 p q := h1
        _ = ((2 ^ 52 : ℕ) : ℚ) * (2 : ℚ) ^ (floorLog2 p q - 52) := hA.symm
        _ ≤ _ := mul_le_mul_of_nonneg_right h2 (by positivity)

end Number

end JS

/-! ### The average: `toFixed(2)` and the size of the mean -/

namespace JS

/-- The accumulator of `natDigitsAux` is only ever extended at the front. -/
theorem natDigitsAux_append (fuel n : Nat) (acc : List Char) :
    natDigitsAux fuel n acc = natDigitsAux fuel n [] ++ acc := by
  induction fuel generalizing n acc with
  | zero => simp [natDigitsAux]
  | succ fuel ih =>
    unfold natDigitsAux
    split
    · simp
    · rw [ih (n / 10) (digitChar (n % 10) :: acc), ih (n / 10) [digitChar (n % 10)]]
      simp

/-- Any fuel above `n` gives `natDigitsAux` the same result on `n`. -/
theorem natDigitsAux_fuel (fuel fuel' n : Nat) (acc : List Char) (h : n < fuel) (h' : n < fuel') :
    natDigitsAux fuel n acc = natDigitsAux fuel' n acc := by
  induction fuel generalizing fuel' n acc with
  | zero => omega
  | succ fuel ih =>
    cases fuel' with
    | zero => omega
    | succ fuel' =>
      unfold natDigitsAux
      split
      · rfl
      · exact ih fuel' (n / 10) _ (by omega) (by omega)

/-- A number below ten has one digit. -/
theorem natDigits_of_lt {n : Nat} (h : n < 10) : natDigits n = [digitChar n] := by
  simp [natDigits, natDigitsAux, h]

/-- The digits of `n ≥ 10` are those of `n / 10` followed by the digit `n % 10`. -/
theorem natDigits_of_ge {n : Nat} (h : 10 ≤ n) :
    natDigits n = natDigits (n / 10) ++ [digitChar (n % 10)] := by
  have h' : ¬ n < 10 := by omega
  rw [natDigits, natDigitsAux]
  simp only [h', if_false]
  rw [natDigitsAux_append, natDigits]
  rw [natDigitsAux_fuel n (n / 10 + 1) (n / 10) [] (by omega) (by omega)]

/-- Every number has at least one digit. -/
theorem natDigits_length_pos (n : Nat) : 0 < (natDigits n).length := by
  rcases Nat.lt_or_ge n 10 with h | h
  · simp [natDigits_of_lt h]
  · simp [natDigits_of_ge h]

/-- The digits of `n` are those of `n / 100`, when it is not zero, followed by the
tens digit, when `n ≥ 10`, and the units digit. -/
theorem natDigits_split (n : Nat) :
    natDigits n = if n < 100 then (if n < 10 then [digitChar n]
        else [digitChar (n / 10 % 10), digitChar (n % 10)])
      else natDigits (n / 100) ++ [digitChar (n / 10 % 10), digitChar (n % 10)] := by
  split_ifs with h1 h2
  · exact natDigits_of_lt h2
  · have h3 : n / 10 < 10 := by omega
    have h4 : n / 10 % 10 = n / 10 := Nat.mod_eq_of_lt h3
    rw [natDigits_of_ge (by omega), natDigits_of_lt h3, h4]
    rfl
  · rw [natDigits_of_ge (by omega), natDigits_of_ge (n := n / 10) (by omega),
      Nat.div_div_eq_div_mul]
    simp

/-- The padding and splitting done by `toFixed(2)` on the digits of `n`. -/
theorem toFixed_split (n : Nat) :
    (if (natDigits n).length ≤ 2
        then List.replicate (2 + 1 - (natDigits n).length) '0' ++ natDigits n
        else natDigits n).take
          ((if (natDigits n).length ≤ 2
            then List.replicate (2 + 1 - (natDigits n).length) '0' ++ natDigits n
            else natDigits n).length - 2) ++
      '.' :: (if (natDigits n).length ≤ 2
        then List.replicate (2 + 1 - (natDigits n).length) '0' ++ natDigits n
        else natDigits n).drop
          ((if (natDigits n).length ≤ 2
            then List.replicate (2 + 1 - (natDigits n).length) '0' ++ natDigits n
            else natDigits n).length - 2) = twoDecimals n := by
  have hz : digitChar 0 = '0' := by decide
  unfold twoDecimals
  rcases Nat.lt_or_ge n 10 with h1 | h1
  · have h0 : n / 100 = 0 := by omega
    have h3 : n / 10 % 10 = 0 := by omega
    have h4 : n % 10 = n := by omega
    rw [natDigits_of_lt h1, h0, h3, h4, natDigits_of_lt (by omega : 0 < 10), hz]
    rfl
  · rcases Nat.lt_or_ge n 100 with h2 | h2
    · have h0 : n / 100 = 0 := by omega
      have h3 : n / 10 < 10 := by omega
      have h4 : n / 10 % 10 = n / 10 := Nat.mod_eq_of_lt h3
      rw [natDigits_of_ge h1, natDigits_of_lt h3, h0, h4, natDigits_of_lt (by omega : 0 < 10), hz]
      rfl
    · have hpos := natDigits_length_pos (n / 100)
      have hs : natDigits n =
          natDigits (n / 100) ++ [digitChar (n / 10 % 10), digitChar (n % 10)] := by
        rw [natDigits_of_ge h1, natDigits_of_ge (n := n / 10) (by omega),
          Nat.div_div_eq_div_mul]
        simp
      have hlen : ¬ (natDigits n).length ≤ 2 := by
        rw [hs, List.length_append]
        simp only [List.length_cons, List.length_nil]
        omega
      simp only [hlen, if_false]
      rw [hs]
      simp

/-- The absolute value of a rational is its numerator's magnitude over its denominator. -/
theorem abs_eq_natAbs_div (q : ℚ) : |q| = (q.num.natAbs : ℚ) / (q.den : ℚ) := by
  rw [Rat.abs_def, Rat.divInt_eq_div, Int.cast_natCast, Int.cast_natCast]

/-- The integer chosen by `toFixed(2)`: the nearest number of hundredths, a tie
going to the larger one. -/
theorem hundredths_eq_floor (q : ℚ) :
    (2 * q.num.natAbs * 10 ^ 2 + q.den) / (2 * q.den) = ⌊|q| * 100 + 1 / 2⌋₊ := by
  have hd : (0 : ℚ) < q.den := by exact_mod_cast q.den_pos
  have h : |q| * 100 + 1 / 2 =
      ((2 * q.num.natAbs * 10 ^ 2 + q.den : ℕ) : ℚ) / ((2 * q.den : ℕ) : ℚ) := by
    rw [abs_eq_natAbs_div]
    push_cast
    field_simp
    ring
  rw [h, Nat.floor_div_eq_div]

/-- `toFixed(2)` on a finite Number of magnitude below `10 ^ 21`. -/
theorem toFixedChars_two (q : ℚ) (h : |q| < 10 ^ 21) :
    toFixedChars (.fin q) 2 =
      (if q < 0 then ['-'] else []) ++ twoDecimals ⌊|q| * 100 + 1 / 2⌋₊ := by
  have hd : (0 : ℚ) < q.den := by exact_mod_cast q.den_pos
  have hbig : ¬ q.den * 10 ^ 21 ≤ q.num.natAbs := by
    intro hle
    have hle' : (q.den : ℚ) * 10 ^ 21 ≤ (q.num.natAbs : ℚ) := by exact_mod_cast hle
    rw [abs_eq_natAbs_div, div_lt_iff₀ hd] at h
    linarith
  unfold toFixedChars
  simp only [hbig, if_false]
  rw [← hundredths_eq_floor, ← toFixed_split]
  simp

end JS

namespace App

open JS

/-- On a non-empty roster `average` is `toFixed(2)` of `mean`. -/
theorem average_of_ne_nil (students : List Student) (h : students ≠ []) :
    average students = (mean students).toFixed 2 := by
  have hl : students.length ≠ 0 := by simpa using h
  simp [average, mean, hl]

/-- Rounding half up to an integer moves a non-negative rational by at most one half. -/
theorem abs_floor_half_sub_le (x : ℚ) (hx : 0 ≤ x) : |(⌊x + 1 / 2⌋₊ : ℚ) - x| ≤ 1 / 2 := by
  have h1 : (⌊x + 1 / 2⌋₊ : ℚ) ≤ x + 1 / 2 := Nat.floor_le (by linarith)
  have h2 : x + 1 / 2 < (⌊x + 1 / 2⌋₊ : ℚ) + 1 := Nat.lt_floor_add_one _
  rw [abs_le]
  constructor <;> linarith

/-- Adding a grade of at most `7` to a non-negative sum of at most `2 ^ 60` gives
a finite non-negative sum of at most `2 ^ 60`: what exceeds `2 ^ 60` is rounded away. -/
theorem add_fin_bound (a b : ℚ) (ha : 0 ≤ a) (ha' : a ≤ (2 : ℚ) ^ (60 : ℤ)) (hb : 0 ≤ b)
    (hb' : b ≤ 7) :
    ∃ c : ℚ, Number.add (.fin a) (.fin b) = .fin c ∧ 0 ≤ c ∧ c ≤ (2 : ℚ) ^ (60 : ℤ) := by
  have hn : 0 ≤ a.num * b.den + b.num * a.den := by
    have h1 : 0 ≤ a.num := Rat.num_nonneg.2 ha
    have h2 : 0 ≤ b.num := Rat.num_nonneg.2 hb
    positivity
  have hneg : decide (a.num * b.den + b.num * a.den < 0) = false := by
    simp only [decide_eq_false_iff_not, not_lt]; exact hn
  have had : (0 : ℚ) < a.den := by exact_mod_cast a.den_pos
  have hbd : (0 : ℚ) < b.den := by exact_mod_cast b.den_pos
  have hval : (((a.num * b.den + b.num * a.den).natAbs : ℕ) : ℚ) / ((a.den * b.den : ℕ) : ℚ) =
      a + b := by
    have e : (((a.num * b.den + b.num * a.den).natAbs : ℕ) : ℚ) =
        ((a.num * b.den + b.num * a.den : ℤ) : ℚ) := by
      rw [← Int.cast_natCast, Int.natAbs_of_nonneg hn]
    rw [e]
    push_cast
    rw [div_eq_iff (by positivity), ← Rat.mul_den_eq_num a, ← Rat.mul_den_eq_num b]
    ring
  have hden : a.den * b.den ≠ 0 := Nat.mul_ne_zero a.den_nz b.den_nz
  show ∃ c : ℚ, Number.ofIntFrac _ _ = .fin c ∧ _
  unfold Number.ofIntFrac
  rw [hneg]
  by_cases hz : (a.num * b.den + b.num * a.den).natAbs = 0
  · refine ⟨0, ?_, le_refl _, by positivity⟩
    simp [Number.ofFrac, hz]
  · by_cases hle : a + b ≤ (2 : ℚ) ^ (60 : ℤ)
    · obtain ⟨y, hy, hy0, hy1⟩ := Number.ofFrac_le false _ _ hz hden 60 (by norm_num)
        (by norm_num) (by rw [hval]; exact hle)
      exact ⟨y, by simpa using hy, hy0, hy1⟩
    · have habs := Number.ofFrac_absorb false _ _ hz hden 60 (by norm_num) (by norm_num)
        (by rw [hval]; linarith)
        (by rw [hval]
            have : (7 : ℚ) < (2 : ℚ) ^ ((60 : ℤ) - 53) := by norm_num
            linarith)
      exact ⟨(2 : ℚ) ^ (60 : ℤ), by simpa using habs, by positivity, le_refl _⟩

/-- The sum that `average` accumulates over grades between `1` and `7` stays a
finite Number between `0` and `2 ^ 60`. -/
theorem foldl_add_bound (students : List Student) (h : ∀ st ∈ students, GradeInRange st)
    (a : ℚ) (ha : 0 ≤ a) (ha' : a ≤ (2 : ℚ) ^ (60 : ℤ)) :
    ∃ c : ℚ, students.foldl (fun (acc : Number) s => acc.add s.grade) (.fin a) = .fin c ∧
      0 ≤ c ∧ c ≤ (2 : ℚ) ^ (60 : ℤ) := by
  induction students generalizing a with
  | nil => exact ⟨a, rfl, ha, ha'⟩
  | cons st rest ih =>
    obtain ⟨g, hg, hg1, hg7⟩ := h st (List.mem_cons_self _ _)
    obtain ⟨c, hc, hc0, hc1⟩ := add_fin_bound a g ha ha' (by linarith) hg7
    rw [List.foldl_cons, hg, hc]
    exact ih (fun x hx => h x (List.mem_cons_of_mem _ hx)) c hc0 hc1

/-- Dividing a finite non-negative sum of at most `2 ^ 60` by a positive length
gives a finite non-negative Number of at most `2 ^ 60`. -/
theorem div_ofNat_bound (a : ℚ) (ha : 0 ≤ a) (ha' : a ≤ (2 : ℚ) ^ (60 : ℤ)) (n : Nat)
    (hn : n ≠ 0) :
    ∃ m : ℚ, Number.div (.fin a) (Number.ofNat n) = .fin m ∧ 0 ≤ m ∧ m ≤ (2 : ℚ) ^ (60 : ℤ) := by
  have hn1 : (1 : ℚ) ≤ (n : ℚ) / ((1 : ℕ) : ℚ) := by
    have : (1 : ℚ) ≤ n := by exact_mod_cast Nat.one_le_iff_ne_zero.2 hn
    simpa using this
  rcases Number.ofFrac_ge_one n 1 hn one_ne_zero hn1 with hinf | ⟨v, hv, hv1⟩
  · refine ⟨0, ?_, le_refl _, by positivity⟩
    rw [Number.ofNat, hinf]
    rfl
  · have hv0 : v ≠ 0 := by intro h0; rw [h0] at hv1; norm_num at hv1
    have hvpos : 0 < v := by linarith
    have hvn : 0 < v.num := Rat.num_pos.2 hvpos
    have han : 0 ≤ a.num := Rat.num_nonneg.2 ha
    have hsign : (decide (a.num < 0) != decide (v.num < 0)) = false := by
      have h1 : decide (a.num < 0) = false := by
        simp only [decide_eq_false_iff_not, not_lt]; exact han
      have h2 : decide (v.num < 0) = false := by
        simp only [decide_eq_false_iff_not, not_lt]; exact hvn.le
      rw [h1, h2]; rfl
    rw [Number.ofNat, hv]
    show ∃ m : ℚ, (if v = 0 then _ else _) = Number.fin m ∧ _
    rw [if_neg hv0, hsign]
    by_cases hz : a.num.natAbs * v.den = 0
    · refine ⟨0, ?_, le_refl _, by positivity⟩
      simp [Number.ofFrac, hz]
    · have hden : a.den * v.num.natAbs ≠ 0 :=
        Nat.mul_ne_zero a.den_nz (Int.natAbs_ne_zero.2 hvn.ne')
      have hval : ((a.num.natAbs * v.den : ℕ) : ℚ) / ((a.den * v.num.natAbs : ℕ) : ℚ) = a / v := by
        have e1 : ((a.num.natAbs : ℕ) : ℚ) = ((a.num : ℤ) : ℚ) := by
          rw [← Int.cast_natCast, Int.natAbs_of_nonneg han]
        have e2 : ((v.num.natAbs : ℕ) : ℚ) = ((v.num : ℤ) : ℚ) := by
          rw [← Int.cast_natCast, Int.natAbs_of_nonneg hvn.le]
        have hvd : (0 : ℚ) < v.den := by exact_mod_cast v.den_pos
        have had : (0 : ℚ) < a.den := by exact_mod_cast a.den_pos
        have hvn' : (0 : ℚ) < (v.num : ℚ) := by exact_mod_cast hvn
        push_cast
        rw [e1, e2, div_eq_div_iff (by positivity) hvpos.ne', ← Rat.mul_den_eq_num a,
          ← Rat.mul_den_eq_num v]
        ring
      have hle : a / v ≤ (2 : ℚ) ^ (60 : ℤ) := by
        rw [div_le_iff₀ hvpos]
        have : (0 : ℚ) ≤ (2 : ℚ) ^ (60 : ℤ) := by positivity
        nlinarith
      obtain ⟨y, hy, hy0, hy1⟩ := Number.ofFrac_le false _ _ hz hden 60 (by norm_num)
        (by norm_num) (by rw [hval]; exact hle)
      exact ⟨y, by simpa using hy, hy0, hy1⟩

/-- The mean of a non-empty roster with grades between `1` and `7` is a finite
Number between `0` and `2 ^ 60`, so below `10 ^ 21`. -/
theorem mean_of_gradeInRange (students : List Student) (hne : students ≠ [])
    (h : ∀ st ∈ students, GradeInRange st) :
    ∃ m : ℚ, mean students = .fin m ∧ |m| < 10 ^ 21 := by
  obtain ⟨c, hc, hc0, hc1⟩ := foldl_add_bound students h 0 (le_refl _) (by positivity)
  have hl : students.length ≠ 0 := by simpa using hne
  obtain ⟨m, hm, hm0, hm1⟩ := div_ofNat_bound c hc0 hc1 students.length hl
  refine ⟨m, ?_, ?_⟩
  · rw [mean, hc, hm]
  · rw [abs_of_nonneg hm0]
    have : (2 : ℚ) ^ (60 : ℤ) < 10 ^ 21 := by norm_num
    linarith

/-! ### C9: the edit index -/

/-- Every event other than a confirmed deletion keeps `editIndex` null or a
position of the roster. -/
theorem step_editIndexValid {s s' : State} (e : Event) (hs : step s e = some s')
    (he : ∀ i, e ≠ .delete i true) (h : EditIndexValid s) : EditIndexValid s' := by
  cases e with
  | change f v =>
    simp only [step, Option.some.injEq] at hs
    subst hs
    unfold handleChange
    split <;> exact h
  | submit =>
    simp only [step, Option.some.injEq] at hs
    subst hs
    cases hv : invalid s.form.name s.form.lastName s.form.subject (parseFloat s.form.grade)
    · rw [handleSubmit_of_valid s hv]
      intro i hi
      simp at hi
    · rw [handleSubmit_of_invalid s hv]
      exact h
  | edit index =>
    simp only [step, handleEdit] at hs
    split at hs
    · rename_i student hst
      simp only [Option.some.injEq] at hs
      subst hs
      intro i hi
      simp only [Option.some.injEq] at hi
      subst hi
      exact (List.getElem?_eq_some.1 hst).1
    · exact absurd hs (by simp)
  | delete index confirmed =>
    cases confirmed with
    | true => exact absurd rfl (he index)
    | false =>
      simp only [step, Option.some.injEq] at hs
      subst hs
      exact h

/-- C9 on the code: typing Ana / Lopez / Math / "6.2", submitting, pressing
"Editar" on row 0 and then confirming "Eliminar" on row 0 reaches a state with
an empty roster and `editIndex = 0`; so `editIndex` is not always null or a
position of the roster. -/
theorem editIndex_stale :
    Reachable { students := [],
                form := ⟨"Ana", "Lopez", "Math", .num (Number.ofDecimal false 62 (-1))⟩,
                editIndex := some 0 } ∧
      ¬ ∀ s, Reachable s → EditIndexValid s :=
  have hR : Reachable { students := [],
                        form := ⟨"Ana", "Lopez", "Math", .num (Number.ofDecimal false 62 (-1))⟩,
                        editIndex := some 0 } :=
    Reachable.step
      (s := { students := [⟨"Ana", "Lopez", "Math", Number.ofDecimal false 62 (-1)⟩],
              form := ⟨"Ana", "Lopez", "Math", .num (Number.ofDecimal false 62 (-1))⟩,
              editIndex := some 0 }) (.delete 0 true)
      (Reachable.step
        (s := { students := [⟨"Ana", "Lopez", "Math", Number.ofDecimal false 62 (-1)⟩],
                form := emptyForm, editIndex := none }) (.edit 0)
        (Reachable.step
          (s := { students := [], form := ⟨"Ana", "Lopez", "Math", .str "6.2"⟩,
                  editIndex := none }) .submit
          (Reachable.step (.change .grade "6.2")
            (Reachable.step (.change .subject "Math")
              (Reachable.step (.change .lastName "Lopez")
                (Reachable.step (.change .name "Ana") Reachable.init rfl) rfl) rfl)
            (by decide))
          (by decide))
        (by decide))
      (by decide)
  ⟨hR, fun h => absurd (h _ hR 0 rfl) (by decide)⟩

/-! ### C10: the digit filter of `handleChange` -/

/-- `Char.isDigit` holds exactly of the characters `0` to `9`. -/
theorem isDigit_iff (c : Char) : c.isDigit = true ↔ '0' ≤ c ∧ c ≤ '9' := by
  simp only [Char.isDigit, Bool.and_eq_true, decide_eq_true_eq]
  rfl

/-- The test `/\d/` succeeds exactly on the strings with a character `0` to `9`. -/
theorem containsDigit_iff (value : String) :
    containsDigit value = true ↔ ∃ c ∈ value.toList, '0' ≤ c ∧ c ≤ '9' := by
  simp [containsDigit, List.any_eq_true, isDigit_iff]

/-- The `includes` test of `handleChange` singles out the three text inputs. -/
theorem includes_iff (f : Field) :
    ["name", "lastName", "subject"].contains f.key = true ↔
      f = .name ∨ f = .lastName ∨ f = .subject := by
  cases f <;> decide

/-- The object `{ ...prev, [name]: value }` has `value` at `name` and agrees with
`prev` elsewhere. -/
theorem Form.get_set (form : Form) (f : Field) (v : String) :
    (form.set f v).get f = .str v ∧ ∀ f', f' ≠ f → (form.set f v).get f' = form.get f' := by
  cases f <;> refine ⟨rfl, fun f' hf => ?_⟩ <;> cases f' <;> first | rfl | exact absurd rfl hf

/-- C10. `handleChange` never changes the roster or editIndex.  If the field is
one of name, lastName, subject and the value contains a character `0` to `9`,
the form after the call is the form before it; in every other case (a text field
and a value without digit, or the grade field with any value) the form after the
call has the value at that field and every other field unchanged. -/
theorem handleChange_spec (s : State) (f : Field) (v : String) :
    (handleChange s f v).students = s.students ∧
      (handleChange s f v).editIndex = s.editIndex ∧
      (((f = .name ∨ f = .lastName ∨ f = .subject) ∧ (∃ c ∈ v.toList, '0' ≤ c ∧ c ≤ '9')) →
        (handleChange s f v).form = s.form) ∧
      (¬ ((f = .name ∨ f = .lastName ∨ f = .subject) ∧ (∃ c ∈ v.toList, '0' ≤ c ∧ c ≤ '9')) →
        (handleChange s f v).form.get f = .str v ∧
          ∀ f', f' ≠ f → (handleChange s f v).form.get f' = s.form.get f') := by
  have key : ((f = .name ∨ f = .lastName ∨ f = .subject) ∧
      (∃ c ∈ v.toList, '0' ≤ c ∧ c ≤ '9')) ↔
      (["name", "lastName", "subject"].contains f.key && containsDigit v) = true := by
    rw [Bool.and_eq_true, includes_iff, containsDigit_iff]
  rw [key]
  cases hc : (["name", "lastName", "subject"].contains f.key && containsDigit v)
  · simp only [handleChange, hc, Bool.false_eq_true, if_false, false_implies,
      not_false_eq_true, true_implies, true_and]
    exact Form.get_set s.form f v
  · unfold handleChange
    rw [hc]
    simp

/-- C10 at two keystrokes on the empty form: "An4" typed into name is dropped,
"6.x" typed into grade is stored. -/
theorem handleChange_spec_witness :
    (handleChange initialState .name "An4").form = initialState.form ∧
      (handleChange initialState .grade "6.x").form.get .grade = .str "6.x" :=
  ⟨(handleChange_spec initialState .name "An4").2.2.1
      ⟨Or.inl rfl, '4', by decide, by decide, by decide⟩,
    ((handleChange_spec initialState .grade "6.x").2.2.2 (by decide)).1⟩

/-! ### C11: `handleEdit` -/

/-- C11. `handleEdit` on a row `i` of the roster: the form's name, lastName,
subject and grade become those of `students[i]` (the grade as the Number it is),
editIndex becomes `i`, and the roster is the roster before the call. -/
theorem handleEdit_spec (s : State) (i : Nat) (hi : i < s.students.length) :
    ∃ s' : State, handleEdit s i = some s' ∧
      s'.form.name = s.students[i].name ∧
      s'.form.lastName = s.students[i].lastName ∧
      s'.form.subject = s.students[i].subject ∧
      s'.form.grade = .num s.students[i].grade ∧
      s'.editIndex = some i ∧
      s'.students = s.students := by
  refine ⟨{ s with form := s.students[i].toForm, editIndex := some i }, ?_, rfl, rfl, rfl, rfl,
    rfl, rfl⟩
  simp [handleEdit, List.getElem?_eq_getElem hi]

/-- C11 at row 1 of a roster of two: the form receives Eva / Diaz / Art and the
Number `4`, editIndex is `1`, the roster is as before. -/
theorem handleEdit_spec_witness :
    ∃ s' : State,
      handleEdit
          { students := [⟨"Ana", "Lopez", "Math", .fin 6⟩, ⟨"Eva", "Diaz", "Art", .fin 4⟩],
            form := emptyForm, editIndex := none } 1 = some s' ∧
        s'.form.name = "Eva" ∧ s'.form.lastName = "Diaz" ∧ s'.form.subject = "Art" ∧
        s'.form.grade = .num (.fin 4) ∧ s'.editIndex = some 1 ∧
        s'.students = [⟨"Ana", "Lopez", "Math", .fin 6⟩, ⟨"Eva", "Diaz", "Art", .fin 4⟩] :=
  handleEdit_spec
    { students := [⟨"Ana", "Lopez", "Math", .fin 6⟩, ⟨"Eva", "Diaz", "Art", .fin 4⟩],
      form := emptyForm, editIndex := none } 1 (by decide)

/-! ### C12 and C14: the state after an accepted submission -/

/-- C12. After a valid submission (non-empty name, lastName and subject, a grade
that parses to `g` with `1 <= g` and `g <= 7`), whether creating or editing, the
form is `{name: "", lastName: "", subject: "", grade: ""}` and editIndex is null. -/
theorem handleSubmit_reset (s : State) (g : Number)
    (hname : s.form.name ≠ "") (hlast : s.form.lastName ≠ "") (hsubj : s.form.subject ≠ "")
    (hg : parseFloat s.form.grade = g)
    (h1 : Number.le (.fin 1) g = true) (h7 : Number.le g (.fin 7) = true) :
    (handleSubmit s).state.form =
        { name := "", lastName := "", subject := "", grade := .str "" } ∧
      (handleSubmit s).state.editIndex = none := by
  have hv : invalid s.form.name s.form.lastName s.form.subject (parseFloat s.form.grade) = false :=
    (invalid_eq_false_iff _ _ _ _).2
      ⟨hname, hlast, hsubj, range_of_le_le (hg ▸ h1) (hg ▸ h7)⟩
  rw [handleSubmit_of_valid s hv]
  exact ⟨rfl, rfl⟩

/-- C12 at the edit of row 0 with the grade text "7": the form is reset and
editIndex cleared. -/
theorem handleSubmit_reset_witness :
    (handleSubmit
        { students := [⟨"Ana", "Lopez", "Math", Number.ofDecimal false 62 (-1)⟩],
          form := ⟨"Ana", "Lopez", "Math", .str "7"⟩,
          editIndex := some 0 }).state.form = emptyForm ∧
      (handleSubmit
        { students := [⟨"Ana", "Lopez", "Math", Number.ofDecimal false 62 (-1)⟩],
          form := ⟨"Ana", "Lopez", "Math", .str "7"⟩,
          editIndex := some 0 }).state.editIndex = none :=
  handleSubmit_reset
    { students := [⟨"Ana", "Lopez", "Math", Number.ofDecimal false 62 (-1)⟩],
      form := ⟨"Ana", "Lopez", "Math", .str "7"⟩, editIndex := some 0 }
    (.fin 7) (by decide) (by decide) (by decide) (by decide) (by decide) (by decide)

/-- C14. After a valid submission the roster is one longer when editIndex is
null and has the same length when editIndex is not null, whatever index it
holds. -/
theorem handleSubmit_length (s : State) (g : Number)
    (hname : s.form.name ≠ "") (hlast : s.form.lastName ≠ "") (hsubj : s.form.subject ≠ "")
    (hg : parseFloat s.form.grade = g)
    (h1 : Number.le (.fin 1) g = true) (h7 : Number.le g (.fin 7) = true) :
    (s.editIndex = none →
        (handleSubmit s).state.students.length = s.students.length + 1) ∧
      (s.editIndex ≠ none →
        (handleSubmit s).state.students.length = s.students.length) := by
  have hv : invalid s.form.name s.form.lastName s.form.subject (parseFloat s.form.grade) = false :=
    (invalid_eq_false_iff _ _ _ _).2
      ⟨hname, hlast, hsubj, range_of_le_le (hg ▸ h1) (hg ▸ h7)⟩
  rw [handleSubmit_of_valid s hv]
  constructor
  · intro he
    simp [he]
  · intro he
    cases hidx : s.editIndex with
    | none => exact absurd hidx he
    | some i => simp

/-- C14 at two submissions of Eva / Diaz / Art / "4.5" on a roster of one: with
editIndex null the roster has two entries afterwards, with editIndex `5` (no
such row) it still has one. -/
theorem handleSubmit_length_witness :
    (handleSubmit
        { students := [⟨"Ana", "Lopez", "Math", .fin 6⟩],
          form := ⟨"Eva", "Diaz", "Art", .str "4.5"⟩,
          editIndex := none }).state.students.length = 1 + 1 ∧
      (handleSubmit
        { students := [⟨"Ana", "Lopez", "Math", .fin 6⟩],
          form := ⟨"Eva", "Diaz", "Art", .str "4.5"⟩,
          editIndex := some 5 }).state.students.length = 1 :=
  ⟨(handleSubmit_length
      { students := [⟨"Ana", "Lopez", "Math", .fin 6⟩],
        form := ⟨"Eva", "Diaz", "Art", .str "4.5"⟩, editIndex := none }
      (Number.ofDecimal false 45 (-1)) (by decide) (by decide) (by decide) (by decide)
      (by decide) (by decide)).1 rfl,
    (handleSubmit_length
      { students := [⟨"Ana", "Lopez", "Math", .fin 6⟩],
        form := ⟨"Eva", "Diaz", "Art", .str "4.5"⟩, editIndex := some 5 }
      (Number.ofDecimal false 45 (-1)) (by decide) (by decide) (by decide) (by decide)
      (by decide) (by decide)).2 (by decide)⟩

/-! ### C13: the name-field invariant -/

/-- A value that the digit test of `handleChange` lets through is digit-free. -/
theorem digitFree_of_containsDigit_eq_false (v : String) (h : containsDigit v = false) :
    DigitFree v := by
  intro c hc hd
  have := (containsDigit_iff v).2 ⟨c, hc, hd⟩
  rw [h] at this
  exact absurd this (by decide)

/-- The empty string is digit-free. -/
theorem digitFree_empty : DigitFree "" := by
  intro c hc
  simp at hc

/-- `handleChange` keeps the three text fields of the form digit-free. -/
theorem handleChange_formDigitFree (s : State) (f : Field) (v : String)
    (h : FormDigitFree s.form) : FormDigitFree (handleChange s f v).form := by
  unfold handleChange
  cases hc : (["name", "lastName", "subject"].contains f.key && containsDigit v)
  · simp only [Bool.false_eq_true, if_false]
    obtain ⟨h1, h2, h3⟩ := h
    cases f with
    | name =>
      have hv : containsDigit v = false := by simpa [Field.key] using hc
      exact ⟨digitFree_of_containsDigit_eq_false v hv, h2, h3⟩
    | lastName =>
      have hv : containsDigit v = false := by simpa [Field.key] using hc
      exact ⟨h1, digitFree_of_containsDigit_eq_false v hv, h3⟩
    | subject =>
      have hv : containsDigit v = false := by simpa [Field.key] using hc
      exact ⟨h1, h2, digitFree_of_containsDigit_eq_false v hv⟩
    | grade => exact ⟨h1, h2, h3⟩
  · simp only [if_true]
    exact h

/-- `handleSubmit` keeps the joint invariant: the Student it stores has the
non-empty, digit-free text fields of the form, and the form it leaves is empty. -/
theorem handleSubmit_namesOk (s : State) (h : ∀ st ∈ s.students, NamesOk st)
    (hf : FormDigitFree s.form) :
    (∀ st ∈ (handleSubmit s).state.students, NamesOk st) ∧
      FormDigitFree (handleSubmit s).state.form := by
  cases hv : invalid s.form.name s.form.lastName s.form.subject (parseFloat s.form.grade)
  · rw [handleSubmit_of_valid s hv]
    obtain ⟨hn, hl, hs, _⟩ := (invalid_eq_false_iff _ _ _ _).1 hv
    have hnew : NamesOk
        { name := s.form.name, lastName := s.form.lastName, subject := s.form.subject,
          grade := parseFloat s.form.grade } :=
      ⟨⟨hn, hf.1⟩, ⟨hl, hf.2.1⟩, ⟨hs, hf.2.2⟩⟩
    refine ⟨?_, digitFree_empty, digitFree_empty, digitFree_empty⟩
    intro st hst
    cases hedit : s.editIndex with
    | none =>
      rw [hedit] at hst
      rcases List.mem_append.1 hst with h1 | h1
      · exact h st h1
      · rw [List.mem_singleton.1 h1]
        exact hnew
    | some i =>
      rw [hedit] at hst
      obtain ⟨j, hj, rfl⟩ := List.mem_mapIdx.1 hst
      by_cases hji : j = i
      · simp only [hji, if_true]
        exact hnew
      · simp only [hji, if_false]
        exact h _ (List.getElem_mem hj)
  · rw [handleSubmit_of_invalid s hv]
    exact ⟨h, hf⟩

/-- Every event keeps the joint invariant: the Students of the roster have
non-empty, digit-free text fields and the text fields of the form are digit-free. -/
theorem step_namesOk {s s' : State} (e : Event) (hs : step s e = some s')
    (h : ∀ st ∈ s.students, NamesOk st) (hf : FormDigitFree s.form) :
    (∀ st ∈ s'.students, NamesOk st) ∧ FormDigitFree s'.form := by
  cases e with
  | change f v =>
    simp only [step, Option.some.injEq] at hs
    subst hs
    refine ⟨?_, handleChange_formDigitFree s f v hf⟩
    unfold handleChange
    split <;> exact h
  | submit =>
    simp only [step, Option.some.injEq] at hs
    subst hs
    exact handleSubmit_namesOk s h hf
  | edit index =>
    simp only [step, handleEdit] at hs
    split at hs
    · rename_i student hst
      simp only [Option.some.injEq] at hs
      subst hs
      have hmem : student ∈ s.students := List.getElem?_mem hst
      obtain ⟨h1, h2, h3⟩ := h student hmem
      exact ⟨h, h1.2, h2.2, h3.2⟩
    · exact absurd hs (by simp)
  | delete index confirmed =>
    simp only [step, Option.some.injEq] at hs
    subst hs
    unfold handleDelete
    split
    · exact ⟨fun st hst => h st ((List.eraseIdx_sublist s.students index).subset hst), hf⟩
    · exact ⟨h, hf⟩

/-- The joint invariant holds in every reachable state. -/
theorem reachable_namesOk_form (s : State) (h : Reachable s) :
    (∀ st ∈ s.students, NamesOk st) ∧ FormDigitFree s.form := by
  induction h with
  | init =>
    refine ⟨?_, digitFree_empty, digitFree_empty, digitFree_empty⟩
    intro st hst
    simp [initialState] at hst
  | step e _ hs ih => exact step_namesOk e hs ih.1 ih.2

/-- C13. Name-field invariant: in every state reachable from the initial state by
any sequence of `handleChange`, `handleSubmit`, `handleEdit` and `handleDelete`,
every Student of the roster has a non-empty name, lastName and subject, none of
which contains a character `0` to `9`. -/
theorem reachable_namesOk (s : State) (h : Reachable s) : ∀ st ∈ s.students, NamesOk st :=
  (reachable_namesOk_form s h).1

/-- C13 at the state reached by typing Ana / Lopez / Math / "6.2" and
submitting: it is reachable and its one Student has non-empty, digit-free text
fields. -/
theorem reachable_namesOk_witness :
    Reachable { students := [⟨"Ana", "Lopez", "Math", Number.ofDecimal false 62 (-1)⟩],
                form := emptyForm, editIndex := none } ∧
      ∀ st ∈ [(⟨"Ana", "Lopez", "Math", Number.ofDecimal false 62 (-1)⟩ : Student)],
        NamesOk st :=
  have hR : Reachable { students := [⟨"Ana", "Lopez", "Math", Number.ofDecimal false 62 (-1)⟩],
                        form := emptyForm, editIndex := none } :=
    Reachable.step (s := { students := [], form := ⟨"Ana", "Lopez", "Math", .str "6.2"⟩,
                           editIndex := none }) .submit
      (Reachable.step (.change .grade "6.2")
        (Reachable.step (.change .subject "Math")
          (Reachable.step (.change .lastName "Lopez")
            (Reachable.step (.change .name "Ana") Reachable.init rfl) rfl) rfl)
        (by decide))
      (by decide)
  ⟨hR, reachable_namesOk _ hR⟩

/-! ### C16: submitting with a stale edit index -/

/-- A map that replaces the entry at an index beyond the end replaces nothing. -/
theorem mapIdx_replace_of_le (students : List Student) (i : Nat) (st' : Student)
    (hi : students.length ≤ i) :
    students.mapIdx (fun j st => if j = i then st' else st) = students := by
  apply List.ext_getElem?
  intro j
  rcases lt_or_le j students.length with hlt | hge
  · have hj : j ≠ i := by omega
    simp [List.getElem?_eq_getElem hlt, hj]
  · simp [List.getElem?_eq_none hge]

/-- C16. With `editIndex = i` for an `i` that is not a row of the roster
(`i >= length`), a valid submission leaves the roster exactly as it was, so the
submitted Student is stored nowhere, while the form is reset to empty, editIndex
is cleared and no alert is raised. -/
theorem handleSubmit_stale (s : State) (i : Nat) (g : Number)
    (hi : s.students.length ≤ i)
    (hname : s.form.name ≠ "") (hlast : s.form.lastName ≠ "") (hsubj : s.form.subject ≠ "")
    (hg : parseFloat s.form.grade = g)
    (h1 : Number.le (.fin 1) g = true) (h7 : Number.le g (.fin 7) = true)
    (hedit : s.editIndex = some i) :
    (handleSubmit s).state.students = s.students ∧
      (handleSubmit s).state.form = emptyForm ∧
      (handleSubmit s).state.editIndex = none ∧
      (handleSubmit s).alert = none := by
  have hv : invalid s.form.name s.form.lastName s.form.subject (parseFloat s.form.grade) = false :=
    (invalid_eq_false_iff _ _ _ _).2
      ⟨hname, hlast, hsubj, range_of_le_le (hg ▸ h1) (hg ▸ h7)⟩
  rw [handleSubmit_of_valid s hv, hedit]
  exact ⟨mapIdx_replace_of_le _ _ _ hi, rfl, rfl, rfl⟩

/-- C16 at the state reached by `handleEdit(0)` and a confirmed `handleDelete(0)`
on the roster `[{Ana, Lopez, Math, 6.2}]`: the roster is empty, editIndex is `0`
and the form holds Ana / Lopez / Math and the Number `6.2`.  The submission is
valid, stores nothing, resets the form and raises no alert. -/
theorem handleSubmit_stale_witness :
    (handleEdit
        { students := [⟨"Ana", "Lopez", "Math", Number.ofDecimal false 62 (-1)⟩],
          form := emptyForm, editIndex := none } 0).map (fun s => handleDelete s 0 true) =
      some { students := [],
             form := ⟨"Ana", "Lopez", "Math", .num (Number.ofDecimal false 62 (-1))⟩,
             editIndex := some 0 } ∧
      parseFloat (.num (Number.ofDecimal false 62 (-1))) = Number.ofDecimal false 62 (-1) ∧
      (handleSubmit
          { students := [],
            form := ⟨"Ana", "Lopez", "Math", .num (Number.ofDecimal false 62 (-1))⟩,
            editIndex := some 0 }).state.students = [] ∧
      (handleSubmit
          { students := [],
            form := ⟨"Ana", "Lopez", "Math", .num (Number.ofDecimal false 62 (-1))⟩,
            editIndex := some 0 }).state.form = emptyForm ∧
      (handleSubmit
          { students := [],
            form := ⟨"Ana", "Lopez", "Math", .num (Number.ofDecimal false 62 (-1))⟩,
            editIndex := some 0 }).state.editIndex = none ∧
      (handleSubmit
          { students := [],
            form := ⟨"Ana", "Lopez", "Math", .num (Number.ofDecimal false 62 (-1))⟩,
            editIndex := some 0 }).alert = none :=
  have h := handleSubmit_stale
    { students := [],
      form := ⟨"Ana", "Lopez", "Math", .num (Number.ofDecimal false 62 (-1))⟩,
      editIndex := some 0 }
    0 (Number.ofDecimal false 62 (-1)) (by decide) (by decide) (by decide) (by decide)
    (by decide) (by decide) (by decide) rfl
  ⟨by decide, by decide, h⟩

end App

/-! ### Rounding to binary64: order -/

namespace JS

namespace Number

/-- Rounding does not cross a binary64 value above: a positive quotient of at most
`M * 2 ^ t`, with `M < 2 ^ 53` and `-1074 ≤ t ≤ 970`, rounds to a finite Number
of at most `M * 2 ^ t`. -/
theorem ofFrac_le_of_le (p q M : Nat) (t : Int) (hp : p ≠ 0) (hq : q ≠ 0)
    (hM : M < 2 ^ 53) (ht1 : -1074 ≤ t) (ht2 : t ≤ 970)
    (h : (p : ℚ) / q ≤ (M : ℚ) * (2 : ℚ) ^ t) :
    ∃ y : ℚ, ofFrac false p q = fin y ∧ 0 ≤ y ∧ y ≤ (M : ℚ) * (2 : ℚ) ^ t := by
  have two_ne : (2 : ℚ) ≠ 0 := by norm_num
  have hMq : (M : ℚ) < (2 : ℚ) ^ (53 : ℤ) := by
    have : ((M : ℕ) : ℚ) < ((2 ^ 53 : ℕ) : ℚ) := by exact_mod_cast hM
    rw [show ((2 : ℚ) ^ (53 : ℤ)) = ((2 ^ 53 : ℕ) : ℚ) by norm_num]
    exact this
  have ht0 : (0 : ℚ) < (2 : ℚ) ^ t := by positivity
  -- the binary exponent of the quotient is below `53 + t`
  have he0 : floorLog2 p q < 53 + t := by
    have h1 := (floorLog2_spec p q hp hq).1
    have h2 : (2 : ℚ) ^ floorLog2 p q < (2 : ℚ) ^ (53 + t) := by
      rw [zpow_add₀ two_ne]
      calc (2 : ℚ) ^ floorLog2 p q ≤ (p : ℚ) / q := h1
        _ ≤ (M : ℚ) * (2 : ℚ) ^ t := h
        _ < (2 : ℚ) ^ (53 : ℤ) * (2 : ℚ) ^ t := mul_lt_mul_of_pos_right hMq ht0
    exact (zpow_lt_zpow_iff_right₀ (by norm_num : (1 : ℚ) < 2)).1 h2
  have hs : max (floorLog2 p q) (-1022) - 52 ≤ t := by
    rcases le_total (floorLog2 p q) (-1022) with hc | hc
    · rw [max_eq_right hc]; omega
    · rw [max_eq_left hc]; omega
  obtain ⟨n, hn⟩ := Int.eq_ofNat_of_zero_le
    (by omega : 0 ≤ t - (max (floorLog2 p q) (-1022) - 52))
  have hsplit : (M : ℚ) * (2 : ℚ) ^ t =
      ((M * 2 ^ n : ℕ) : ℚ) * (2 : ℚ) ^ (max (floorLog2 p q) (-1022) - 52) := by
    push_cast
    rw [mul_assoc, ← zpow_natCast, ← zpow_add₀ two_ne, ← hn]
    congr 2
    ring
  have hm : mantissa p q (max (floorLog2 p q) (-1022) - 52) ≤ M * 2 ^ n :=
    mantissa_le p q (M * 2 ^ n) _ hq (hsplit ▸ h)
  have hno : ¬ (1023 < max (floorLog2 p q) (-1022) ∨
      (max (floorLog2 p q) (-1022) = 1023 ∧
        2 ^ 53 ≤ mantissa p q (max (floorLog2 p q) (-1022) - 52))) := by
    have : max (floorLog2 p q) (-1022) ≤ 1022 := max_le (by omega) (by norm_num)
    rintro (h1 | ⟨h1, _⟩) <;> omega
  refine ⟨scale (mantissa p q (max (floorLog2 p q) (-1022) - 52))
    (max (floorLog2 p q) (-1022) - 52), ?_, ?_, ?_⟩
  · unfold ofFrac
    simp only [hp, if_false, hno, Bool.false_eq_true]
  · rw [scale_eq]
    positivity
  · rw [scale_eq, hsplit]
    have : (mantissa p q (max (floorLog2 p q) (-1022) - 52) : ℚ) ≤ ((M * 2 ^ n : ℕ) : ℚ) := by
      exact_mod_cast hm
    exact mul_le_mul_of_nonneg_right this (by positivity)

/-- Rounding does not cross a binary64 value below: a quotient of at least
`M * 2 ^ t`, with `M < 2 ^ 53` and `-1074 ≤ t`, rounds to `+∞` or to a finite
Number of at least `M * 2 ^ t`. -/
theorem le_ofFrac_of_le (p q M : Nat) (t : Int) (hp : p ≠ 0) (hq : q ≠ 0)
    (hM : M < 2 ^ 53) (ht1 : -1074 ≤ t)
    (h : (M : ℚ) * (2 : ℚ) ^ t ≤ (p : ℚ) / q) :
    ofFrac false p q = posInf ∨
      ∃ y : ℚ, ofFrac false p q = fin y ∧ (M : ℚ) * (2 : ℚ) ^ t ≤ y := by
  have two_ne : (2 : ℚ) ≠ 0 := by norm_num
  have hMq : (M : ℚ) < (2 : ℚ) ^ (53 : ℤ) := by
    have : ((M : ℕ) : ℚ) < ((2 ^ 53 : ℕ) : ℚ) := by exact_mod_cast hM
    rw [show ((2 : ℚ) ^ (53 : ℤ)) = ((2 ^ 53 : ℕ) : ℚ) by norm_num]
    exact this
  have ht0 : (0 : ℚ) < (2 : ℚ) ^ t := by positivity
  by_cases hov : 1023 < max (floorLog2 p q) (-1022) ∨
      (max (floorLog2 p q) (-1022) = 1023 ∧
        2 ^ 53 ≤ mantissa p q (max (floorLog2 p q) (-1022) - 52))
  · left
    unfold ofFrac
    simp only [hp, if_false, hov, if_true, Bool.false_eq_true]
  · right
    refine ⟨scale (mantissa p q (max (floorLog2 p q) (-1022) - 52))
      (max (floorLog2 p q) (-1022) - 52), ?_, ?_⟩
    · unfold ofFrac
      simp only [hp, if_false, hov, Bool.false_eq_true]
    · rw [scale_eq]
      rcases le_or_lt (max (floorLog2 p q) (-1022) - 52) t with hs | hs
      · obtain ⟨n, hn⟩ := Int.eq_ofNat_of_zero_le
          (by omega : 0 ≤ t - (max (floorLog2 p q) (-1022) - 52))
        have hsplit : (M : ℚ) * (2 : ℚ) ^ t =
            ((M * 2 ^ n : ℕ) : ℚ) * (2 : ℚ) ^ (max (floorLog2 p q) (-1022) - 52) := by
          push_cast
          rw [mul_assoc, ← zpow_natCast, ← zpow_add₀ two_ne, ← hn]
          congr 2
          ring
        have hm : M * 2 ^ n ≤ mantissa p q (max (floorLog2 p q) (-1022) - 52) :=
          le_mantissa p q (M * 2 ^ n) _ hq (hsplit ▸ h)
        rw [hsplit]
        have : ((M * 2 ^ n : ℕ) : ℚ) ≤
            (mantissa p q (max (floorLog2 p q) (-1022) - 52) : ℚ) := by exact_mod_cast hm
        exact mul_le_mul_of_nonneg_right this (by positivity)
      · -- the scale of the quotient is above `t`: its exponent is not clamped
        have hc : (-1022 : ℤ) ≤ floorLog2 p q := by
          by_contra hcon
          rw [max_eq_right (by omega)] at hs
          omega
        rw [max_eq_left hc] at hs ⊢
        have hA : ((2 ^ 52 : ℕ) : ℚ) * (2 : ℚ) ^ (floorLog2 p q - 52) =
            (2 : ℚ) ^ floorLog2 p q := by
          rw [show ((2 ^ 52 : ℕ) : ℚ) = (2 : ℚ) ^ (52 : ℤ) by norm_num, ← zpow_add₀ two_ne]
          congr 1
          ring
        have hm : 2 ^ 52 ≤ mantissa p q (floorLog2 p q - 52) :=
          le_mantissa p q (2 ^ 52) _ hq (by rw [hA]; exact (floorLog2_spec p q hp hq).1)
        have h1 : (M : ℚ) * (2 : ℚ) ^ t ≤ (2 : ℚ) ^ floorLog2 p q := by
          have h2 : (2 : ℚ) ^ (53 + t) ≤ (2 : ℚ) ^ floorLog2 p q :=
            zpow_le_zpow_right₀ (by norm_num) (by omega)
          rw [zpow_add₀ two_ne] at h2
          have h3 := mul_lt_mul_of_pos_right hMq ht0
          linarith
        have h2 : ((2 ^ 52 : ℕ) : ℚ) ≤ (mantissa p q (floorLog2 p q - 52) : ℚ) := by
          exact_mod_cast hm
        calc (M : ℚ) * (2 : ℚ) ^ t ≤ (2 : ℚ) ^ floorLog2 p q := h1
          _ = ((2 ^ 52 : ℕ) : ℚ) * (2 : ℚ) ^ (floorLog2 p q - 52) := hA.symm
          _ ≤ _ := mul_le_mul_of_nonneg_right h2 (by positivity)

end Number

end JS

namespace App

open JS

/-- The sum of a non-negative and a positive finite Number is the rounding of a
positive quotient with the exact sum as value. -/
theorem add_fin_eq_ofFrac (a b : ℚ) (ha : 0 ≤ a) (hb : 0 < b) :
    ∃ P Q : Nat, P ≠ 0 ∧ Q ≠ 0 ∧ (P : ℚ) / Q = a + b ∧
      Number.add (.fin a) (.fin b) = Number.ofFrac false P Q := by
  have hn : 0 < a.num * b.den + b.num * a.den := by
    have h1 : 0 ≤ a.num := Rat.num_nonneg.2 ha
    have h2 : 0 < b.num := Rat.num_pos.2 hb
    have h3 : (0 : ℤ) < a.den := by exact_mod_cast a.den_pos
    have h4 : (0 : ℤ) < b.den := by exact_mod_cast b.den_pos
    positivity
  have hneg : decide (a.num * b.den + b.num * a.den < 0) = false := by
    simp only [decide_eq_false_iff_not, not_lt]; exact hn.le
  have had : (0 : ℚ) < a.den := by exact_mod_cast a.den_pos
  have hbd : (0 : ℚ) < b.den := by exact_mod_cast b.den_pos
  refine ⟨(a.num * b.den + b.num * a.den).natAbs, a.den * b.den, ?_, ?_, ?_, ?_⟩
  · exact Int.natAbs_ne_zero.2 hn.ne'
  · exact Nat.mul_ne_zero a.den_nz b.den_nz
  · have e : (((a.num * b.den + b.num * a.den).natAbs : ℕ) : ℚ) =
        ((a.num * b.den + b.num * a.den : ℤ) : ℚ) := by
      rw [← Int.cast_natCast, Int.natAbs_of_nonneg hn.le]
    rw [e]
    push_cast
    rw [div_eq_iff (by positivity), ← Rat.mul_den_eq_num a, ← Rat.mul_den_eq_num b]
    ring
  · show Number.ofIntFrac _ _ = _
    unfold Number.ofIntFrac
    rw [hneg]

/-- The quotient of two positive finite Numbers is the rounding of a positive
quotient with the exact quotient as value. -/
theorem div_fin_eq_ofFrac (a v : ℚ) (ha : 0 < a) (hv : 0 < v) :
    ∃ P Q : Nat, P ≠ 0 ∧ Q ≠ 0 ∧ (P : ℚ) / Q = a / v ∧
      Number.div (.fin a) (.fin v) = Number.ofFrac false P Q := by
  have han : 0 < a.num := Rat.num_pos.2 ha
  have hvn : 0 < v.num := Rat.num_pos.2 hv
  have hsign : (decide (a.num < 0) != decide (v.num < 0)) = false := by
    have h1 : decide (a.num < 0) = false := by
      simp only [decide_eq_false_iff_not, not_lt]; exact han.le
    have h2 : decide (v.num < 0) = false := by
      simp only [decide_eq_false_iff_not, not_lt]; exact hvn.le
    rw [h1, h2]; rfl
  refine ⟨a.num.natAbs * v.den, a.den * v.num.natAbs, ?_, ?_, ?_, ?_⟩
  · exact Nat.mul_ne_zero (Int.natAbs_ne_zero.2 han.ne') v.den_nz
  · exact Nat.mul_ne_zero a.den_nz (Int.natAbs_ne_zero.2 hvn.ne')
  · have e1 : ((a.num.natAbs : ℕ) : ℚ) = ((a.num : ℤ) : ℚ) := by
      rw [← Int.cast_natCast, Int.natAbs_of_nonneg han.le]
    have e2 : ((v.num.natAbs : ℕ) : ℚ) = ((v.num : ℤ) : ℚ) := by
      rw [← Int.cast_natCast, Int.natAbs_of_nonneg hvn.le]
    have hvd : (0 : ℚ) < v.den := by exact_mod_cast v.den_pos
    have had : (0 : ℚ) < a.den := by exact_mod_cast a.den_pos
    have hvn' : (0 : ℚ) < (v.num : ℚ) := by exact_mod_cast hvn
    push_cast
    rw [e1, e2, div_eq_div_iff (by positivity) hv.ne', ← Rat.mul_den_eq_num a,
      ← Rat.mul_den_eq_num v]
    ring
  · show (if v = 0 then _ else _) = _
    rw [if_neg hv.ne', hsign]

/-- A natural number below `2 ^ 53` is a Number. -/
theorem ofNat_eq_fin (n : Nat) (hn : n ≠ 0) (h : n < 2 ^ 53) : Number.ofNat n = .fin n := by
  have hval : ((n : ℕ) : ℚ) / ((1 : ℕ) : ℚ) = (n : ℚ) * (2 : ℚ) ^ (0 : ℤ) := by simp
  obtain ⟨y, hy, _, hy1⟩ := Number.ofFrac_le_of_le n 1 n 0 hn one_ne_zero h (by norm_num)
    (by norm_num) hval.le
  rcases Number.le_ofFrac_of_le n 1 n 0 hn one_ne_zero h (by norm_num) hval.ge with
    hinf | ⟨y', hy', hy2⟩
  · rw [hy] at hinf
    exact absurd hinf (by simp)
  · rw [hy] at hy'
    have : y = y' := by simpa using hy'
    subst this
    have : y = n := by
      simp only [zpow_zero, mul_one] at hy1 hy2
      exact le_antisymm hy1 hy2
    rw [Number.ofNat, hy, this]

/-- Adding a grade between `1` and `7` to a sum between `j` and `7 j` gives a
sum between `j + 1` and `7 (j + 1)`, as long as `7 (j + 1)` is below `2 ^ 53`. -/
theorem add_grade_bound (a g : ℚ) (j : Nat) (hj : 7 * (j + 1) < 2 ^ 53)
    (ha1 : (j : ℚ) ≤ a) (ha7 : a ≤ 7 * (j : ℚ)) (hg1 : 1 ≤ g) (hg7 : g ≤ 7) :
    ∃ c : ℚ, Number.add (.fin a) (.fin g) = .fin c ∧
      ((j + 1 : ℕ) : ℚ) ≤ c ∧ c ≤ 7 * ((j + 1 : ℕ) : ℚ) := by
  have ha0 : 0 ≤ a := le_trans (by positivity) ha1
  obtain ⟨P, Q, hP, hQ, hval, hadd⟩ := add_fin_eq_ofFrac a g ha0 (by linarith)
  have hup : (P : ℚ) / Q ≤ ((7 * (j + 1) : ℕ) : ℚ) * (2 : ℚ) ^ (0 : ℤ) := by
    rw [hval]; push_cast; simp only [zpow_zero, mul_one]; linarith
  have hlo : ((j + 1 : ℕ) : ℚ) * (2 : ℚ) ^ (0 : ℤ) ≤ (P : ℚ) / Q := by
    rw [hval]; push_cast; simp only [zpow_zero, mul_one]; linarith
  obtain ⟨y, hy, _, hy1⟩ := Number.ofFrac_le_of_le P Q (7 * (j + 1)) 0 hP hQ hj (by norm_num)
    (by norm_num) hup
  rcases Number.le_ofFrac_of_le P Q (j + 1) 0 hP hQ (by omega) (by norm_num) hlo with
    hinf | ⟨y', hy', hy2⟩
  · rw [hy] at hinf
    exact absurd hinf (by simp)
  · rw [hy] at hy'
    have : y = y' := by simpa using hy'
    subst this
    refine ⟨y, by rw [hadd, hy], ?_, ?_⟩
    · simpa using hy2
    · have := hy1
      push_cast at this ⊢
      simpa using this

/-- The sum that `average` accumulates over `n` grades between `1` and `7`,
starting from a sum between `j` and `7 j`, lies between `j + n` and `7 (j + n)`,
as long as `7 (j + n)` is below `2 ^ 53`. -/
theorem foldl_add_between (students : List Student) (h : ∀ st ∈ students, GradeInRange st)
    (a : ℚ) (j : Nat) (hj : 7 * (j + students.length) < 2 ^ 53)
    (ha1 : (j : ℚ) ≤ a) (ha7 : a ≤ 7 * (j : ℚ)) :
    ∃ c : ℚ, students.foldl (fun (acc : Number) s => acc.add s.grade) (.fin a) = .fin c ∧
      ((j + students.length : ℕ) : ℚ) ≤ c ∧ c ≤ 7 * ((j + students.length : ℕ) : ℚ) := by
  induction students generalizing a j with
  | nil => exact ⟨a, rfl, by simpa using ha1, by simpa using ha7⟩
  | cons st rest ih =>
    obtain ⟨g, hg, hg1, hg7⟩ := h st (List.mem_cons_self _ _)
    rw [List.length_cons] at hj
    obtain ⟨c, hc, hc1, hc7⟩ := add_grade_bound a g j (by omega) ha1 ha7 hg1 hg7
    rw [List.foldl_cons, hg, hc]
    obtain ⟨c', hc', h1, h7⟩ := ih (fun x hx => h x (List.mem_cons_of_mem _ hx)) c (j + 1)
      (by omega) hc1 hc7
    refine ⟨c', hc', ?_, ?_⟩
    · rw [List.length_cons]
      have e : j + (rest.length + 1) = j + 1 + rest.length := by omega
      rw [e]; exact h1
    · rw [List.length_cons]
      have e : j + (rest.length + 1) = j + 1 + rest.length := by omega
      rw [e]; exact h7

/-- The mean of a non-empty roster of fewer than `2 ^ 32` Students with grades
between `1` and `7` is a finite Number between `1` and `7`. -/
theorem mean_between (students : List Student) (hne : students ≠ [])
    (hlen : students.length < 2 ^ 32) (h : ∀ st ∈ students, GradeInRange st) :
    ∃ m : ℚ, mean students = .fin m ∧ 1 ≤ m ∧ m ≤ 7 := by
  have hl : students.length ≠ 0 := by simpa using hne
  have hl53 : 7 * (0 + students.length) < 2 ^ 53 := by
    have : (2 : ℕ) ^ 53 = 2 ^ 32 * 2 ^ 21 := by norm_num
    omega
  obtain ⟨c, hc, hc1, hc7⟩ := foldl_add_between students h 0 0 hl53 (by simp) (by simp)
  simp only [zero_add] at hc1 hc7
  have hn0 : (0 : ℚ) < students.length := by exact_mod_cast Nat.pos_of_ne_zero hl
  obtain ⟨P, Q, hP, hQ, hval, hdiv⟩ := div_fin_eq_ofFrac c students.length
    (by linarith) hn0
  have hup : (P : ℚ) / Q ≤ ((7 : ℕ) : ℚ) * (2 : ℚ) ^ (0 : ℤ) := by
    rw [hval, div_le_iff₀ hn0]; push_cast; simp only [zpow_zero, mul_one]; linarith
  have hlo : ((1 : ℕ) : ℚ) * (2 : ℚ) ^ (0 : ℤ) ≤ (P : ℚ) / Q := by
    rw [hval, le_div_iff₀ hn0]; push_cast; simp only [zpow_zero, mul_one]; linarith
  obtain ⟨y, hy, _, hy1⟩ := Number.ofFrac_le_of_le P Q 7 0 hP hQ (by norm_num) (by norm_num)
    (by norm_num) hup
  rcases Number.le_ofFrac_of_le P Q 1 0 hP hQ (by norm_num) (by norm_num) hlo with
    hinf | ⟨y', hy', hy2⟩
  · rw [hy] at hinf
    exact absurd hinf (by simp)
  · rw [hy] at hy'
    have : y = y' := by simpa using hy'
    subst this
    refine ⟨y, ?_, by simpa using hy2, by simpa using hy1⟩
    rw [mean, hc, ofNat_eq_fin students.length hl (by omega), hdiv, hy]

/-! ### C18: the average stays inside the grade scale -/

set_option maxRecDepth 100000 in
/-- C18, as stated, fails: for three Students with the grade `1.4` the mean that
`average` computes, `(0 + 1.4 + 1.4 + 1.4) / 3`, is the Number
`1.3999999999999997`, below the smallest grade of the roster. -/
theorem mean_counterexample :
    mean [⟨"Ana", "Lopez", "Math", Number.ofDecimal false 14 (-1)⟩,
          ⟨"Eva", "Diaz", "Art", Number.ofDecimal false 14 (-1)⟩,
          ⟨"Luz", "Rios", "Bio", Number.ofDecimal false 14 (-1)⟩] =
        Number.ofDecimal false 13999999999999997 (-16) ∧
      Number.lt
        (mean [⟨"Ana", "Lopez", "Math", Number.ofDecimal false 14 (-1)⟩,
               ⟨"Eva", "Diaz", "Art", Number.ofDecimal false 14 (-1)⟩,
               ⟨"Luz", "Rios", "Bio", Number.ofDecimal false 14 (-1)⟩])
        (Number.ofDecimal false 14 (-1)) = true := by
  decide

/-- C18, amended. For every non-empty roster of fewer than `2 ^ 32` Students
(the length of an array) in which every grade `g` is finite with `1 ≤ g ≤ 7`,
the mean computed by `average` is a finite Number `m` with `1 ≤ m ≤ 7`, and
`average` is the numeral with two fractional digits of `n` hundredths with
`100 ≤ n ≤ 700`, that is a value between 1.00 and 7.00, within half a hundredth
of `m`. -/
theorem average_in_scale (students : List Student) (hne : students ≠ [])
    (hlen : students.length < 2 ^ 32) (h : ∀ st ∈ students, GradeInRange st) :
    ∃ m : ℚ, mean students = .fin m ∧ 1 ≤ m ∧ m ≤ 7 ∧
      ∃ n : Nat, average students = String.mk (twoDecimals n) ∧ 100 ≤ n ∧ n ≤ 700 ∧
        |(n : ℚ) / 100 - m| ≤ 1 / 200 := by
  obtain ⟨m, hm, h1, h7⟩ := mean_between students hne hlen h
  have hm0 : 0 ≤ m := by linarith
  have habs : |m| = m := abs_of_nonneg hm0
  have hlt : |m| < 10 ^ 21 := by rw [habs]; linarith
  refine ⟨m, hm, h1, h7, ⌊m * 100 + 1 / 2⌋₊, ?_, ?_, ?_, ?_⟩
  · rw [average_of_ne_nil students hne, hm, Number.toFixed, toFixedChars_two m hlt, habs]
    have : ¬ m < 0 := not_lt.2 hm0
    simp [this]
  · apply Nat.le_floor
    push_cast
    linarith
  · have : ⌊m * 100 + 1 / 2⌋₊ < 701 := by
      apply (Nat.floor_lt (by positivity)).2
      push_cast
      linarith
    omega
  · have hh := abs_floor_half_sub_le (m * 100) (by positivity)
    have e : (⌊m * 100 + 1 / 2⌋₊ : ℚ) / 100 - m =
        ((⌊m * 100 + 1 / 2⌋₊ : ℚ) - m * 100) / 100 := by ring
    rw [e, abs_div, abs_of_pos (by norm_num : (0 : ℚ) < 100)]
    rw [div_le_iff₀ (by norm_num : (0 : ℚ) < 100)]
    linarith

/-- C18, amended, at the grades `[6, 4]`: both lie between `1` and `7`; the mean
is the Number `5` and `average` is "5.00". -/
theorem average_in_scale_witness :
    (∀ st ∈ [(⟨"Ana", "Lopez", "Math", .fin 6⟩ : Student), ⟨"Eva", "Diaz", "Art", .fin 4⟩],
        GradeInRange st) ∧
      (∃ m : ℚ,
        mean [⟨"Ana", "Lopez", "Math", .fin 6⟩, ⟨"Eva", "Diaz", "Art", .fin 4⟩] = .fin m ∧
          1 ≤ m ∧ m ≤ 7 ∧
          ∃ n : Nat,
            average [⟨"Ana", "Lopez", "Math", .fin 6⟩, ⟨"Eva", "Diaz", "Art", .fin 4⟩] =
                String.mk (twoDecimals n) ∧
              100 ≤ n ∧ n ≤ 700 ∧ |(n : ℚ) / 100 - m| ≤ 1 / 200) ∧
      average [⟨"Ana", "Lopez", "Math", .fin 6⟩, ⟨"Eva", "Diaz", "Art", .fin 4⟩] = "5.00" :=
  have hr : ∀ st ∈ [(⟨"Ana", "Lopez", "Math", .fin 6⟩ : Student),
      ⟨"Eva", "Diaz", "Art", .fin 4⟩], GradeInRange st := by
    intro st hst
    simp only [List.mem_cons, List.mem_singleton, List.not_mem_nil, or_false] at hst
    rcases hst with rfl | rfl
    · exact ⟨6, rfl, by norm_num, by norm_num⟩
    · exact ⟨4, rfl, by norm_num, by norm_num⟩
  ⟨hr, average_in_scale _ (by decide) (by decide) hr, by decide⟩

end App

/-! ### Rounding to binary64: values near a binary64 value -/

namespace JS

/-- A quotient less than one half below a positive integer rounds to that integer. -/
theorem roundHalfEven_eq_up (P Q N : Nat) (h1 : P ≤ N * Q) (h2 : (2 * N - 1) * Q < 2 * P)
    (hN : 0 < N) : roundHalfEven P Q = N := by
  have hQ : 0 < Q := by
    rcases Nat.eq_zero_or_pos Q with h | h
    · subst h; simp at h2; omega
    · exact h
  have hdm := Nat.div_add_mod P Q
  have hr : P % Q < Q := Nat.mod_lt P hQ
  rcases Nat.lt_or_ge P (N * Q) with hlt | hge
  · -- the quotient is `N - 1` and the remainder is above one half
    have hd : P / Q = N - 1 := by
      apply Nat.div_eq_of_lt_le
      · have e : (2 * N - 1) * Q = 2 * ((N - 1) * Q) + Q := by
          have : 2 * N - 1 = 2 * (N - 1) + 1 := by omega
          rw [this]; ring
        omega
      · have : N - 1 + 1 = N := by omega
        rw [this]; exact hlt
    rw [hd] at hdm
    have e : (2 * N - 1) * Q = 2 * (Q * (N - 1)) + Q := by
      have : 2 * N - 1 = 2 * (N - 1) + 1 := by omega
      rw [this]; ring
    have hr2 : Q < 2 * (P % Q) := by omega
    unfold roundHalfEven
    simp only [hd]
    have h3 : ¬ 2 * (P % Q) < Q := by omega
    simp only [h3, if_false, hr2, if_true]
    omega
  · have hP : P = N * Q := le_antisymm h1 hge
    have hd : P / Q = N := by rw [hP]; exact Nat.mul_div_cancel N hQ
    have hm : P % Q = 0 := by rw [hP]; exact Nat.mul_mod_left N Q
    unfold roundHalfEven
    simp only [hd, hm]
    simp [hQ]

/-- Rounding depends only on the value of the quotient: a common factor cancels. -/
theorem roundHalfEven_mul_left (c P Q : Nat) (hc : 0 < c) :
    roundHalfEven (c * P) (c * Q) = roundHalfEven P Q := by
  unfold roundHalfEven
  simp only [Nat.mul_div_mul_left P Q hc, Nat.mul_mod_mul_left]
  have e1 : (2 * (c * (P % Q)) < c * Q) ↔ (2 * (P % Q) < Q) := by
    rw [show 2 * (c * (P % Q)) = c * (2 * (P % Q)) by ring]
    exact Nat.mul_lt_mul_left hc
  have e2 : (c * Q < 2 * (c * (P % Q))) ↔ (Q < 2 * (P % Q)) := by
    rw [show 2 * (c * (P % Q)) = c * (2 * (P % Q)) by ring]
    exact Nat.mul_lt_mul_left hc
  simp only [e1, e2]

/-- Rounding depends only on the value of the quotient. -/
theorem roundHalfEven_congr (P Q P' Q' : Nat) (hQ : Q ≠ 0) (hQ' : Q' ≠ 0)
    (h : P * Q' = P' * Q) : roundHalfEven P Q = roundHalfEven P' Q' := by
  rw [← roundHalfEven_mul_left Q' P Q (Nat.pos_of_ne_zero hQ'),
    ← roundHalfEven_mul_left Q P' Q' (Nat.pos_of_ne_zero hQ)]
  rw [show Q' * P = Q * P' by rw [Nat.mul_comm, h, Nat.mul_comm],
    show Q' * Q = Q * Q' from Nat.mul_comm _ _]

namespace Number

/-- The mantissa at scale `s` depends only on the value of the quotient. -/
theorem mantissa_congr (p q p' q' : Nat) (s : Int) (hq : q ≠ 0) (hq' : q' ≠ 0)
    (h : p * q' = p' * q) : mantissa p q s = mantissa p' q' s := by
  unfold mantissa
  split_ifs with hs
  · apply roundHalfEven_congr _ _ _ _ (Nat.mul_ne_zero hq (by positivity))
      (Nat.mul_ne_zero hq' (by positivity))
    calc p * (q' * 2 ^ s.toNat) = (p * q') * 2 ^ s.toNat := by ring
      _ = (p' * q) * 2 ^ s.toNat := by rw [h]
      _ = p' * (q * 2 ^ s.toNat) := by ring
  · apply roundHalfEven_congr _ _ _ _ hq hq'
    calc p * 2 ^ (-s).toNat * q' = (p * q') * 2 ^ (-s).toNat := by ring
      _ = (p' * q) * 2 ^ (-s).toNat := by rw [h]
      _ = p' * 2 ^ (-s).toNat * q := by ring

/-- The binary exponent depends only on the value of the quotient. -/
theorem floorLog2_congr (p q p' q' : Nat) (hp : p ≠ 0) (hq : q ≠ 0) (hp' : p' ≠ 0)
    (hq' : q' ≠ 0) (h : p * q' = p' * q) : floorLog2 p q = floorLog2 p' q' := by
  have hv : (p : ℚ) / q = (p' : ℚ) / q' := by
    have hq0 : (q : ℚ) ≠ 0 := by exact_mod_cast hq
    have hq0' : (q' : ℚ) ≠ 0 := by exact_mod_cast hq'
    rw [div_eq_div_iff hq0 hq0']
    exact_mod_cast h
  obtain ⟨h1, h2⟩ := floorLog2_spec p' q' hp' hq'
  exact floorLog2_eq p q hp hq _ (hv ▸ h1) (hv ▸ h2)

/-- Rounding to binary64 depends only on the value of the quotient. -/
theorem ofFrac_congr (neg : Bool) (p q p' q' : Nat) (hq : q ≠ 0) (hq' : q' ≠ 0)
    (h : p * q' = p' * q) : ofFrac neg p q = ofFrac neg p' q' := by
  by_cases hp : p = 0
  · have hp' : p' = 0 := by
      subst hp
      simp only [Nat.zero_mul] at h
      rcases Nat.mul_eq_zero.1 h.symm with h0 | h0
      · exact h0
      · exact absurd h0 hq
    simp [ofFrac, hp, hp']
  · have hp' : p' ≠ 0 := by
      intro h0
      subst h0
      simp only [Nat.zero_mul] at h
      rcases Nat.mul_eq_zero.1 h with h0 | h0
      · exact hp h0
      · exact hq' h0
    unfold ofFrac
    simp only [hp, hp', if_false]
    rw [floorLog2_congr p q p' q' hp hq hp' hq' h,
      mantissa_congr p q p' q' _ hq hq' h]

/-- A quotient within half a unit of `N * 2 ^ s` has mantissa `N` at scale `s`. -/
theorem mantissa_near (p q N : Nat) (s : Int) (hq : q ≠ 0) (hN : 0 < N)
    (h1 : ((N : ℚ) - 1 / 2) * (2 : ℚ) ^ s < (p : ℚ) / q)
    (h2 : (p : ℚ) / q < ((N : ℚ) + 1 / 2) * (2 : ℚ) ^ s) : mantissa p q s = N := by
  obtain ⟨P, Q, hm, hQ, hPQ⟩ := mantissa_eq_round p q s
  have hq' : (0 : ℚ) < q := by exact_mod_cast Nat.pos_of_ne_zero hq
  have hQ' : (0 : ℚ) < Q := by exact_mod_cast Nat.pos_of_ne_zero (hQ hq)
  have hs : (0 : ℚ) < (2 : ℚ) ^ s := by positivity
  -- `P / Q` is the quotient divided by `2 ^ s`
  have hval : (p : ℚ) / q = ((P : ℚ) / Q) * (2 : ℚ) ^ s := by
    rw [div_mul_eq_mul_div, div_eq_div_iff hq'.ne' hQ'.ne']
    linarith
  rw [hval] at h1 h2
  have h1' : (N : ℚ) - 1 / 2 < (P : ℚ) / Q := lt_of_mul_lt_mul_right h1 hs.le
  have h2' : (P : ℚ) / Q < (N : ℚ) + 1 / 2 := lt_of_mul_lt_mul_right h2 hs.le
  rw [lt_div_iff₀ hQ'] at h1'
  rw [div_lt_iff₀ hQ'] at h2'
  have hup : 2 * P < (2 * N + 1) * Q := by
    have : (2 : ℚ) * P < (2 * (N : ℚ) + 1) * Q := by linarith
    exact_mod_cast this
  have hlo : (2 * N - 1) * Q < 2 * P := by
    have hN1 : ((2 * N - 1 : ℕ) : ℚ) = 2 * (N : ℚ) - 1 := by
      rw [Nat.cast_sub (by omega)]; push_cast; ring
    have : ((2 * N - 1 : ℕ) : ℚ) * Q < (2 : ℚ) * P := by rw [hN1]; linarith
    exact_mod_cast this
  rw [hm]
  rcases Nat.lt_or_ge P (N * Q) with hlt | hge
  · exact roundHalfEven_eq_up P Q N hlt.le hlo hN
  · exact roundHalfEven_eq P Q N hge hup

/-- The result of `ofFrac` once the clamped exponent and the mantissa are known. -/
theorem ofFrac_eq_of_mantissa (neg : Bool) (P Q N : Nat) (ec : Int) (hP : P ≠ 0)
    (he : max (floorLog2 P Q) (-1022) = ec) (hm : mantissa P Q (ec - 52) = N)
    (hec : ec ≤ 1023) (hN : ec = 1023 → N < 2 ^ 53) :
    ofFrac neg P Q =
      fin (if neg then -((N : ℚ) * (2 : ℚ) ^ (ec - 52)) else (N : ℚ) * (2 : ℚ) ^ (ec - 52)) := by
  have hno : ¬ (1023 < ec ∨ (ec = 1023 ∧ 2 ^ 53 ≤ N)) := by
    rintro (h | ⟨h1, h2⟩)
    · omega
    · have := hN h1
      omega
  unfold ofFrac
  simp only [hP, if_false, he, hm, hno, scale_eq]

set_option maxHeartbeats 1600000 in
/-- A positive quotient within a relative distance `1 / (2 * 10 ^ 16)` of the
binary64 value `M * 2 ^ t` rounds to that value. -/
theorem ofFrac_near (neg : Bool) (P Q M : Nat) (t : Int) (hP : P ≠ 0) (hQ : Q ≠ 0)
    (hM0 : 0 < M) (hM : M < 2 ^ 53) (hcanon : 2 ^ 52 ≤ M ∨ t = -1074)
    (ht1 : -1074 ≤ t) (ht2 : t ≤ 971)
    (hnear : |(P : ℚ) / Q - (M : ℚ) * (2 : ℚ) ^ t| ≤
      (M : ℚ) * (2 : ℚ) ^ t / (2 * 10 ^ 16)) :
    ofFrac neg P Q =
      fin (if neg then -((M : ℚ) * (2 : ℚ) ^ t) else (M : ℚ) * (2 : ℚ) ^ t) := by
  have two_ne : (2 : ℚ) ≠ 0 := by norm_num
  have hu : (0 : ℚ) < (2 : ℚ) ^ t := by positivity
  have hMq : (M : ℚ) ≤ 2 ^ 53 - 1 := by
    have : ((M : ℕ) : ℚ) ≤ ((2 ^ 53 - 1 : ℕ) : ℚ) := by exact_mod_cast (by omega : M ≤ 2 ^ 53 - 1)
    have e : ((2 ^ 53 - 1 : ℕ) : ℚ) = 2 ^ 53 - 1 := by norm_num
    rw [e] at this; exact this
  have hM1 : (1 : ℚ) ≤ (M : ℚ) := by exact_mod_cast hM0
  obtain ⟨hlo, hhi⟩ := abs_le.1 hnear
  have hy0 : (0 : ℚ) < (P : ℚ) / Q := by
    have hP' : (0 : ℚ) < P := by exact_mod_cast Nat.pos_of_ne_zero hP
    have hQ' : (0 : ℚ) < Q := by exact_mod_cast Nat.pos_of_ne_zero hQ
    positivity
  have hpow : ∀ a b : ℤ, (2 : ℚ) ^ (a + b) = (2 : ℚ) ^ a * (2 : ℚ) ^ b :=
    fun a b => zpow_add₀ two_ne a b
  have h52 : (2 : ℚ) ^ (52 + t) = 2 ^ 52 * (2 : ℚ) ^ t := by
    rw [hpow]; norm_num
  have h53 : (2 : ℚ) ^ (52 + t + 1) = 2 ^ 53 * (2 : ℚ) ^ t := by
    rw [show (52 : ℤ) + t + 1 = 53 + t by ring, hpow]; norm_num
  -- the distance is below `0.46` units, and below a quarter unit when `M ≤ 2 ^ 52`
  have hd : (M : ℚ) * (2 : ℚ) ^ t / (2 * 10 ^ 16) < (46 / 100) * (2 : ℚ) ^ t := by
    rw [div_lt_iff₀ (by norm_num)]
    have : (M : ℚ) * (2 : ℚ) ^ t ≤ (2 ^ 53 - 1) * (2 : ℚ) ^ t :=
      mul_le_mul_of_nonneg_right hMq hu.le
    nlinarith
  have hd4 : (M : ℚ) ≤ 2 ^ 52 →
      (M : ℚ) * (2 : ℚ) ^ t / (2 * 10 ^ 16) < (1 / 4) * (2 : ℚ) ^ t := by
    intro h
    rw [div_lt_iff₀ (by norm_num)]
    have : (M : ℚ) * (2 : ℚ) ^ t ≤ 2 ^ 52 * (2 : ℚ) ^ t := mul_le_mul_of_nonneg_right h hu.le
    nlinarith
  rcases Nat.lt_or_ge M (2 ^ 52) with hsub | hnorm
  · -- subnormal value: the scale is `-1074`
    have ht : t = -1074 := by
      rcases hcanon with h | h
      · omega
      · exact h
    have hMle : (M : ℚ) ≤ 2 ^ 52 - 1 := by
      have : ((M : ℕ) : ℚ) ≤ ((2 ^ 52 - 1 : ℕ) : ℚ) := by
        exact_mod_cast (by omega : M ≤ 2 ^ 52 - 1)
      have e : ((2 ^ 52 - 1 : ℕ) : ℚ) = 2 ^ 52 - 1 := by norm_num
      rw [e] at this; exact this
    have hq := hd4 (by linarith)
    have hylt : (P : ℚ) / Q < (2 : ℚ) ^ (-1022 : ℤ) := by
      have e : (2 : ℚ) ^ (-1022 : ℤ) = 2 ^ 52 * (2 : ℚ) ^ t := by
        rw [ht, show (-1022 : ℤ) = 52 + -1074 by norm_num, hpow]; norm_num
      rw [e]
      nlinarith
    have hE : floorLog2 P Q < -1022 :=
      (zpow_lt_zpow_iff_right₀ (by norm_num : (1 : ℚ) < 2)).1
        (lt_of_le_of_lt (floorLog2_spec P Q hP hQ).1 hylt)
    have he : max (floorLog2 P Q) (-1022) = -1022 := max_eq_right hE.le
    have hm : mantissa P Q (-1022 - 52) = M := by
      rw [show (-1022 : ℤ) - 52 = t by rw [ht]; norm_num]
      apply mantissa_near P Q M t hQ hM0 <;> nlinarith
    have := ofFrac_eq_of_mantissa neg P Q M (-1022) hP he hm (by norm_num) (by norm_num)
    rw [show (-1022 : ℤ) - 52 = t by rw [ht]; norm_num] at this
    exact this
  · have hMge : (2 : ℚ) ^ 52 ≤ (M : ℚ) := by
      have : ((2 ^ 52 : ℕ) : ℚ) ≤ ((M : ℕ) : ℚ) := by exact_mod_cast hnorm
      have e : ((2 ^ 52 : ℕ) : ℚ) = 2 ^ 52 := by norm_num
      rw [e] at this; exact this
    by_cases hge : (M : ℚ) * (2 : ℚ) ^ t ≤ (P : ℚ) / Q ∨ 2 ^ 52 < M
    · -- same binade as the value
      have hylo : (2 : ℚ) ^ (52 + t) ≤ (P : ℚ) / Q := by
        rw [h52]
        rcases hge with h | h
        · exact le_trans (mul_le_mul_of_nonneg_right hMge hu.le) h
        · have hM' : (2 : ℚ) ^ 52 + 1 ≤ (M : ℚ) := by
            have : ((2 ^ 52 + 1 : ℕ) : ℚ) ≤ ((M : ℕ) : ℚ) := by exact_mod_cast h
            have e : ((2 ^ 52 + 1 : ℕ) : ℚ) = 2 ^ 52 + 1 := by norm_num
            rw [e] at this; exact this
          nlinarith
      have hyhi : (P : ℚ) / Q < (2 : ℚ) ^ (52 + t + 1) := by
        rw [h53]; nlinarith
      have hE : floorLog2 P Q = 52 + t := floorLog2_eq P Q hP hQ _ hylo hyhi
      have he : max (floorLog2 P Q) (-1022) = 52 + t := by
        rw [hE]; exact max_eq_left (by omega)
      have hm : mantissa P Q (52 + t - 52) = M := by
        rw [show (52 : ℤ) + t - 52 = t by ring]
        apply mantissa_near P Q M t hQ hM0 <;> nlinarith
      have := ofFrac_eq_of_mantissa neg P Q M (52 + t) hP he hm (by omega) (fun _ => hM)
      rw [show (52 : ℤ) + t - 52 = t by ring] at this
      exact this
    · -- the value is a power of two and the quotient lies just below it
      push_neg at hge
      obtain ⟨hylt, hM52⟩ := hge
      have hMeq : M = 2 ^ 52 := le_antisymm hM52 hnorm
      have hMeq' : (M : ℚ) = 2 ^ 52 := by rw [hMeq]; norm_num
      have hq := hd4 hMeq'.le
      rw [hMeq'] at hlo hhi hq hylt ⊢
      have h51 : (2 : ℚ) ^ (51 + t) = 2 ^ 51 * (2 : ℚ) ^ t := by rw [hpow]; norm_num
      have h51' : (2 : ℚ) ^ (51 + t + 1) = 2 ^ 52 * (2 : ℚ) ^ t := by
        rw [show (51 : ℤ) + t + 1 = 52 + t by ring, hpow]; norm_num
      have hylo : (2 : ℚ) ^ (51 + t) ≤ (P : ℚ) / Q := by rw [h51]; linarith
      have hyhi : (P : ℚ) / Q < (2 : ℚ) ^ (51 + t + 1) := by rw [h51']; linarith
      have hE : floorLog2 P Q = 51 + t := floorLog2_eq P Q hP hQ _ hylo hyhi
      rcases le_or_lt (-1022 : ℤ) (51 + t) with hc | hc
      · have he : max (floorLog2 P Q) (-1022) = 51 + t := by
          rw [hE]; exact max_eq_left hc
        have ht' : (2 : ℚ) ^ (51 + t - 52) = (1 / 2) * (2 : ℚ) ^ t := by
          rw [show (51 : ℤ) + t - 52 = -1 + t by ring, hpow]; norm_num
        obtain ⟨N, hN⟩ : ∃ N : ℕ, N = 2 ^ 53 := ⟨_, rfl⟩
        have hNq : (N : ℚ) = 2 ^ 53 := by rw [hN]; norm_num
        have hN0 : 0 < N := by rw [hN]; positivity
        have hm : mantissa P Q (51 + t - 52) = N := by
          apply mantissa_near P Q N _ hQ hN0
          · rw [ht', hNq]; linarith
          · rw [ht', hNq]; linarith
        have := ofFrac_eq_of_mantissa neg P Q N (51 + t) hP he hm (by omega)
          (fun h => by omega)
        rw [ht', hNq] at this
        rw [this]
        have e : (2 : ℚ) ^ 53 * (1 / 2 * (2 : ℚ) ^ t) = 2 ^ 52 * (2 : ℚ) ^ t := by ring
        rw [e]
      · have ht : t = -1074 := by omega
        have he : max (floorLog2 P Q) (-1022) = -1022 := by
          rw [hE]; exact max_eq_right (by omega)
        have hm : mantissa P Q (-1022 - 52) = M := by
          rw [show (-1022 : ℤ) - 52 = t by rw [ht]; norm_num]
          apply mantissa_near P Q M t hQ hM0
          · rw [hMeq']; linarith
          · rw [hMeq']; linarith
        have := ofFrac_eq_of_mantissa neg P Q M (-1022) hP he hm (by norm_num)
          (by norm_num)
        rw [show (-1022 : ℤ) - 52 = t by rw [ht]; norm_num, hMeq'] at this
        exact this

/-- The magnitude of a non-zero binary64 value is `M * 2 ^ t` with `M < 2 ^ 53`,
`-1074 ≤ t ≤ 971`, and `2 ^ 52 ≤ M` unless `t = -1074`. -/
theorem IsBinary64.canonical (q : ℚ) (hq : q ≠ 0) (h : IsBinary64 q) :
    ∃ (M : Nat) (t : Int), 0 < M ∧ M < 2 ^ 53 ∧ (2 ^ 52 ≤ M ∨ t = -1074) ∧
      -1074 ≤ t ∧ t ≤ 971 ∧ |q| = (M : ℚ) * (2 : ℚ) ^ t := by
  have two_ne : (2 : ℚ) ≠ 0 := by norm_num
  have hp : q.num.natAbs ≠ 0 := Int.natAbs_ne_zero.2 (Rat.num_ne_zero.2 hq)
  have hd : q.den ≠ 0 := q.den_nz
  have hval : (q.num.natAbs : ℚ) / (q.den : ℚ) = |q| := (abs_eq_natAbs_div q).symm
  obtain ⟨hs1, hs2⟩ := floorLog2_spec q.num.natAbs q.den hp hd
  rw [hval] at hs1 hs2
  unfold IsBinary64 ofRat ofIntFrac ofFrac at h
  simp only [hp, if_false] at h
  by_cases hov : 1023 < max (floorLog2 q.num.natAbs q.den) (-1022) ∨
      (max (floorLog2 q.num.natAbs q.den) (-1022) = 1023 ∧
        2 ^ 53 ≤ mantissa q.num.natAbs q.den (max (floorLog2 q.num.natAbs q.den) (-1022) - 52))
  · rw [if_pos hov] at h
    split_ifs at h
  · rw [if_neg hov] at h
    push_neg at hov
    obtain ⟨hov1, hov2⟩ := hov
    have hsc : scale (mantissa q.num.natAbs q.den (max (floorLog2 q.num.natAbs q.den) (-1022) - 52))
        (max (floorLog2 q.num.natAbs q.den) (-1022) - 52) = |q| := by
      have h' := fin.inj h
      by_cases hneg : q.num < 0
      · have hq0 : q < 0 := Rat.num_neg.1 hneg
        simp only [hneg, decide_True, if_true] at h'
        rw [abs_of_neg hq0]; linarith
      · have hq0 : 0 ≤ q := Rat.num_nonneg.1 (not_lt.1 hneg)
        simp only [hneg, decide_False, Bool.false_eq_true, if_false] at h'
        rw [abs_of_nonneg hq0]; exact h'
    rw [scale_eq] at hsc
    have hge : (-1022 : ℤ) ≤ max (floorLog2 q.num.natAbs q.den) (-1022) := le_max_right _ _
    have habs : (0 : ℚ) < |q| := abs_pos.2 hq
    have hu : (0 : ℚ) < (2 : ℚ) ^ (max (floorLog2 q.num.natAbs q.den) (-1022) - 52) := by
      positivity
    have h53 : (2 : ℚ) ^ (max (floorLog2 q.num.natAbs q.den) (-1022) + 1) =
        2 ^ 53 * (2 : ℚ) ^ (max (floorLog2 q.num.natAbs q.den) (-1022) - 52) := by
      rw [show max (floorLog2 q.num.natAbs q.den) (-1022) + 1 =
        53 + (max (floorLog2 q.num.natAbs q.den) (-1022) - 52) by ring, zpow_add₀ two_ne]
      norm_num
    refine ⟨mantissa q.num.natAbs q.den (max (floorLog2 q.num.natAbs q.den) (-1022) - 52),
      max (floorLog2 q.num.natAbs q.den) (-1022) - 52, ?_, ?_, ?_, by omega, by omega, hsc.symm⟩
    · rcases Nat.eq_zero_or_pos
        (mantissa q.num.natAbs q.den (max (floorLog2 q.num.natAbs q.den) (-1022) - 52)) with
        h0 | h0
      · rw [h0] at hsc
        simp only [Nat.cast_zero, zero_mul] at hsc
        exact absurd (abs_eq_zero.1 hsc.symm) hq
      · exact h0
    · have hlt : |q| < (2 : ℚ) ^ (max (floorLog2 q.num.natAbs q.den) (-1022) + 1) :=
        lt_of_lt_of_le hs2 (zpow_le_zpow_right₀ (by norm_num)
          (by have := le_max_left (floorLog2 q.num.natAbs q.den) (-1022); omega))
      rw [h53, ← hsc] at hlt
      have := lt_of_mul_lt_mul_right hlt hu.le
      have e : ((2 : ℚ) ^ 53) = ((2 ^ 53 : ℕ) : ℚ) := by norm_num
      rw [e] at this
      exact_mod_cast this
    · rcases le_or_lt (-1022 : ℤ) (floorLog2 q.num.natAbs q.den) with hc | hc
      · left
        rw [max_eq_left hc] at hsc ⊢
        have h52 : (2 : ℚ) ^ floorLog2 q.num.natAbs q.den =
            2 ^ 52 * (2 : ℚ) ^ (floorLog2 q.num.natAbs q.den - 52) := by
          rw [show floorLog2 q.num.natAbs q.den =
            52 + (floorLog2 q.num.natAbs q.den - 52) by ring, zpow_add₀ two_ne]
          norm_num
        rw [h52, ← hsc] at hs1
        have hu' : (0 : ℚ) < (2 : ℚ) ^ (floorLog2 q.num.natAbs q.den - 52) := by positivity
        have := le_of_mul_le_mul_right hs1 hu'
        have e : ((2 : ℚ) ^ 52) = ((2 ^ 52 : ℕ) : ℚ) := by norm_num
        rw [e] at this
        exact_mod_cast this
      · right
        rw [max_eq_right hc.le]
        norm_num

/-- Rounding to binary64 depends only on the rational value of the quotient. -/
theorem ofFrac_congr_rat (neg : Bool) (p q p' q' : Nat) (hq : q ≠ 0) (hq' : q' ≠ 0)
    (h : (p : ℚ) / q = (p' : ℚ) / q') : ofFrac neg p q = ofFrac neg p' q' := by
  apply ofFrac_congr neg p q p' q' hq hq'
  have hq0 : (q : ℚ) ≠ 0 := by exact_mod_cast hq
  have hq0' : (q' : ℚ) ≠ 0 := by exact_mod_cast hq'
  rw [div_eq_div_iff hq0 hq0'] at h
  exact_mod_cast h

/-- The Number of a decimal numeral is the rounding of a quotient of value
`n * 10 ^ e`. -/
theorem ofDecimal_eq_ofFrac (neg : Bool) (n : Nat) (e : Int) :
    ∃ P Q : Nat, Q ≠ 0 ∧ (n ≠ 0 → P ≠ 0) ∧ (P : ℚ) / Q = (n : ℚ) * (10 : ℚ) ^ e ∧
      ofDecimal neg n e = ofFrac neg P Q := by
  unfold ofDecimal
  split_ifs with h
  · obtain ⟨k, rfl⟩ := Int.eq_ofNat_of_zero_le h
    refine ⟨n * 10 ^ k, 1, one_ne_zero, fun hn => Nat.mul_ne_zero hn (by positivity), ?_, ?_⟩
    · rw [zpow_natCast]; push_cast; simp
    · rw [Int.toNat_ofNat]
  · obtain ⟨k, hk⟩ := Int.eq_ofNat_of_zero_le (by omega : 0 ≤ -e)
    have he : e = -(k : ℤ) := by omega
    refine ⟨n, 10 ^ k, by positivity, fun hn => hn, ?_, ?_⟩
    · rw [he, zpow_neg, zpow_natCast]; push_cast; rw [div_eq_mul_inv]
    · rw [hk, Int.toNat_ofNat]

/-- Decimal numerals of the same value have the same Number. -/
theorem ofDecimal_congr (neg : Bool) (n n' : Nat) (e e' : Int)
    (h : (n : ℚ) * (10 : ℚ) ^ e = (n' : ℚ) * (10 : ℚ) ^ e') :
    ofDecimal neg n e = ofDecimal neg n' e' := by
  obtain ⟨P, Q, hQ, _, hv, h1⟩ := ofDecimal_eq_ofFrac neg n e
  obtain ⟨P', Q', hQ', _, hv', h2⟩ := ofDecimal_eq_ofFrac neg n' e'
  rw [h1, h2]
  exact ofFrac_congr_rat neg P Q P' Q' hQ hQ' (by rw [hv, hv', h])

/-- A decimal numeral within a relative distance `1 / (2 * 10 ^ 16)` of the
binary64 value `M * 2 ^ t` has that value as its Number. -/
theorem ofDecimal_near (neg : Bool) (n : Nat) (e : Int) (M : Nat) (t : Int) (hn : n ≠ 0)
    (hM0 : 0 < M) (hM : M < 2 ^ 53) (hcanon : 2 ^ 52 ≤ M ∨ t = -1074)
    (ht1 : -1074 ≤ t) (ht2 : t ≤ 971)
    (hnear : |(n : ℚ) * (10 : ℚ) ^ e - (M : ℚ) * (2 : ℚ) ^ t| ≤
      (M : ℚ) * (2 : ℚ) ^ t / (2 * 10 ^ 16)) :
    ofDecimal neg n e =
      fin (if neg then -((M : ℚ) * (2 : ℚ) ^ t) else (M : ℚ) * (2 : ℚ) ^ t) := by
  obtain ⟨P, Q, hQ, hP, hv, h1⟩ := ofDecimal_eq_ofFrac neg n e
  rw [h1]
  exact ofFrac_near neg P Q M t (hP hn) hQ hM0 hM hcanon ht1 ht2 (by rw [hv]; exact hnear)

end Number

end JS

/-! ### Decimal digits -/

namespace JS

/-- The characters `digitChar d`, `d < 10`, are decimal digits of value `d`. -/
theorem digitChar_spec (d : Nat) (h : d < 10) :
    (digitChar d).isDigit = true ∧ digitValue (digitChar d) = d := by
  interval_cases d <;> decide

/-- The digits of a number are decimal digit characters. -/
theorem natDigits_isDigit (n : Nat) : ∀ c ∈ natDigits n, c.isDigit = true := by
  induction n using Nat.strong_induction_on with
  | _ n ih =>
    rcases Nat.lt_or_ge n 10 with h | h
    · rw [natDigits_of_lt h]
      intro c hc
      rw [List.mem_singleton.1 hc]
      exact (digitChar_spec n h).1
    · rw [natDigits_of_ge h]
      intro c hc
      rcases List.mem_append.1 hc with h1 | h1
      · exact ih (n / 10) (by omega) c h1
      · rw [List.mem_singleton.1 h1]
        exact (digitChar_spec (n % 10) (Nat.mod_lt _ (by norm_num))).1

/-- Reading digits continues the number read so far. -/
theorem foldl_digits (cs : List Char) (acc : Nat) :
    cs.foldl (fun acc c => 10 * acc + digitValue c) acc =
      acc * 10 ^ cs.length + digitsToNat cs := by
  unfold digitsToNat
  induction cs generalizing acc with
  | nil => simp
  | cons c cs ih =>
    rw [List.foldl_cons, List.foldl_cons, ih (10 * acc + digitValue c),
      ih (10 * 0 + digitValue c), List.length_cons, pow_succ]
    ring

/-- The number written by two lists of digits one after the other. -/
theorem digitsToNat_append (a b : List Char) :
    digitsToNat (a ++ b) = digitsToNat a * 10 ^ b.length + digitsToNat b := by
  have h : digitsToNat (a ++ b) =
      b.foldl (fun acc c => 10 * acc + digitValue c) (digitsToNat a) := by
    unfold digitsToNat
    rw [List.foldl_append]
  rw [h, foldl_digits]

/-- Reading back the digits of a number gives the number. -/
theorem digitsToNat_natDigits (n : Nat) : digitsToNat (natDigits n) = n := by
  induction n using Nat.strong_induction_on with
  | _ n ih =>
    rcases Nat.lt_or_ge n 10 with h | h
    · rw [natDigits_of_lt h]
      simp [digitsToNat, (digitChar_spec n h).2]
    · rw [natDigits_of_ge h, digitsToNat_append, ih (n / 10) (by omega)]
      simp only [List.length_singleton, pow_one]
      have : digitsToNat [digitChar (n % 10)] = n % 10 := by
        simp [digitsToNat, (digitChar_spec (n % 10) (Nat.mod_lt _ (by norm_num))).2]
      rw [this]
      omega

/-- A positive number lies between the powers of ten given by its number of digits. -/
theorem natDigits_length_spec (n : Nat) (hn : n ≠ 0) :
    10 ^ ((natDigits n).length - 1) ≤ n ∧ n < 10 ^ (natDigits n).length := by
  induction n using Nat.strong_induction_on with
  | _ n ih =>
    rcases Nat.lt_or_ge n 10 with h | h
    · rw [natDigits_of_lt h]
      simp
      omega
    · rw [natDigits_of_ge h]
      obtain ⟨h1, h2⟩ := ih (n / 10) (by omega) (by omega)
      have hpos := natDigits_length_pos (n / 10)
      simp only [List.length_append, List.length_singleton, Nat.add_sub_cancel]
      constructor
      · have e : (natDigits (n / 10)).length = ((natDigits (n / 10)).length - 1) + 1 := by omega
        rw [e, pow_succ]
        omega
      · rw [pow_succ]
        omega

/-- A number with `10 ^ (k - 1) ≤ n < 10 ^ k` has `k` digits. -/
theorem natDigits_length_eq (n k : Nat) (hk : 0 < k) (h1 : 10 ^ (k - 1) ≤ n) (h2 : n < 10 ^ k) :
    (natDigits n).length = k := by
  have hn : n ≠ 0 := by
    have : 0 < 10 ^ (k - 1) := by positivity
    omega
  obtain ⟨h3, h4⟩ := natDigits_length_spec n hn
  have hpos := natDigits_length_pos n
  have a : (natDigits n).length - 1 < k :=
    (Nat.pow_lt_pow_iff_right (by norm_num : 1 < 10)).1 (lt_of_le_of_lt h3 h2)
  have b : k - 1 < (natDigits n).length :=
    (Nat.pow_lt_pow_iff_right (by norm_num : 1 < 10)).1 (lt_of_le_of_lt h1 h4)
  omega

/-- The comparison made by `floorLog10`, read in the rationals. -/
theorem floorLog10_test_iff (p q : Nat) (hq : q ≠ 0) (e : Int) :
    (if 0 ≤ e then q * 10 ^ e.toNat ≤ p else q ≤ p * 10 ^ (-e).toNat) ↔
      (10 : ℚ) ^ e ≤ (p : ℚ) / q := by
  have hq' : (0 : ℚ) < q := by exact_mod_cast Nat.pos_of_ne_zero hq
  split_ifs with h
  · obtain ⟨n, rfl⟩ := Int.eq_ofNat_of_zero_le h
    rw [Int.toNat_ofNat, zpow_natCast, le_div_iff₀ hq']
    constructor
    · intro h1
      have : ((q * 10 ^ n : ℕ) : ℚ) ≤ (p : ℚ) := by exact_mod_cast h1
      push_cast at this
      linarith
    · intro h1
      have : ((q * 10 ^ n : ℕ) : ℚ) ≤ (p : ℚ) := by push_cast; linarith
      exact_mod_cast this
  · obtain ⟨n, hn⟩ := Int.eq_ofNat_of_zero_le (by omega : 0 ≤ -e)
    have he : e = -(n : ℤ) := by omega
    rw [hn, Int.toNat_ofNat, he, zpow_neg, zpow_natCast, le_div_iff₀ hq']
    have h2 : (0 : ℚ) < 10 ^ n := by positivity
    rw [inv_mul_le_iff₀ h2]
    constructor
    · intro h1
      have : ((q : ℕ) : ℚ) ≤ ((p * 10 ^ n : ℕ) : ℚ) := by exact_mod_cast h1
      push_cast at this
      linarith
    · intro h1
      have : ((q : ℕ) : ℚ) ≤ ((p * 10 ^ n : ℕ) : ℚ) := by push_cast; linarith
      exact_mod_cast this

/-- For positive `p` and `q`, `floorLog10 p q` is the integer `e` with
`10 ^ e ≤ p / q < 10 ^ (e + 1)`. -/
theorem floorLog10_spec (p q : Nat) (hp : p ≠ 0) (hq : q ≠ 0) :
    (10 : ℚ) ^ floorLog10 p q ≤ (p : ℚ) / q ∧
      (p : ℚ) / q < (10 : ℚ) ^ (floorLog10 p q + 1) := by
  have hq' : (0 : ℚ) < q := by exact_mod_cast Nat.pos_of_ne_zero hq
  have hp' : (0 : ℚ) < p := by exact_mod_cast Nat.pos_of_ne_zero hp
  obtain ⟨hplo, hphi⟩ := natDigits_length_spec p hp
  obtain ⟨hqlo, hqhi⟩ := natDigits_length_spec q hq
  have hp1 := natDigits_length_pos p
  have hq1 := natDigits_length_pos q
  have hplo' : (10 : ℚ) ^ (((natDigits p).length : ℤ) - 1) ≤ p := by
    have : ((10 ^ ((natDigits p).length - 1) : ℕ) : ℚ) ≤ p := by exact_mod_cast hplo
    have e : (((natDigits p).length : ℤ) - 1) = (((natDigits p).length - 1 : ℕ) : ℤ) := by omega
    rw [e, zpow_natCast]
    exact_mod_cast this
  have hphi' : (p : ℚ) < (10 : ℚ) ^ ((natDigits p).length : ℤ) := by
    rw [zpow_natCast]
    exact_mod_cast hphi
  have hqlo' : (10 : ℚ) ^ (((natDigits q).length : ℤ) - 1) ≤ q := by
    have : ((10 ^ ((natDigits q).length - 1) : ℕ) : ℚ) ≤ q := by exact_mod_cast hqlo
    have e : (((natDigits q).length : ℤ) - 1) = (((natDigits q).length - 1 : ℕ) : ℤ) := by omega
    rw [e, zpow_natCast]
    exact_mod_cast this
  have hqhi' : (q : ℚ) < (10 : ℚ) ^ ((natDigits q).length : ℤ) := by
    rw [zpow_natCast]
    exact_mod_cast hqhi
  have ten_ne : (10 : ℚ) ≠ 0 := by norm_num
  have hlow : (10 : ℚ) ^ (((natDigits p).length : ℤ) - ((natDigits q).length : ℤ) - 1) <
      (p : ℚ) / q := by
    rw [lt_div_iff₀ hq']
    have e : (((natDigits p).length : ℤ) - ((natDigits q).length : ℤ) - 1) =
        (((natDigits p).length : ℤ) - 1) - ((natDigits q).length : ℤ) := by ring
    rw [e, zpow_sub₀ ten_ne, div_mul_eq_mul_div, div_lt_iff₀ (by positivity)]
    have h0 : (0 : ℚ) < (10 : ℚ) ^ (((natDigits p).length : ℤ) - 1) := by positivity
    nlinarith
  have hupp : (p : ℚ) / q <
      (10 : ℚ) ^ (((natDigits p).length : ℤ) - ((natDigits q).length : ℤ) + 1) := by
    rw [div_lt_iff₀ hq']
    have e : (((natDigits p).length : ℤ) - ((natDigits q).length : ℤ) + 1) =
        ((natDigits p).length : ℤ) - (((natDigits q).length : ℤ) - 1) := by ring
    rw [e, zpow_sub₀ ten_ne, div_mul_eq_mul_div, lt_div_iff₀ (by positivity)]
    have h0 : (0 : ℚ) < (10 : ℚ) ^ (((natDigits q).length : ℤ) - 1) := by positivity
    nlinarith
  unfold floorLog10
  simp only
  by_cases ht : (if 0 ≤ ((natDigits p).length : ℤ) - ((natDigits q).length : ℤ)
      then q * 10 ^ (((natDigits p).length : ℤ) - ((natDigits q).length : ℤ)).toNat ≤ p
      else q ≤ p * 10 ^ (-(((natDigits p).length : ℤ) - ((natDigits q).length : ℤ))).toNat)
  · rw [if_pos ht]
    exact ⟨(floorLog10_test_iff p q hq _).1 ht, hupp⟩
  · rw [if_neg ht]
    refine ⟨le_of_lt hlow, ?_⟩
    have := (floorLog10_test_iff p q hq
      (((natDigits p).length : ℤ) - ((natDigits q).length : ℤ))).not.1 ht
    rw [sub_add_cancel]
    exact not_le.1 this

/-! ### The digits of `Number::toString` -/

/-- The quotient that `shortestAt` takes the integer part of has the value
`p / q * 10 ^ sh`. -/
theorem scaled_quotient (p q : Nat) (hq : q ≠ 0) (sh : Int) :
    (if 0 ≤ sh then q else q * 10 ^ (-sh).toNat) ≠ 0 ∧
      (((if 0 ≤ sh then p * 10 ^ sh.toNat else p : Nat) : ℚ) /
        ((if 0 ≤ sh then q else q * 10 ^ (-sh).toNat : Nat) : ℚ)) =
        (p : ℚ) / q * (10 : ℚ) ^ sh := by
  have hq' : (q : ℚ) ≠ 0 := by exact_mod_cast hq
  by_cases h : 0 ≤ sh
  · rw [if_pos h, if_pos h]
    obtain ⟨n, rfl⟩ := Int.eq_ofNat_of_zero_le h
    refine ⟨hq, ?_⟩
    rw [Int.toNat_ofNat, zpow_natCast]
    push_cast
    field_simp
  · rw [if_neg h, if_neg h]
    obtain ⟨n, hn⟩ := Int.eq_ofNat_of_zero_le (by omega : 0 ≤ -sh)
    have hs : sh = -(n : ℤ) := by omega
    refine ⟨Nat.mul_ne_zero hq (by positivity), ?_⟩
    rw [hn, Int.toNat_ofNat, hs, zpow_neg, zpow_natCast]
    push_cast
    field_simp

/-- A result of `shortestAt` is one of its two candidates, and that candidate
rounds to the value. -/
theorem shortestAt_cases (p q k : Nat) (r : Nat × Int) (h : shortestAt p q k = some r) :
    let n0 : Int := floorLog10 p q + 1
    let sh : Int := (k : Int) - n0
    let P := if 0 ≤ sh then p * 10 ^ sh.toNat else p
    let Q := if 0 ≤ sh then q else q * 10 ^ (-sh).toNat
    let lo := P / Q
    (Number.ofDecimal false lo (n0 - k) = Number.ofFrac false p q ∧ r = (lo, n0)) ∨
      (Number.ofDecimal false (lo + 1) (n0 - k) = Number.ofFrac false p q ∧
        r = if lo + 1 = 10 ^ k then (10 ^ (k - 1), n0 + 1) else (lo + 1, n0)) := by
  intro n0 sh P Q lo
  have hdef : shortestAt p q k =
      (if (decide (Number.ofDecimal false lo (n0 - k) = Number.ofFrac false p q) &&
          decide (Number.ofDecimal false (lo + 1) (n0 - k) = Number.ofFrac false p q)) = true then
        (if 2 * (P % Q) < Q then some (lo, n0)
         else if Q < 2 * (P % Q) then
           (if lo + 1 = 10 ^ k then some (10 ^ (k - 1), n0 + 1) else some (lo + 1, n0))
         else if lo % 2 = 0 then some (lo, n0)
         else (if lo + 1 = 10 ^ k then some (10 ^ (k - 1), n0 + 1) else some (lo + 1, n0)))
      else if decide (Number.ofDecimal false lo (n0 - k) = Number.ofFrac false p q) = true then
        some (lo, n0)
      else if decide (Number.ofDecimal false (lo + 1) (n0 - k) = Number.ofFrac false p q) = true
        then (if lo + 1 = 10 ^ k then some (10 ^ (k - 1), n0 + 1) else some (lo + 1, n0))
      else none) := rfl
  rw [hdef] at h
  have hpick : ∀ r, (if lo + 1 = 10 ^ k then some ((10 : Nat) ^ (k - 1), n0 + 1)
      else some (lo + 1, n0)) = some r →
      r = if lo + 1 = 10 ^ k then (10 ^ (k - 1), n0 + 1) else (lo + 1, n0) := by
    intro r hr
    by_cases hc : lo + 1 = 10 ^ k
    · rw [if_pos hc] at hr ⊢
      exact (Option.some.inj hr).symm
    · rw [if_neg hc] at hr ⊢
      exact (Option.some.inj hr).symm
  by_cases hlo : Number.ofDecimal false lo (n0 - k) = Number.ofFrac false p q
  · by_cases hhi : Number.ofDecimal false (lo + 1) (n0 - k) = Number.ofFrac false p q
    · rw [if_pos (by simp [hlo, hhi])] at h
      by_cases c1 : 2 * (P % Q) < Q
      · rw [if_pos c1] at h
        exact Or.inl ⟨hlo, (Option.some.inj h).symm⟩
      · rw [if_neg c1] at h
        by_cases c2 : Q < 2 * (P % Q)
        · rw [if_pos c2] at h
          exact Or.inr ⟨hhi, hpick r h⟩
        · rw [if_neg c2] at h
          by_cases c3 : lo % 2 = 0
          · rw [if_pos c3] at h
            exact Or.inl ⟨hlo, (Option.some.inj h).symm⟩
          · rw [if_neg c3] at h
            exact Or.inr ⟨hhi, hpick r h⟩
    · rw [if_neg (by simp [hhi]), if_pos (by simp [hlo])] at h
      exact Or.inl ⟨hlo, (Option.some.inj h).symm⟩
  · rw [if_neg (by simp [hlo]), if_neg (by simp [hlo])] at h
    by_cases hhi : Number.ofDecimal false (lo + 1) (n0 - k) = Number.ofFrac false p q
    · rw [if_pos (by simp [hhi])] at h
      exact Or.inr ⟨hhi, hpick r h⟩
    · rw [if_neg (by simp [hhi])] at h
      exact absurd h (by simp)

/-- When one of the two candidates rounds to the value, `shortestAt` has a result. -/
theorem shortestAt_ne_none (p q k : Nat) :
    let n0 : Int := floorLog10 p q + 1
    let sh : Int := (k : Int) - n0
    let P := if 0 ≤ sh then p * 10 ^ sh.toNat else p
    let Q := if 0 ≤ sh then q else q * 10 ^ (-sh).toNat
    let lo := P / Q
    (Number.ofDecimal false lo (n0 - k) = Number.ofFrac false p q ∨
      Number.ofDecimal false (lo + 1) (n0 - k) = Number.ofFrac false p q) →
    shortestAt p q k ≠ none := by
  intro n0 sh P Q lo hor
  have hdef : shortestAt p q k =
      (if (decide (Number.ofDecimal false lo (n0 - k) = Number.ofFrac false p q) &&
          decide (Number.ofDecimal false (lo + 1) (n0 - k) = Number.ofFrac false p q)) = true then
        (if 2 * (P % Q) < Q then some (lo, n0)
         else if Q < 2 * (P % Q) then
           (if lo + 1 = 10 ^ k then some (10 ^ (k - 1), n0 + 1) else some (lo + 1, n0))
         else if lo % 2 = 0 then some (lo, n0)
         else (if lo + 1 = 10 ^ k then some (10 ^ (k - 1), n0 + 1) else some (lo + 1, n0)))
      else if decide (Number.ofDecimal false lo (n0 - k) = Number.ofFrac false p q) = true then
        some (lo, n0)
      else if decide (Number.ofDecimal false (lo + 1) (n0 - k) = Number.ofFrac false p q) = true
        then (if lo + 1 = 10 ^ k then some (10 ^ (k - 1), n0 + 1) else some (lo + 1, n0))
      else none) := rfl
  rw [hdef]
  split_ifs <;> simp_all

/-- Integer part and remainder of a quotient of naturals, in `ℚ`. -/
theorem div_add_mod_rat (P Q : Nat) (hQ : Q ≠ 0) :
    ((P / Q : Nat) : ℚ) + ((P % Q : Nat) : ℚ) / Q = (P : ℚ) / Q ∧
      (0 : ℚ) ≤ ((P % Q : Nat) : ℚ) / Q ∧ ((P % Q : Nat) : ℚ) / Q < 1 := by
  have hQ' : (0 : ℚ) < Q := by exact_mod_cast Nat.pos_of_ne_zero hQ
  have h := Nat.div_add_mod P Q
  have h' : (Q : ℚ) * ((P / Q : Nat) : ℚ) + ((P % Q : Nat) : ℚ) = (P : ℚ) := by exact_mod_cast h
  refine ⟨?_, by positivity, ?_⟩
  · rw [← h']
    field_simp
    ring
  · rw [div_lt_one hQ']
    exact_mod_cast Nat.mod_lt P (Nat.pos_of_ne_zero hQ)

/-- With seventeen digits one of the two candidates of `shortestAt` rounds to a
binary64 value `M * 2 ^ t`, so `shortestAt` has a result. -/
theorem shortestAt_seventeen (p q M k : Nat) (t : Int) (hp : p ≠ 0) (hq : q ≠ 0) (hk : k = 17)
    (hM0 : 0 < M) (hM : M < 2 ^ 53) (hcanon : 2 ^ 52 ≤ M ∨ t = -1074)
    (ht1 : -1074 ≤ t) (ht2 : t ≤ 971) (hv : (p : ℚ) / q = (M : ℚ) * (2 : ℚ) ^ t) :
    shortestAt p q k ≠ none := by
  have ten_ne : (10 : ℚ) ≠ 0 := by norm_num
  have hx : Number.ofFrac false p q = Number.fin ((M : ℚ) * (2 : ℚ) ^ t) := by
    have := Number.ofFrac_near false p q M t hp hq hM0 hM hcanon ht1 ht2
      (by rw [hv, sub_self, abs_zero]; positivity)
    simpa using this
  apply shortestAt_ne_none
  obtain ⟨hQ, hPQ⟩ := scaled_quotient p q hq ((k : Int) - (floorLog10 p q + 1))
  obtain ⟨hlo10, -⟩ := floorLog10_spec p q hp hq
  generalize (if 0 ≤ (k : Int) - (floorLog10 p q + 1)
    then p * 10 ^ ((k : Int) - (floorLog10 p q + 1)).toNat else p) = P at hPQ ⊢
  generalize (if 0 ≤ (k : Int) - (floorLog10 p q + 1)
    then q else q * 10 ^ (-((k : Int) - (floorLog10 p q + 1))).toNat) = Q at hQ hPQ ⊢
  obtain ⟨hdm, hr0, hr1⟩ := div_add_mod_rat P Q hQ
  generalize hρ : ((P % Q : Nat) : ℚ) / Q = ρ at hdm hr0 hr1
  generalize hn0 : floorLog10 p q + 1 = n0 at hPQ ⊢
  have hfl : floorLog10 p q = n0 - 1 := by omega
  rw [hfl] at hlo10
  generalize hvv : (p : ℚ) / q = v at hPQ hlo10 hv
  have hE : (0 : ℚ) < (10 : ℚ) ^ (n0 - (k : Int)) := by positivity
  have hEv : (10 : ℚ) ^ (n0 - (k : Int)) ≤ v / 10 ^ 16 := by
    have h1 : (10 : ℚ) ^ (n0 - (k : Int)) = (10 : ℚ) ^ (n0 - 1) / 10 ^ 16 := by
      rw [hk, show n0 - ((17 : Nat) : Int) = (n0 - 1) - (16 : ℕ) by push_cast; ring,
        zpow_sub₀ ten_ne, zpow_natCast]
    rw [h1]
    exact div_le_div_of_nonneg_right hlo10 (by positivity)
  have hVE : (P : ℚ) / Q * (10 : ℚ) ^ (n0 - (k : Int)) = v := by
    rw [hPQ, mul_assoc, ← zpow_add₀ ten_ne, show (k : Int) - n0 + (n0 - k) = 0 by ring,
      zpow_zero, mul_one]
  have hV1 : (1 : ℚ) ≤ (P : ℚ) / Q := by
    rw [hPQ]
    have h2 : (10 : ℚ) ^ (n0 - 1) * (10 : ℚ) ^ ((k : Int) - n0) ≤ v * (10 : ℚ) ^ ((k : Int) - n0) :=
      mul_le_mul_of_nonneg_right hlo10 (by positivity)
    rw [← zpow_add₀ ten_ne, hk, show n0 - 1 + (((17 : Nat) : Int) - n0) = (16 : ℕ) by push_cast; ring,
      zpow_natCast] at h2
    rw [hk]
    linarith [show (1 : ℚ) ≤ 10 ^ 16 by norm_num]
  have hvpos : (0 : ℚ) < v := by rw [← hVE]; positivity
  rw [hx]
  have hcast : ((k : Nat) : Int) = (k : Int) := rfl
  by_cases hhalf : ρ ≤ 1 / 2
  · left
    have hlo0 : P / Q ≠ 0 := by
      intro h0
      rw [h0] at hdm
      push_cast at hdm
      linarith
    have := Number.ofDecimal_near false (P / Q) (n0 - k) M t hlo0 hM0 hM hcanon ht1 ht2 (by
      rw [← hv]
      generalize (10 : ℚ) ^ (n0 - (k : Int)) = E at hE hEv hVE
      have e1 : ((P / Q : Nat) : ℚ) * E - v = -(ρ * E) := by
        rw [← hVE, ← hdm]
        ring
      rw [e1, abs_neg, abs_of_nonneg (by positivity)]
      have h3 : ρ * E ≤ 1 / 2 * E := mul_le_mul_of_nonneg_right hhalf hE.le
      have h4 : v / (2 * 10 ^ 16) = 1 / 2 * (v / 10 ^ 16) := by ring
      rw [h4]
      linarith)
    simpa using this
  · right
    have := Number.ofDecimal_near false (P / Q + 1) (n0 - k) M t (Nat.succ_ne_zero _)
      hM0 hM hcanon ht1 ht2 (by
      rw [← hv]
      generalize (10 : ℚ) ^ (n0 - (k : Int)) = E at hE hEv hVE
      have e1 : ((P / Q + 1 : Nat) : ℚ) * E - v = (1 - ρ) * E := by
        rw [← hVE, ← hdm]
        push_cast
        ring
      rw [e1, abs_of_nonneg (mul_nonneg (by linarith) hE.le)]
      have h3 : (1 - ρ) * E ≤ 1 / 2 * E :=
        mul_le_mul_of_nonneg_right (by linarith [not_le.1 hhalf]) hE.le
      have h4 : v / (2 * 10 ^ 16) = 1 / 2 * (v / 10 ^ 16) := by ring
      rw [h4]
      linarith)
    simpa using this

/-- A result `(s, n)` of `shortestAt` with `k` digits: `s` has exactly `k`
digits and the decimal `s * 10 ^ (n - k)` rounds to the value. -/
theorem shortestAt_sound (p q k s : Nat) (n : Int) (hp : p ≠ 0) (hq : q ≠ 0) (hk : 0 < k)
    (h : shortestAt p q k = some (s, n)) :
    Number.ofDecimal false s (n - k) = Number.ofFrac false p q ∧ 10 ^ (k - 1) ≤ s ∧ s < 10 ^ k := by
  have ten_ne : (10 : ℚ) ≠ 0 := by norm_num
  have hc := shortestAt_cases p q k (s, n) h
  obtain ⟨hQ, hPQ⟩ := scaled_quotient p q hq ((k : Int) - (floorLog10 p q + 1))
  obtain ⟨hlo10, hhi10⟩ := floorLog10_spec p q hp hq
  simp only [] at hc
  generalize (if 0 ≤ (k : Int) - (floorLog10 p q + 1)
    then p * 10 ^ ((k : Int) - (floorLog10 p q + 1)).toNat else p) = P at hPQ hc
  generalize (if 0 ≤ (k : Int) - (floorLog10 p q + 1)
    then q else q * 10 ^ (-((k : Int) - (floorLog10 p q + 1))).toNat) = Q at hQ hPQ hc
  obtain ⟨hdm, hr0, hr1⟩ := div_add_mod_rat P Q hQ
  generalize ((P % Q : Nat) : ℚ) / Q = ρ at hdm hr0 hr1
  generalize hn0 : floorLog10 p q + 1 = n0 at hPQ hc hhi10
  have hfl : floorLog10 p q = n0 - 1 := by omega
  rw [hfl] at hlo10
  -- bounds on the scaled quotient
  have hV1 : ((10 : Nat) ^ (k - 1) : ℚ) ≤ (P : ℚ) / Q := by
    rw [hPQ]
    have h2 : (10 : ℚ) ^ (n0 - 1) * (10 : ℚ) ^ ((k : Int) - n0) ≤
        (p : ℚ) / q * (10 : ℚ) ^ ((k : Int) - n0) :=
      mul_le_mul_of_nonneg_right hlo10 (by positivity)
    rw [← zpow_add₀ ten_ne, show n0 - 1 + ((k : Int) - n0) = ((k - 1 : Nat) : Int) by omega,
      zpow_natCast] at h2
    exact h2
  have hV2 : (P : ℚ) / Q < ((10 : Nat) ^ k : ℚ) := by
    rw [hPQ]
    have h2 : (p : ℚ) / q * (10 : ℚ) ^ ((k : Int) - n0) <
        (10 : ℚ) ^ n0 * (10 : ℚ) ^ ((k : Int) - n0) :=
      mul_lt_mul_of_pos_right hhi10 (by positivity)
    rw [← zpow_add₀ ten_ne, show n0 + ((k : Int) - n0) = ((k : Nat) : Int) by omega,
      zpow_natCast] at h2
    exact h2
  have hlo1 : 10 ^ (k - 1) ≤ P / Q := by
    have : ((10 ^ (k - 1) : Nat) : ℚ) < ((P / Q + 1 : Nat) : ℚ) := by
      push_cast
      push_cast at hV1
      linarith
    have := Nat.cast_lt.1 this
    omega
  have hlo2 : P / Q < 10 ^ k := by
    have : ((P / Q : Nat) : ℚ) < ((10 ^ k : Nat) : ℚ) := by
      push_cast
      push_cast at hV2
      linarith
    exact Nat.cast_lt.1 this
  rcases hc with ⟨hx, hr⟩ | ⟨hx, hr⟩
  · obtain ⟨rfl, rfl⟩ := Prod.mk.inj hr
    exact ⟨hx, hlo1, hlo2⟩
  · by_cases hten : P / Q + 1 = 10 ^ k
    · rw [if_pos hten] at hr
      obtain ⟨rfl, rfl⟩ := Prod.mk.inj hr
      refine ⟨?_, le_refl _, Nat.pow_lt_pow_right (by norm_num) (by omega)⟩
      rw [← hx, hten]
      apply Number.ofDecimal_congr
      push_cast
      rw [← zpow_natCast, ← zpow_natCast, ← zpow_add₀ ten_ne, ← zpow_add₀ ten_ne]
      congr 1
      omega
    · rw [if_neg hten] at hr
      obtain ⟨rfl, rfl⟩ := Prod.mk.inj hr
      exact ⟨hx, by omega, by omega⟩

/-- For a binary64 value `p / q = M * 2 ^ t`, the digits `s` and the exponent
`n` of `shortestDigits`: `s` has `k` digits for some `k` from 1 to 17, and the
decimal `s * 10 ^ (n - k)` rounds to the value. -/
theorem shortestDigits_spec (p q M : Nat) (t : Int) (hp : p ≠ 0) (hq : q ≠ 0)
    (hM0 : 0 < M) (hM : M < 2 ^ 53) (hcanon : 2 ^ 52 ≤ M ∨ t = -1074)
    (ht1 : -1074 ≤ t) (ht2 : t ≤ 971) (hv : (p : ℚ) / q = (M : ℚ) * (2 : ℚ) ^ t) :
    ∃ k : Nat, 0 < k ∧ k ≤ 17 ∧ 10 ^ (k - 1) ≤ (shortestDigits p q).1 ∧
      (shortestDigits p q).1 < 10 ^ k ∧
      Number.ofDecimal false (shortestDigits p q).1 ((shortestDigits p q).2 - k) =
        Number.fin ((M : ℚ) * (2 : ℚ) ^ t) := by
  have hx : Number.ofFrac false p q = Number.fin ((M : ℚ) * (2 : ℚ) ^ t) := by
    have := Number.ofFrac_near false p q M t hp hq hM0 hM hcanon ht1 ht2
      (by rw [hv, sub_self, abs_zero]; positivity)
    simpa using this
  have h17 := shortestAt_seventeen p q M 17 t hp hq rfl hM0 hM hcanon ht1 ht2 hv
  cases hf : (List.range 17).findSome? (fun i => shortestAt p q (i + 1)) with
  | none =>
    rw [List.findSome?_eq_none_iff] at hf
    exact absurd (hf 16 (by simp)) h17
  | some r =>
    have hsd : shortestDigits p q = r := by
      unfold shortestDigits
      rw [hf]
    obtain ⟨i, hi, hr⟩ := List.exists_of_findSome?_eq_some hf
    rw [List.mem_range] at hi
    obtain ⟨s, n⟩ := r
    obtain ⟨h1, h2, h3⟩ := shortestAt_sound p q (i + 1) s n hp hq (Nat.succ_pos i) hr
    rw [hsd]
    refine ⟨i + 1, Nat.succ_pos i, by omega, h2, h3, ?_⟩
    rw [← hx]
    exact h1

/-! ### `parseFloat` of a string written by `Number::toString` -/

/-- `Char.isDigit` in terms of the code point. -/
theorem isDigit_toNat (c : Char) : c.isDigit = true ↔ 48 ≤ c.toNat ∧ c.toNat ≤ 57 := by
  simp only [Char.isDigit, Bool.and_eq_true, decide_eq_true_eq]
  rfl

/-- A decimal digit is not white space. -/
theorem isWhiteSpace_of_isDigit (c : Char) (h : c.isDigit = true) : isWhiteSpace c = false := by
  obtain ⟨h1, h2⟩ := (isDigit_toNat c).1 h
  unfold isWhiteSpace
  generalize c.toNat = n at h1 h2
  interval_cases n <;> decide

/-- A decimal digit is none of the characters `+`, `-`, `I`, `.`, `e`, `E`. -/
theorem ne_of_isDigit (c : Char) (h : c.isDigit = true) :
    c ≠ '+' ∧ c ≠ '-' ∧ c ≠ 'I' ∧ c ≠ '.' ∧ c ≠ 'e' ∧ c ≠ 'E' := by
  refine ⟨?_, ?_, ?_, ?_, ?_, ?_⟩ <;> (rintro rfl; revert h; decide)

/-- White space is skipped up to a digit. -/
theorem dropWhile_isWhiteSpace_digit (c : Char) (cs : List Char) (h : c.isDigit = true) :
    (c :: cs).dropWhile isWhiteSpace = c :: cs := by
  rw [List.dropWhile_cons_of_neg (by rw [isWhiteSpace_of_isDigit c h]; simp)]

/-- No sign is taken in front of a digit. -/
theorem takeSign_digit (c : Char) (cs : List Char) (h : c.isDigit = true) :
    takeSign (c :: cs) = (false, c :: cs) := by
  obtain ⟨h1, h2, -⟩ := ne_of_isDigit c h
  unfold takeSign
  split
  · rename_i heq; exact absurd (List.cons.inj heq).1 h1
  · rename_i heq; exact absurd (List.cons.inj heq).1 h2
  · rfl

/-- The word `Infinity` does not start with a digit. -/
theorem infinity_isPrefixOf (c : Char) (cs : List Char) (h : c.isDigit = true) :
    "Infinity".toList.isPrefixOf (c :: cs) = false := by
  obtain ⟨-, -, h3, -⟩ := ne_of_isDigit c h
  have : "Infinity".toList = 'I' :: "nfinity".toList := rfl
  rw [this, List.isPrefixOf]
  simp [Ne.symm h3]

/-- Digits in front of a character that is not a digit: `takeWhile`. -/
theorem takeWhile_digits (ds r : List Char) (hds : ∀ c ∈ ds, c.isDigit = true)
    (hr : ∀ c t, r = c :: t → c.isDigit = false) :
    (ds ++ r).takeWhile Char.isDigit = ds := by
  induction ds with
  | nil =>
    cases r with
    | nil => rfl
    | cons c t => simp [List.takeWhile, hr c t rfl]
  | cons d ds ih =>
    rw [List.cons_append, List.takeWhile_cons_of_pos (hds d (List.mem_cons_self _ _)),
      ih (fun c hc => hds c (List.mem_cons_of_mem _ hc))]

/-- Digits in front of a character that is not a digit: `dropWhile`. -/
theorem dropWhile_digits (ds r : List Char) (hds : ∀ c ∈ ds, c.isDigit = true)
    (hr : ∀ c t, r = c :: t → c.isDigit = false) :
    (ds ++ r).dropWhile Char.isDigit = r := by
  induction ds with
  | nil =>
    cases r with
    | nil => rfl
    | cons c t => simp [List.dropWhile, hr c t rfl]
  | cons d ds ih =>
    rw [List.cons_append, List.dropWhile_cons_of_pos (hds d (List.mem_cons_self _ _)),
      ih (fun c hc => hds c (List.mem_cons_of_mem _ hc))]

/-- The value `parseFloat` gives to digits followed by a point: integer digits,
fraction digits, and an exponent part read after them. -/
theorem parseFloatChars_point (ip r : List Char) (hip : ∀ c ∈ ip, c.isDigit = true)
    (hne : ip ≠ []) :
    parseFloatChars (ip ++ '.' :: r) =
      Number.ofDecimal false (digitsToNat (ip ++ r.takeWhile Char.isDigit))
        (exponentPart (r.dropWhile Char.isDigit) - ((r.takeWhile Char.isDigit).length : Int)) := by
  obtain ⟨c, ip', rfl⟩ := List.exists_cons_of_ne_nil hne
  have hc : c.isDigit = true := hip c (List.mem_cons_self _ _)
  have hr1 : ∀ d t, '.' :: r = d :: t → d.isDigit = false := by
    intro d t h
    rw [← (List.cons.inj h).1]
    decide
  have h1 : ((c :: ip') ++ '.' :: r).dropWhile isWhiteSpace = (c :: ip') ++ '.' :: r :=
    dropWhile_isWhiteSpace_digit c (ip' ++ '.' :: r) hc
  have h2 : takeSign ((c :: ip') ++ '.' :: r) = (false, (c :: ip') ++ '.' :: r) :=
    takeSign_digit c (ip' ++ '.' :: r) hc
  have h3 : "Infinity".toList.isPrefixOf ((c :: ip') ++ '.' :: r) = false :=
    infinity_isPrefixOf c (ip' ++ '.' :: r) hc
  have h4 := takeWhile_digits (c :: ip') ('.' :: r) hip hr1
  have h5 := dropWhile_digits (c :: ip') ('.' :: r) hip hr1
  unfold parseFloatChars
  rw [h1, h2]
  simp only []
  rw [h3, h4, h5]
  simp

/-- The value `parseFloat` gives to digits followed by nothing or by a character
that is neither a digit nor a point: the integer, times the power of ten of an
exponent part if one follows. -/
theorem parseFloatChars_integer (ip r1 : List Char) (hip : ∀ c ∈ ip, c.isDigit = true)
    (hne : ip ≠ []) (hr1 : ∀ d t, r1 = d :: t → d.isDigit = false ∧ d ≠ '.') :
    parseFloatChars (ip ++ r1) = Number.ofDecimal false (digitsToNat ip) (exponentPart r1) := by
  obtain ⟨c, ip', rfl⟩ := List.exists_cons_of_ne_nil hne
  have hc : c.isDigit = true := hip c (List.mem_cons_self _ _)
  have hr1' : ∀ d t, r1 = d :: t → d.isDigit = false := fun d t h => (hr1 d t h).1
  have h1 : ((c :: ip') ++ r1).dropWhile isWhiteSpace = (c :: ip') ++ r1 :=
    dropWhile_isWhiteSpace_digit c (ip' ++ r1) hc
  have h2 : takeSign ((c :: ip') ++ r1) = (false, (c :: ip') ++ r1) :=
    takeSign_digit c (ip' ++ r1) hc
  have h3 : "Infinity".toList.isPrefixOf ((c :: ip') ++ r1) = false :=
    infinity_isPrefixOf c (ip' ++ r1) hc
  have h4 := takeWhile_digits (c :: ip') r1 hip hr1'
  have h5 := dropWhile_digits (c :: ip') r1 hip hr1'
  unfold parseFloatChars
  rw [h1, h2]
  simp only []
  rw [h3, h4, h5]
  cases r1 with
  | nil => simp
  | cons d t =>
    have hd := (hr1 d t rfl).2
    rw [if_neg (by simp), if_neg (by simp)]
    repeat' split
    all_goals first
      | rfl
      | (rename_i heq; exact absurd (List.cons.inj heq).1 hd)
      | simp

/-- The exponent part written by `Number::toString` is read back by `parseFloat`. -/
theorem exponentPart_written (e : Int) :
    exponentPart ('e' :: (if e < 0 then '-' else '+') :: natDigits e.natAbs) = e := by
  have hd := natDigits_isDigit e.natAbs
  have hpos := natDigits_length_pos e.natAbs
  have hne : natDigits e.natAbs ≠ [] := by
    intro h
    rw [h] at hpos
    exact absurd hpos (by simp)
  have htw : (natDigits e.natAbs).takeWhile Char.isDigit = natDigits e.natAbs := by
    have := takeWhile_digits (natDigits e.natAbs) [] hd (fun c t h => by cases h)
    rwa [List.append_nil] at this
  have hdef : ∀ cs, exponentPart ('e' :: cs) =
      (if (takeSign cs).2.takeWhile Char.isDigit = [] then 0
       else if (takeSign cs).1 = true then
         -(digitsToNat ((takeSign cs).2.takeWhile Char.isDigit) : Int)
       else (digitsToNat ((takeSign cs).2.takeWhile Char.isDigit) : Int)) := by
    intro cs
    simp [exponentPart]
  rw [hdef]
  by_cases he : e < 0
  · rw [if_pos he]
    have : takeSign ('-' :: natDigits e.natAbs) = (true, natDigits e.natAbs) := rfl
    rw [this]
    simp only []
    rw [htw, if_neg hne, if_pos (by simp), digitsToNat_natDigits]
    omega
  · rw [if_neg he]
    have : takeSign ('+' :: natDigits e.natAbs) = (false, natDigits e.natAbs) := rfl
    rw [this]
    simp only []
    rw [htw, if_neg hne, if_neg (by simp), digitsToNat_natDigits]
    omega

/-- Zeros written in front of or behind digits. -/
theorem digitsToNat_replicate (m : Nat) : digitsToNat (List.replicate m '0') = 0 := by
  induction m with
  | zero => rfl
  | succ m ih =>
    rw [List.replicate_succ, show '0' :: List.replicate m '0' = ['0'] ++ List.replicate m '0' from rfl,
      digitsToNat_append, ih]
    simp [digitsToNat, digitValue]

/-- The string that `Number::toString` writes for the `k` digits of `s` and the
exponent `n` is read by `parseFloat` as the decimal `s * 10 ^ (n - k)`. -/
theorem parseFloatChars_formatDigits (s k : Nat) (n : Int) (hk : 0 < k)
    (h1 : 10 ^ (k - 1) ≤ s) (h2 : s < 10 ^ k) :
    parseFloatChars (formatDigits (natDigits s) n) = Number.ofDecimal false s (n - k) := by
  have hlen : (natDigits s).length = k := natDigits_length_eq s k hk h1 h2
  have hdig := natDigits_isDigit s
  have hval := digitsToNat_natDigits s
  have hne : natDigits s ≠ [] := by
    intro h
    rw [h] at hlen
    simp at hlen
    omega
  generalize natDigits s = ds at hlen hdig hval hne
  have nil_ok : ∀ (d : Char) (t : List Char), ([] : List Char) = d :: t →
      d.isDigit = false ∧ d ≠ '.' := fun d t h => by cases h
  unfold formatDigits
  simp only []
  rw [hlen]
  by_cases c1 : (k : Int) ≤ n ∧ n ≤ 21
  · rw [if_pos c1]
    have hz : ∀ c ∈ ds ++ List.replicate (n - k).toNat '0', c.isDigit = true := by
      intro c hc
      rcases List.mem_append.1 hc with h | h
      · exact hdig c h
      · rw [List.eq_of_mem_replicate h]
        rfl
    have := parseFloatChars_integer (ds ++ List.replicate (n - k).toNat '0') [] hz
      (by simp [hne]) nil_ok
    rw [List.append_nil] at this
    rw [this, digitsToNat_append, digitsToNat_replicate, hval, List.length_replicate]
    apply Number.ofDecimal_congr
    have : exponentPart [] = 0 := rfl
    rw [this]
    obtain ⟨m, hm⟩ := Int.eq_ofNat_of_zero_le (by omega : 0 ≤ n - k)
    rw [hm, Int.toNat_ofNat, zpow_natCast]
    push_cast
    ring
  · rw [if_neg c1]
    by_cases c2 : 0 < n ∧ n ≤ 21
    · rw [if_pos c2]
      obtain ⟨m, rfl⟩ := Int.eq_ofNat_of_zero_le (by omega : 0 ≤ n)
      rw [Int.toNat_ofNat]
      have hm : m < k := by omega
      have hip : ∀ c ∈ ds.take m, c.isDigit = true := fun c hc => hdig c (List.mem_of_mem_take hc)
      have hfp : ∀ c ∈ ds.drop m, c.isDigit = true := fun c hc => hdig c (List.mem_of_mem_drop hc)
      have hipne : ds.take m ≠ [] := by
        intro h
        have := congrArg List.length h
        rw [List.length_take, hlen] at this
        simp at this
        omega
      rw [parseFloatChars_point (ds.take m) (ds.drop m) hip hipne]
      have htw := takeWhile_digits (ds.drop m) [] hfp (fun c t h => by cases h)
      have hdw := dropWhile_digits (ds.drop m) [] hfp (fun c t h => by cases h)
      rw [List.append_nil] at htw hdw
      rw [htw, hdw, List.take_append_drop, hval, List.length_drop, hlen]
      have : exponentPart [] = 0 := rfl
      rw [this]
      congr 1
      omega
    · rw [if_neg c2]
      by_cases c3 : -6 < n ∧ n ≤ 0
      · rw [if_pos c3]
        have hfp : ∀ c ∈ List.replicate (-n).toNat '0' ++ ds, c.isDigit = true := by
          intro c hc
          rcases List.mem_append.1 hc with h | h
          · rw [List.eq_of_mem_replicate h]
            rfl
          · exact hdig c h
        have := parseFloatChars_point ['0'] (List.replicate (-n).toNat '0' ++ ds)
          (by intro c hc; rw [List.mem_singleton.1 hc]; rfl) (by simp)
        rw [List.singleton_append] at this
        rw [this]
        have htw := takeWhile_digits (List.replicate (-n).toNat '0' ++ ds) [] hfp
          (fun c t h => by cases h)
        have hdw := dropWhile_digits (List.replicate (-n).toNat '0' ++ ds) [] hfp
          (fun c t h => by cases h)
        rw [List.append_nil] at htw hdw
        rw [htw, hdw, ← List.append_assoc, digitsToNat_append, hval, List.length_append,
          List.length_replicate, hlen]
        have e1 : digitsToNat (['0'] ++ List.replicate (-n).toNat '0') = 0 := by
          rw [digitsToNat_append, digitsToNat_replicate]
          simp [digitsToNat, digitValue]
        have : exponentPart [] = 0 := rfl
        rw [this, e1]
        congr 1
        · omega
        · push_cast
          omega
      · rw [if_neg c3]
        have hes : ∀ (c : Char) (t : List Char),
            'e' :: (if n - 1 < 0 then '-' else '+') :: natDigits (n - 1).natAbs = c :: t →
            c.isDigit = false ∧ c ≠ '.' := by
          intro c t h
          rw [← (List.cons.inj h).1]
          exact ⟨by decide, by decide⟩
        cases ds with
        | nil => exact absurd rfl hne
        | cons d rest =>
          have hd : d.isDigit = true := hdig d (List.mem_cons_self _ _)
          have hd1 : ∀ c ∈ [d], c.isDigit = true := by
            intro c hc
            rw [List.mem_singleton.1 hc]
            exact hd
          cases rest with
          | nil =>
            have := parseFloatChars_integer [d]
              ('e' :: (if n - 1 < 0 then '-' else '+') :: natDigits (n - 1).natAbs) hd1
              (by simp) hes
            rw [List.singleton_append] at this
            simp only []
            rw [this, exponentPart_written, hval]
            congr 1
            simp at hlen
            omega
          | cons d2 rest =>
            have hrest : ∀ c ∈ d2 :: rest, c.isDigit = true :=
              fun c hc => hdig c (List.mem_cons_of_mem _ hc)
            have := parseFloatChars_point [d]
              ((d2 :: rest) ++ 'e' :: (if n - 1 < 0 then '-' else '+') :: natDigits (n - 1).natAbs)
              hd1 (by simp)
            rw [List.singleton_append] at this
            simp only []
            rw [this, takeWhile_digits (d2 :: rest) _ hrest (fun c t h => (hes c t h).1),
              dropWhile_digits (d2 :: rest) _ hrest (fun c t h => (hes c t h).1),
              exponentPart_written, List.singleton_append, hval]
            congr 1
            simp at hlen
            simp
            omega

/-- The digits and the exponent that `Number::toString` chooses for a non-zero
binary64 value `q`: some `k` from 1 to 17 is the number of digits, and the decimal
they write rounds to `|q|`. -/
theorem shortestDigits_binary64 (q : ℚ) (hq : q ≠ 0) (hb : Number.IsBinary64 q) :
    ∃ k : Nat, 0 < k ∧ k ≤ 17 ∧ 10 ^ (k - 1) ≤ (shortestDigits q.num.natAbs q.den).1 ∧
      (shortestDigits q.num.natAbs q.den).1 < 10 ^ k ∧
      Number.ofDecimal false (shortestDigits q.num.natAbs q.den).1
        ((shortestDigits q.num.natAbs q.den).2 - k) = Number.fin (|q|) := by
  obtain ⟨M, t, hM0, hM, hcanon, ht1, ht2, hval⟩ := Number.IsBinary64.canonical q hq hb
  have hp : q.num.natAbs ≠ 0 := Int.natAbs_ne_zero.2 (Rat.num_ne_zero.2 hq)
  have hv : (q.num.natAbs : ℚ) / (q.den : ℚ) = (M : ℚ) * (2 : ℚ) ^ t := by
    rw [← abs_eq_natAbs_div, hval]
  rw [hval]
  exact shortestDigits_spec q.num.natAbs q.den M t hp q.den_nz hM0 hM hcanon ht1 ht2 hv

/-- Writing a positive binary64 value with `Number::toString` and reading the
string with `parseFloat` gives the value back. -/
theorem parseFloat_toString_pos (q : ℚ) (hq : 0 < q) (hb : Number.IsBinary64 q) :
    parseFloatChars (numberToChars (.fin q)) = .fin q := by
  obtain ⟨k, hk0, -, h1, h2, h3⟩ := shortestDigits_binary64 q hq.ne.symm hb
  have hnum : numberToChars (.fin q) =
      formatDigits (natDigits (shortestDigits q.num.natAbs q.den).1)
        (shortestDigits q.num.natAbs q.den).2 := by
    simp only [numberToChars]
    rw [if_neg hq.ne.symm, if_neg (not_lt.2 hq.le)]
  rw [hnum, parseFloatChars_formatDigits _ k _ hk0 h1 h2, h3, abs_of_pos hq]

end JS

/-! ### C17: edit, then submit -/

namespace App

open JS

/-- A map that replaces an entry by itself replaces nothing. -/
theorem mapIdx_replace_self (students : List Student) (i : Nat) (st' : Student)
    (h : students[i]? = some st') :
    students.mapIdx (fun j st => if j = i then st' else st) = students := by
  apply List.ext_getElem?
  intro j
  rcases lt_or_le j students.length with hlt | hge
  · by_cases hj : j = i
    · subst hj
      simp [List.getElem?_eq_getElem hlt] at h ⊢
      exact h.symm
    · simp [List.getElem?_eq_getElem hlt, hj]
  · simp [List.getElem?_eq_none hge]

/-- C17. In a roster whose Students all have non-empty name, lastName and
subject and a grade in [1, 7] (each grade a binary64 value, as every Number is),
`handleEdit(i)` for a row `i` followed at once by `handleSubmit` is accepted by
the validation and gives back the roster it started from, with the form reset
to empty and editIndex null: `parseFloat` of the Number that `handleEdit` put
into the form is that Number. -/
theorem edit_then_submit (s : State) (i : Nat) (hi : i < s.students.length)
    (hok : ∀ st ∈ s.students, st.name ≠ "" ∧ st.lastName ≠ "" ∧ st.subject ≠ "" ∧
      GradeInRange st ∧ ∀ q : ℚ, st.grade = .fin q → Number.IsBinary64 q) :
    ∃ s' : State, handleEdit s i = some s' ∧
      (handleSubmit s').alert = none ∧
      (handleSubmit s').state.students = s.students ∧
      (handleSubmit s').state.form = emptyForm ∧
      (handleSubmit s').state.editIndex = none := by
  obtain ⟨hn, hl, hsub, ⟨q, hg, h1, h7⟩, hb⟩ := hok s.students[i] (List.getElem_mem hi)
  have hpf : parseFloat (.num s.students[i].grade) = s.students[i].grade := by
    rw [hg]
    exact parseFloat_toString_pos q (by linarith) (hb q hg)
  have hedit : handleEdit s i =
      some { s with form := s.students[i].toForm, editIndex := some i } := by
    simp [handleEdit, List.getElem?_eq_getElem hi]
  refine ⟨_, hedit, ?_⟩
  have hvalid : invalid s.students[i].name s.students[i].lastName s.students[i].subject
      (parseFloat (.num s.students[i].grade)) = false := by
    rw [invalid_eq_false_iff, hpf]
    exact ⟨hn, hl, hsub, (range_iff_fin _).2 ⟨q, hg, h1, h7⟩⟩
  rw [handleSubmit_of_valid _ hvalid]
  refine ⟨rfl, ?_, rfl, rfl⟩
  show s.students.mapIdx _ = s.students
  simp only [Student.toForm]
  rw [hpf]
  exact mapIdx_replace_self s.students i _ (by rw [List.getElem?_eq_getElem hi])

/-- C17 at row 0 of a roster of two whose first grade is the Number `6.2`
(`6980579422424269 / 2 ^ 50`): editing the row and submitting at once raises no
alert and gives the same roster, an empty form and editIndex null. -/
theorem edit_then_submit_witness :
    ∃ s' : State,
      handleEdit
          { students := [⟨"Ana", "Lopez", "Math", .fin (mkRat 6980579422424269 1125899906842624)⟩,
              ⟨"Eva", "Diaz", "Art", .fin 4⟩],
            form := emptyForm, editIndex := none } 0 = some s' ∧
        (handleSubmit s').alert = none ∧
        (handleSubmit s').state.students =
          [⟨"Ana", "Lopez", "Math", .fin (mkRat 6980579422424269 1125899906842624)⟩,
            ⟨"Eva", "Diaz", "Art", .fin 4⟩] ∧
        (handleSubmit s').state.form = emptyForm ∧
        (handleSubmit s').state.editIndex = none :=
  edit_then_submit
    { students := [⟨"Ana", "Lopez", "Math", .fin (mkRat 6980579422424269 1125899906842624)⟩,
        ⟨"Eva", "Diaz", "Art", .fin 4⟩],
      form := emptyForm, editIndex := none } 0 (by decide)
    (by
      intro st hst
      simp only [List.mem_cons, List.mem_singleton, List.not_mem_nil, or_false] at hst
      rcases hst with rfl | rfl
      · refine ⟨by decide, by decide, by decide, ⟨_, rfl, by decide, by decide⟩, ?_⟩
        intro q hq
        cases hq
        show Number.ofRat _ = Number.fin _
        decide
      · refine ⟨by decide, by decide, by decide, ⟨4, rfl, by norm_num, by norm_num⟩, ?_⟩
        intro q hq
        cases hq
        show Number.ofRat _ = Number.fin _
        decide)

end App

/-! ### JSON: what `JSON.stringify` writes, `JSON.parse` reads -/

namespace JS

/-- One code point written by `QuoteJSONString` is read back in one step of
`parseStringChars`. -/
theorem parseStringChars_quoteChar (c : Char) (fuel : Nat) (rest acc : List Char) :
    parseStringChars (fuel + 1) (quoteChar c ++ rest) acc =
      parseStringChars fuel rest (c :: acc) := by
  by_cases h1 : c = '\x08'
  · subst h1; rfl
  by_cases h2 : c = '\x09'
  · subst h2; rfl
  by_cases h3 : c = '\x0a'
  · subst h3; rfl
  by_cases h4 : c = '\x0c'
  · subst h4; rfl
  by_cases h5 : c = '\x0d'
  · subst h5; rfl
  by_cases h6 : c = '\x22'
  · subst h6; rfl
  by_cases h7 : c = '\x5c'
  · subst h7; rfl
  by_cases h8 : c.toNat < 0x20
  · obtain ⟨n, hn⟩ : ∃ n, c.toNat = n := ⟨_, rfl⟩
    have hc : c = Char.ofNat n := by rw [← hn, Char.ofNat_toNat]
    rw [hn] at h8
    subst hc
    interval_cases n <;> rfl
  · have hq : quoteChar c = [c] := by
      simp only [quoteChar]
      rw [if_neg h1, if_neg h2, if_neg h3, if_neg h4, if_neg h5, if_neg h6, if_neg h7, if_neg h8]
    rw [hq, List.singleton_append]
    simp only [parseStringChars]
    rw [if_neg h6, if_neg h7, if_neg h8]

/-- No code point is written as nothing. -/
theorem quoteChar_length_pos (c : Char) : 0 < (quoteChar c).length := by
  simp only [quoteChar]
  split_ifs <;> simp

/-- The text after the opening quote of a quoted string, followed by more text. -/
theorem quoteBody_append (l : List Char) (rest : List Char) :
    l.foldr (fun c acc => quoteChar c ++ acc) ['\x22'] ++ rest =
      l.foldr (fun c acc => quoteChar c ++ acc) ('\x22' :: rest) := by
  induction l with
  | nil => rfl
  | cons c l ih => simp only [List.foldr_cons, List.append_assoc, ih]

/-- The text of a quoted string is at least as long as the string. -/
theorem quoteBody_length (l : List Char) (rest : List Char) :
    l.length + 1 ≤ (l.foldr (fun c acc => quoteChar c ++ acc) ('\x22' :: rest)).length := by
  induction l with
  | nil => simp
  | cons c l ih =>
    simp only [List.foldr_cons, List.length_append, List.length_cons]
    have := quoteChar_length_pos c
    omega

/-- The characters written by `QuoteJSONString` are read back up to the closing
quote, with enough fuel for one step per character. -/
theorem parseStringChars_quoteBody (l : List Char) :
    ∀ (fuel : Nat) (acc rest : List Char), l.length + 1 ≤ fuel →
      parseStringChars fuel (l.foldr (fun c acc => quoteChar c ++ acc) ('\x22' :: rest)) acc =
        some (String.mk (acc.reverse ++ l), rest) := by
  induction l with
  | nil =>
    intro fuel acc rest hf
    obtain ⟨f, rfl⟩ : ∃ f, fuel = f + 1 := ⟨fuel - 1, by simp at hf; omega⟩
    simp [parseStringChars]
  | cons c l ih =>
    intro fuel acc rest hf
    obtain ⟨f, rfl⟩ : ∃ f, fuel = f + 1 := ⟨fuel - 1, by simp at hf; omega⟩
    rw [List.foldr_cons, parseStringChars_quoteChar, ih f (c :: acc) rest (by simpa using hf)]
    simp

/-- A string written by `QuoteJSONString` is read back by `parseString`, whatever
follows it. -/
theorem parseString_quoteJSONString (s : String) (rest : List Char) :
    ∃ body : List Char, quoteJSONString s ++ rest = '\x22' :: body ∧
      parseString body = some (s, rest) := by
  refine ⟨s.toList.foldr (fun c acc => quoteChar c ++ acc) ('\x22' :: rest), ?_, ?_⟩
  · simp only [quoteJSONString, List.cons_append, quoteBody_append]
  · unfold parseString
    rw [parseStringChars_quoteBody s.toList _ [] rest (quoteBody_length s.toList rest)]
    rfl

/-- White space is skipped up to a character that is not white space. -/
theorem skipWs_cons (c : Char) (r : List Char) (h : isJsonWhiteSpace c = false) :
    skipWs (c :: r) = c :: r := by
  unfold skipWs
  rw [List.dropWhile_cons_of_neg (by rw [h]; simp)]

/-- The first digit of a positive number is not `0`. -/
theorem natDigits_head (s : Nat) (hs : s ≠ 0) : (natDigits s).head? ≠ some '0' := by
  induction s using Nat.strong_induction_on with
  | _ s ih =>
    rcases Nat.lt_or_ge s 10 with h | h
    · rw [natDigits_of_lt h]
      interval_cases s
      · exact absurd rfl hs
      all_goals decide
    · rw [natDigits_of_ge h]
      have hpos := natDigits_length_pos (s / 10)
      have := ih (s / 10) (by omega) (by omega)
      cases hd : natDigits (s / 10) with
      | nil => rw [hd] at hpos; exact absurd hpos (by simp)
      | cons d t =>
        rw [hd] at this
        simpa using this

/-- The Number of a negated decimal numeral. -/
theorem Number.ofDecimal_neg (n : Nat) (e : Int) (v : ℚ)
    (h : Number.ofDecimal false n e = .fin v) : Number.ofDecimal true n e = .fin (-v) := by
  have key : ∀ p q : Nat, Number.ofFrac false p q = .fin v → Number.ofFrac true p q = .fin (-v) := by
    intro p q hpq
    unfold Number.ofFrac at hpq ⊢
    by_cases hp : p = 0
    · rw [if_pos hp] at hpq ⊢
      cases hpq
      simp
    · rw [if_neg hp] at hpq ⊢
      simp only [] at hpq ⊢
      by_cases hc : 1023 < max (floorLog2 p q) (-1022) ∨
          (max (floorLog2 p q) (-1022) = 1023 ∧
            2 ^ 53 ≤ Number.mantissa p q (max (floorLog2 p q) (-1022) - 52))
      · rw [if_pos hc] at hpq
        simp at hpq
      · rw [if_neg hc] at hpq ⊢
        simp only [Bool.false_eq_true, if_false] at hpq
        cases hpq
        simp
  unfold Number.ofDecimal at h ⊢
  split_ifs at h ⊢
  · exact key _ _ h
  · exact key _ _ h

/-- Where no exponent stands, `exponentToken` reads the exponent `0` and takes
nothing. -/
theorem exponentToken_absent (rest : List Char)
    (h : ∀ c t, rest = c :: t → c ≠ 'e' ∧ c ≠ 'E') : exponentToken rest = some (0, rest) := by
  cases rest with
  | nil => rfl
  | cons c t =>
    obtain ⟨h1, h2⟩ := h c t rfl
    simp only [exponentToken]
    rw [if_neg (by simp [h1, h2])]

/-- The exponent written by `Number::toString` is read back by `exponentToken`. -/
theorem exponentToken_written (e : Int) (rest : List Char)
    (h : ∀ c t, rest = c :: t → c.isDigit = false) :
    exponentToken ('e' :: (if e < 0 then '-' else '+') :: (natDigits e.natAbs ++ rest)) =
      some (e, rest) := by
  have hd := natDigits_isDigit e.natAbs
  have hpos := natDigits_length_pos e.natAbs
  have hne : natDigits e.natAbs ≠ [] := by
    intro h
    rw [h] at hpos
    exact absurd hpos (by simp)
  have htw := takeWhile_digits (natDigits e.natAbs) rest hd h
  have hdw := dropWhile_digits (natDigits e.natAbs) rest hd h
  have hdef : ∀ cs, exponentToken ('e' :: cs) =
      (if (takeSign cs).2.takeWhile Char.isDigit = [] then none
       else some (if (takeSign cs).1 = true then
         -(digitsToNat ((takeSign cs).2.takeWhile Char.isDigit) : Int)
       else (digitsToNat ((takeSign cs).2.takeWhile Char.isDigit) : Int),
       (takeSign cs).2.dropWhile Char.isDigit)) := by
    intro cs
    simp [exponentToken]
  rw [hdef]
  by_cases he : e < 0
  · rw [if_pos he]
    have : takeSign ('-' :: (natDigits e.natAbs ++ rest)) = (true, natDigits e.natAbs ++ rest) := rfl
    rw [this]
    simp only []
    rw [htw, hdw, if_neg hne, if_pos (by simp), digitsToNat_natDigits]
    congr 2
    omega
  · rw [if_neg he]
    have : takeSign ('+' :: (natDigits e.natAbs ++ rest)) = (false, natDigits e.natAbs ++ rest) := rfl
    rw [this]
    simp only []
    rw [htw, hdw, if_neg hne, if_neg (by simp), digitsToNat_natDigits]
    congr 2
    omega

/-- The sign that `parseNumber` takes off: a minus sign, or nothing in front of
a digit. -/
theorem parseNumber_sign (neg : Bool) (c : Char) (r : List Char) (hc : c.isDigit = true) :
    (match (if neg then ['-'] else []) ++ c :: r with
      | '-' :: r' => (true, r')
      | _ => ((false, (if neg then ['-'] else []) ++ c :: r) : Bool × List Char)) =
      (neg, c :: r) := by
  cases neg with
  | true => rfl
  | false =>
    have hm := (ne_of_isDigit c hc).2.1
    simp only [Bool.false_eq_true, if_false, List.nil_append]
    split
    · rename_i heq
      exact absurd (List.cons.inj heq).1 hm
    · rfl

/-- The value `parseNumber` gives to digits followed by a point and at least one
digit. -/
theorem parseNumber_point (neg : Bool) (ip r : List Char) (hip : ∀ c ∈ ip, c.isDigit = true)
    (hne : ip ≠ []) (hlead : ip = ['0'] ∨ ip.head? ≠ some '0')
    (hfp : r.takeWhile Char.isDigit ≠ []) :
    parseNumber ((if neg then ['-'] else []) ++ (ip ++ '.' :: r)) =
      (exponentToken (r.dropWhile Char.isDigit)).map (fun er =>
        (Number.ofDecimal neg (digitsToNat (ip ++ r.takeWhile Char.isDigit))
          (er.1 - ((r.takeWhile Char.isDigit).length : Int)), er.2)) := by
  obtain ⟨c, ip', rfl⟩ := List.exists_cons_of_ne_nil hne
  have hc : c.isDigit = true := hip c (List.mem_cons_self _ _)
  have hm := (ne_of_isDigit c hc).2.1
  have hr1 : ∀ d t, '.' :: r = d :: t → d.isDigit = false := by
    intro d t h
    rw [← (List.cons.inj h).1]
    decide
  have h4 := takeWhile_digits (c :: ip') ('.' :: r) hip hr1
  have h5 := dropWhile_digits (c :: ip') ('.' :: r) hip hr1
  have hbad : ¬ (c :: ip' = [] ∨ (c :: ip' ≠ ['0'] ∧ (c :: ip').head? = some '0')) := by
    rintro (h | ⟨h1, h2⟩)
    · exact absurd h (by simp)
    · rcases hlead with h | h
      · exact h1 h
      · exact h h2
  have hfin : ∀ o : Option (Int × List Char),
      (match o with
        | some (e, r3) =>
          some (Number.ofDecimal neg (digitsToNat (c :: ip' ++ r.takeWhile Char.isDigit))
            (e - ((r.takeWhile Char.isDigit).length : Int)), r3)
        | none => none) =
      o.map (fun er =>
        (Number.ofDecimal neg (digitsToNat (c :: ip' ++ r.takeWhile Char.isDigit))
          (er.1 - ((r.takeWhile Char.isDigit).length : Int)), er.2)) := by
    intro o
    cases o <;> rfl
  cases neg with
  | true =>
    show parseNumber ('-' :: (c :: ip' ++ '.' :: r)) = _
    unfold parseNumber
    simp only []
    rw [h4, h5, if_neg hbad]
    simp only []
    rw [if_neg hfp]
    exact hfin _
  | false =>
    show parseNumber (c :: ip' ++ '.' :: r) = _
    unfold parseNumber
    split
    rename_i neg0 r0 heq
    split at heq
    · rename_i heq2
      exact absurd (List.cons.inj heq2).1 hm
    · cases heq
      simp only []
      rw [h4, h5, if_neg hbad]
      simp only []
      rw [if_neg hfp]
      exact hfin _

/-- The value `parseNumber` gives to digits followed by nothing or by a
character that is neither a digit nor a point. -/
theorem parseNumber_integer (neg : Bool) (ip r1 : List Char)
    (hip : ∀ c ∈ ip, c.isDigit = true) (hne : ip ≠ [])
    (hlead : ip = ['0'] ∨ ip.head? ≠ some '0')
    (hr1 : ∀ d t, r1 = d :: t → d.isDigit = false ∧ d ≠ '.') :
    parseNumber ((if neg then ['-'] else []) ++ (ip ++ r1)) =
      (exponentToken r1).map (fun er => (Number.ofDecimal neg (digitsToNat ip) er.1, er.2)) := by
  obtain ⟨c, ip', rfl⟩ := List.exists_cons_of_ne_nil hne
  have hc : c.isDigit = true := hip c (List.mem_cons_self _ _)
  have hm := (ne_of_isDigit c hc).2.1
  have hr1' : ∀ d t, r1 = d :: t → d.isDigit = false := fun d t h => (hr1 d t h).1
  have h4 := takeWhile_digits (c :: ip') r1 hip hr1'
  have h5 := dropWhile_digits (c :: ip') r1 hip hr1'
  have hbad : ¬ (c :: ip' = [] ∨ (c :: ip' ≠ ['0'] ∧ (c :: ip').head? = some '0')) := by
    rintro (h | ⟨h1, h2⟩)
    · exact absurd h (by simp)
    · rcases hlead with h | h
      · exact h1 h
      · exact h h2
  have hfin : ∀ o : Option (Int × List Char),
      (match o with
        | some (e, r3) => some (Number.ofDecimal neg (digitsToNat (c :: ip')) e, r3)
        | none => none) =
      o.map (fun er => (Number.ofDecimal neg (digitsToNat (c :: ip')) er.1, er.2)) := by
    intro o
    cases o <;> rfl
  cases neg with
  | true =>
    show parseNumber ('-' :: (c :: ip' ++ r1)) = _
    unfold parseNumber
    simp only []
    rw [h4, h5, if_neg hbad]
    split
    · exact absurd rfl (hr1 '.' _ rfl).2
    · exact hfin _
  | false =>
    show parseNumber (c :: ip' ++ r1) = _
    unfold parseNumber
    split
    rename_i neg0 r0 heq
    split at heq
    · rename_i heq2
      exact absurd (List.cons.inj heq2).1 hm
    · cases heq
      simp only []
      rw [h4, h5, if_neg hbad]
      split
      · exact absurd rfl (hr1 '.' _ rfl).2
      · exact hfin _

/-- The string that `Number::toString` writes for the `k` digits of `s` and the
exponent `n`, with a minus sign in front when `neg`, is a JSON number that
`parseNumber` reads as the decimal `s * 10 ^ (n - k)` of that sign, up to a
following character that cannot continue a number. -/
theorem parseNumber_formatDigits (neg : Bool) (s k : Nat) (n : Int) (rest : List Char)
    (hk : 0 < k) (h1 : 10 ^ (k - 1) ≤ s) (h2 : s < 10 ^ k)
    (hrest : ∀ c t, rest = c :: t → c.isDigit = false ∧ c ≠ '.' ∧ c ≠ 'e' ∧ c ≠ 'E') :
    parseNumber ((if neg then ['-'] else []) ++ (formatDigits (natDigits s) n ++ rest)) =
      some (Number.ofDecimal neg s (n - k), rest) := by
  have hlen : (natDigits s).length = k := natDigits_length_eq s k hk h1 h2
  have hdig := natDigits_isDigit s
  have hval := digitsToNat_natDigits s
  have hs0 : s ≠ 0 := by
    have : 0 < 10 ^ (k - 1) := by positivity
    omega
  have hhead := natDigits_head s hs0
  have hne : natDigits s ≠ [] := by
    intro h
    rw [h] at hlen
    simp at hlen
    omega
  generalize natDigits s = ds at hlen hdig hval hne hhead
  have hrd : ∀ c t, rest = c :: t → c.isDigit = false := fun c t h => (hrest c t h).1
  have hrp : ∀ c t, rest = c :: t → c.isDigit = false ∧ c ≠ '.' :=
    fun c t h => ⟨(hrest c t h).1, (hrest c t h).2.1⟩
  have hre : exponentToken rest = some (0, rest) :=
    exponentToken_absent rest (fun c t h => (hrest c t h).2.2)
  unfold formatDigits
  simp only []
  rw [hlen]
  by_cases c1 : (k : Int) ≤ n ∧ n ≤ 21
  · rw [if_pos c1]
    have hz : ∀ c ∈ ds ++ List.replicate (n - k).toNat '0', c.isDigit = true := by
      intro c hc
      rcases List.mem_append.1 hc with h | h
      · exact hdig c h
      · rw [List.eq_of_mem_replicate h]
        rfl
    have hl : (ds ++ List.replicate (n - k).toNat '0').head? ≠ some '0' := by
      cases ds with
      | nil => exact absurd rfl hne
      | cons d t => simpa using hhead
    rw [parseNumber_integer neg (ds ++ List.replicate (n - k).toNat '0') rest hz
      (by simp [hne]) (Or.inr hl) hrp, hre]
    simp only [Option.map_some']
    rw [digitsToNat_append, digitsToNat_replicate, hval, List.length_replicate]
    congr 2
    apply Number.ofDecimal_congr
    obtain ⟨m, hm⟩ := Int.eq_ofNat_of_zero_le (by omega : 0 ≤ n - k)
    rw [hm, Int.toNat_ofNat, zpow_natCast]
    push_cast
    ring
  · rw [if_neg c1]
    by_cases c2 : 0 < n ∧ n ≤ 21
    · rw [if_pos c2]
      obtain ⟨m, rfl⟩ := Int.eq_ofNat_of_zero_le (by omega : 0 ≤ n)
      rw [Int.toNat_ofNat]
      have hm : m < k := by omega
      have hm0 : 0 < m := by omega
      have hip : ∀ c ∈ ds.take m, c.isDigit = true := fun c hc => hdig c (List.mem_of_mem_take hc)
      have hfp : ∀ c ∈ ds.drop m, c.isDigit = true := fun c hc => hdig c (List.mem_of_mem_drop hc)
      have hipne : ds.take m ≠ [] := by
        intro h
        have := congrArg List.length h
        rw [List.length_take, hlen] at this
        simp at this
        omega
      have hfpne : ds.drop m ≠ [] := by
        intro h
        have := congrArg List.length h
        rw [List.length_drop, hlen] at this
        simp at this
        omega
      have hl : (ds.take m).head? ≠ some '0' := by
        cases ds with
        | nil => exact absurd rfl hne
        | cons d t =>
          obtain ⟨m', rfl⟩ : ∃ m', m = m' + 1 := ⟨m - 1, by omega⟩
          simpa using hhead
      have htw := takeWhile_digits (ds.drop m) rest hfp hrd
      have hdw := dropWhile_digits (ds.drop m) rest hfp hrd
      rw [List.append_assoc, List.cons_append,
        parseNumber_point neg (ds.take m) (ds.drop m ++ rest) hip hipne (Or.inr hl)
          (by rw [htw]; exact hfpne), htw, hdw, hre]
      simp only [Option.map_some']
      rw [List.take_append_drop, hval, List.length_drop, hlen]
      have e2 : (0 : Int) - ((k - m : Nat) : Int) = (m : Int) - (k : Int) := by omega
      rw [e2]
    · rw [if_neg c2]
      by_cases c3 : -6 < n ∧ n ≤ 0
      · rw [if_pos c3]
        have hfp : ∀ c ∈ List.replicate (-n).toNat '0' ++ ds, c.isDigit = true := by
          intro c hc
          rcases List.mem_append.1 hc with h | h
          · rw [List.eq_of_mem_replicate h]
            rfl
          · exact hdig c h
        have htw := takeWhile_digits (List.replicate (-n).toNat '0' ++ ds) rest hfp hrd
        have hdw := dropWhile_digits (List.replicate (-n).toNat '0' ++ ds) rest hfp hrd
        have := parseNumber_point neg ['0'] ((List.replicate (-n).toNat '0' ++ ds) ++ rest)
          (by intro c hc; rw [List.mem_singleton.1 hc]; rfl) (by simp) (Or.inl rfl)
          (by rw [htw]; simp [hne])
        rw [List.singleton_append] at this
        rw [List.cons_append, List.cons_append, this, htw, hdw, hre]
        simp only [Option.map_some']
        rw [← List.append_assoc, digitsToNat_append, hval, List.length_append,
          List.length_replicate, hlen]
        have e1 : digitsToNat (['0'] ++ List.replicate (-n).toNat '0') = 0 := by
          rw [digitsToNat_append, digitsToNat_replicate]
          simp [digitsToNat, digitValue]
        rw [e1, Nat.zero_mul, Nat.zero_add]
        have e2 : (0 : Int) - (((-n).toNat + k : Nat) : Int) = n - (k : Int) := by omega
        rw [e2]
      · rw [if_neg c3]
        have hes : ∀ (c : Char) (t : List Char),
            'e' :: (if n - 1 < 0 then '-' else '+') :: (natDigits (n - 1).natAbs ++ rest) = c :: t →
            c.isDigit = false ∧ c ≠ '.' := by
          intro c t h
          rw [← (List.cons.inj h).1]
          exact ⟨by decide, by decide⟩
        have hew := exponentToken_written (n - 1) rest hrd
        cases ds with
        | nil => exact absurd rfl hne
        | cons d rest0 =>
          have hd : d.isDigit = true := hdig d (List.mem_cons_self _ _)
          have hd1 : ∀ c ∈ [d], c.isDigit = true := by
            intro c hc
            rw [List.mem_singleton.1 hc]
            exact hd
          have hl1 : [d] = ['0'] ∨ [d].head? ≠ some '0' := by
            by_cases hd0 : d = '0'
            · exact Or.inl (by rw [hd0])
            · exact Or.inr (by simpa using hd0)
          cases rest0 with
          | nil =>
            have := parseNumber_integer neg [d]
              ('e' :: (if n - 1 < 0 then '-' else '+') :: (natDigits (n - 1).natAbs ++ rest)) hd1
              (by simp) hl1 hes
            rw [List.singleton_append] at this
            simp only [List.cons_append]
            rw [this, hew]
            simp only [Option.map_some']
            rw [hval]
            have hk1 : (k : Int) = 1 := by rw [← hlen]; rfl
            rw [hk1]
          | cons d2 rest0 =>
            have hrest0 : ∀ c ∈ d2 :: rest0, c.isDigit = true :=
              fun c hc => hdig c (List.mem_cons_of_mem _ hc)
            have htw := takeWhile_digits (d2 :: rest0) _ hrest0 (fun c t h => (hes c t h).1)
            have hdw := dropWhile_digits (d2 :: rest0) _ hrest0 (fun c t h => (hes c t h).1)
            have := parseNumber_point neg [d]
              ((d2 :: rest0) ++
                'e' :: (if n - 1 < 0 then '-' else '+') :: (natDigits (n - 1).natAbs ++ rest))
              hd1 (by simp) hl1 (by rw [htw]; simp)
            rw [List.singleton_append] at this
            simp only [List.cons_append, List.append_assoc]
            simp only [List.cons_append] at this htw hdw
            rw [this, htw, hdw, hew]
            simp only [Option.map_some']
            simp only [List.nil_append]
            rw [hval]
            have hk1 : (((d2 :: rest0).length : Nat) : Int) = (k : Int) - 1 := by
              rw [← hlen]
              simp
            rw [hk1]
            have e2 : n - 1 - ((k : Int) - 1) = n - (k : Int) := by ring
            rw [e2]

/-- The string of `Number::toString` for digits starts with a digit. -/
theorem formatDigits_head (ds : List Char) (n : Int) (hds : ∀ c ∈ ds, c.isDigit = true)
    (hne : ds ≠ []) : ∃ c t, formatDigits ds n = c :: t ∧ c.isDigit = true := by
  obtain ⟨d, t, rfl⟩ := List.exists_cons_of_ne_nil hne
  have hd : d.isDigit = true := hds d (List.mem_cons_self _ _)
  unfold formatDigits
  simp only []
  by_cases c1 : (((d :: t).length : Nat) : Int) ≤ n ∧ n ≤ 21
  · rw [if_pos c1]
    exact ⟨d, _, rfl, hd⟩
  · rw [if_neg c1]
    by_cases c2 : 0 < n ∧ n ≤ 21
    · rw [if_pos c2]
      obtain ⟨m, hm⟩ : ∃ m, n.toNat = m + 1 := ⟨n.toNat - 1, by omega⟩
      rw [hm]
      exact ⟨d, _, rfl, hd⟩
    · rw [if_neg c2]
      by_cases c3 : -6 < n ∧ n ≤ 0
      · rw [if_pos c3]
        exact ⟨'0', _, rfl, rfl⟩
      · rw [if_neg c3]
        cases t with
        | nil => exact ⟨d, _, rfl, hd⟩
        | cons d2 t => exact ⟨d, _, rfl, hd⟩

/-- The string of `Number::toString` for a finite Number starts with a digit or
a minus sign. -/
theorem numberToChars_head (q : ℚ) :
    ∃ c t, numberToChars (.fin q) = c :: t ∧ (c.isDigit = true ∨ c = '-') := by
  simp only [numberToChars]
  by_cases h0 : q = 0
  · rw [if_pos h0]
    exact ⟨'0', [], rfl, Or.inl rfl⟩
  · rw [if_neg h0]
    by_cases hneg : q < 0
    · rw [if_pos hneg]
      exact ⟨'-', _, rfl, Or.inr rfl⟩
    · rw [if_neg hneg]
      have hne : natDigits (shortestDigits q.num.natAbs q.den).1 ≠ [] := by
        intro h
        have := natDigits_length_pos (shortestDigits q.num.natAbs q.den).1
        rw [h] at this
        exact absurd this (by simp)
      obtain ⟨c, t, h, hc⟩ := formatDigits_head _ (shortestDigits q.num.natAbs q.den).2
        (natDigits_isDigit _) hne
      exact ⟨c, t, h, Or.inl hc⟩

/-- The string that `Number::toString` writes for a binary64 value is a JSON
number that `parseNumber` reads as that value, up to a following character that
cannot continue a number. -/
theorem parseNumber_numberToChars (q : ℚ) (hb : Number.IsBinary64 q) (rest : List Char)
    (hrest : ∀ c t, rest = c :: t → c.isDigit = false ∧ c ≠ '.' ∧ c ≠ 'e' ∧ c ≠ 'E') :
    parseNumber (numberToChars (.fin q) ++ rest) = some (.fin q, rest) := by
  by_cases h0 : q = 0
  · subst h0
    have hnum : numberToChars (.fin 0) = ['0'] := by
      simp [numberToChars]
    have := parseNumber_integer false ['0'] rest
      (by intro c hc; rw [List.mem_singleton.1 hc]; rfl) (by simp) (Or.inl rfl)
      (fun c t h => ⟨(hrest c t h).1, (hrest c t h).2.1⟩)
    rw [exponentToken_absent rest (fun c t h => (hrest c t h).2.2)] at this
    rw [hnum]
    simp only [Bool.false_eq_true, if_false, List.nil_append] at this
    rw [this]
    rfl
  · obtain ⟨k, hk0, -, h1, h2, h3⟩ := shortestDigits_binary64 q h0 hb
    by_cases hneg : q < 0
    · have hnum : numberToChars (.fin q) =
          '-' :: formatDigits (natDigits (shortestDigits q.num.natAbs q.den).1)
            (shortestDigits q.num.natAbs q.den).2 := by
        simp only [numberToChars]
        rw [if_neg h0, if_pos hneg]
      have := parseNumber_formatDigits true _ k (shortestDigits q.num.natAbs q.den).2 rest
        hk0 h1 h2 hrest
      simp only [if_true, List.singleton_append] at this
      rw [hnum, List.cons_append, this, Number.ofDecimal_neg _ _ _ h3, abs_of_neg hneg, neg_neg]
    · have hnum : numberToChars (.fin q) =
          formatDigits (natDigits (shortestDigits q.num.natAbs q.den).1)
            (shortestDigits q.num.natAbs q.den).2 := by
        simp only [numberToChars]
        rw [if_neg h0, if_neg hneg]
      have := parseNumber_formatDigits false _ k (shortestDigits q.num.natAbs q.den).2 rest
        hk0 h1 h2 hrest
      simp only [Bool.false_eq_true, if_false, List.nil_append] at this
      rw [hnum, this, h3, abs_of_nonneg (not_lt.1 hneg)]

/-- A digit or a minus sign starts no other JSON value than a number, and is not
white space. -/
theorem numberStart (c : Char) (h : c.isDigit = true ∨ c = '-') :
    isJsonWhiteSpace c = false ∧ c ≠ '\x7b' ∧ c ≠ '[' ∧ c ≠ '\x22' ∧ c ≠ 't' ∧ c ≠ 'f' ∧
      c ≠ 'n' := by
  rcases h with h | rfl
  · obtain ⟨h1, h2⟩ := (isDigit_toNat c).1 h
    obtain ⟨n, hn⟩ : ∃ n, c.toNat = n := ⟨_, rfl⟩
    have hc : c = Char.ofNat n := by rw [← hn, Char.ofNat_toNat]
    rw [hn] at h1 h2
    subst hc
    interval_cases n <;> decide
  · decide

/-- A quoted string is read by `parseValue` as that string. -/
theorem parseValue_string (fuel : Nat) (s : String) (rest : List Char) :
    parseValue (fuel + 1) (quoteJSONString s ++ rest) = some (.str s, rest) := by
  obtain ⟨body, hq, hp⟩ := parseString_quoteJSONString s rest
  rw [hq, parseValue, skipWs_cons _ _ (by decide)]
  simp only []
  rw [if_neg (by decide), if_neg (by decide), if_pos trivial, hp]

/-- The string of a binary64 value is read by `parseValue` as that Number, up to
a following character that cannot continue a number. -/
theorem parseValue_number (fuel : Nat) (q : ℚ) (hb : Number.IsBinary64 q) (rest : List Char)
    (hrest : ∀ c t, rest = c :: t → c.isDigit = false ∧ c ≠ '.' ∧ c ≠ 'e' ∧ c ≠ 'E') :
    parseValue (fuel + 1) (numberToChars (.fin q) ++ rest) = some (.num (.fin q), rest) := by
  have hp := parseNumber_numberToChars q hb rest hrest
  obtain ⟨c, t, hct, hc⟩ := numberToChars_head q
  rw [hct, List.cons_append] at hp ⊢
  obtain ⟨hws, h1, h2, h3, h4, h5, h6⟩ := numberStart c hc
  rw [parseValue, skipWs_cons _ _ hws]
  simp only []
  rw [if_neg h1, if_neg h2, if_neg h3, if_neg, if_neg, if_neg, hp]
  · simp [List.isPrefixOf, Ne.symm h6]
  · simp [List.isPrefixOf, Ne.symm h5]
  · simp [List.isPrefixOf, Ne.symm h4]

/-- The punctuation of JSON is not skipped as white space. -/
theorem skipWs_punct (r : List Char) :
    skipWs (':' :: r) = ':' :: r ∧ skipWs (',' :: r) = ',' :: r ∧
      skipWs ('\x7d' :: r) = '\x7d' :: r ∧ skipWs (']' :: r) = ']' :: r ∧
      skipWs ('\x22' :: r) = '\x22' :: r ∧ skipWs ('\x7b' :: r) = '\x7b' :: r ∧
      skipWs ('[' :: r) = '[' :: r :=
  ⟨skipWs_cons _ _ (by decide), skipWs_cons _ _ (by decide), skipWs_cons _ _ (by decide),
    skipWs_cons _ _ (by decide), skipWs_cons _ _ (by decide), skipWs_cons _ _ (by decide),
    skipWs_cons _ _ (by decide)⟩

/-- A property followed by a comma: `parseProperties` goes on to the next one. -/
theorem parseProperties_comma (fuel : Nat) (k : String) (v : Json) (vt more : List Char)
    (acc : List (String × Json))
    (hv : parseValue fuel (vt ++ ',' :: more) = some (v, ',' :: more)) :
    parseProperties (fuel + 1) (quoteJSONString k ++ ':' :: (vt ++ ',' :: more)) acc =
      parseProperties fuel more ((k, v) :: acc) := by
  obtain ⟨body, hq, hp⟩ := parseString_quoteJSONString k (':' :: (vt ++ ',' :: more))
  rw [hq, parseProperties, (skipWs_punct body).2.2.2.2.1]
  simp only [if_true, hp, (skipWs_punct _).1, hv, (skipWs_punct _).2.1]

/-- A property followed by the closing brace: `parseProperties` returns the
object. -/
theorem parseProperties_brace (fuel : Nat) (k : String) (v : Json) (vt rest : List Char)
    (acc : List (String × Json))
    (hv : parseValue fuel (vt ++ '\x7d' :: rest) = some (v, '\x7d' :: rest)) :
    parseProperties (fuel + 1) (quoteJSONString k ++ ':' :: (vt ++ '\x7d' :: rest)) acc =
      some (.obj ((k, v) :: acc).reverse, rest) := by
  obtain ⟨body, hq, hp⟩ := parseString_quoteJSONString k (':' :: (vt ++ '\x7d' :: rest))
  rw [hq, parseProperties, (skipWs_punct body).2.2.2.2.1]
  simp only [if_true, hp, (skipWs_punct _).1, hv, (skipWs_punct _).2.2.1]
  rw [if_neg (by decide)]

/-- Rounding to binary64 never gives NaN. -/
theorem Number.ofFrac_isNaN (neg : Bool) (p q : Nat) : (Number.ofFrac neg p q).isNaN = false := by
  unfold Number.ofFrac
  by_cases hp : p = 0
  · rw [if_pos hp]
    rfl
  · rw [if_neg hp]
    simp only []
    split_ifs <;> rfl

/-- The Number of a decimal numeral is never NaN. -/
theorem Number.ofDecimal_isNaN (neg : Bool) (n : Nat) (e : Int) :
    (Number.ofDecimal neg n e).isNaN = false := by
  unfold Number.ofDecimal
  split_ifs <;> exact Number.ofFrac_isNaN _ _ _

/-- A JSON number is never read as NaN. -/
theorem parseNumber_isNaN (cs : List Char) (x : Number) (r : List Char)
    (h : parseNumber cs = some (x, r)) : x.isNaN = false := by
  unfold parseNumber at h
  split at h
  rename_i neg r0 heq
  simp only [] at h
  split_ifs at h
  split at h
  · split_ifs at h
    split at h
    · cases h
      exact Number.ofDecimal_isNaN _ _ _
    · cases h
  · split at h
    · cases h
      exact Number.ofDecimal_isNaN _ _ _
    · cases h

end JS

/-! ### C15: the persistence round trip -/

namespace App

open JS

/-- The text that `JSON.stringify` writes for a Student with a finite grade. -/
theorem stringifyValue_student (st : Student) (q : ℚ) (hg : st.grade = .fin q) :
    stringifyValue st.toJson =
      '\x7b' :: (quoteJSONString "name" ++ ':' :: (quoteJSONString st.name ++ ',' ::
        (quoteJSONString "lastName" ++ ':' :: (quoteJSONString st.lastName ++ ',' ::
        (quoteJSONString "subject" ++ ':' :: (quoteJSONString st.subject ++ ',' ::
        (quoteJSONString "grade" ++ ':' :: (numberToChars (.fin q) ++ ['\x7d'])))))))) := by
  simp only [Student.toJson, stringifyValue, stringifyProperties, hg, List.append_assoc,
    List.cons_append]

/-- The text of a Student with a binary64 grade is read by `parseValue` as the
JSON value of that Student. -/
theorem parseValue_student (fuel : Nat) (st : Student) (q : ℚ) (hg : st.grade = .fin q)
    (hb : Number.IsBinary64 q) (rest : List Char) :
    parseValue (fuel + 6) (stringifyValue st.toJson ++ rest) = some (st.toJson, rest) := by
  have hnum : parseValue (fuel + 1) (numberToChars (.fin q) ++ '\x7d' :: rest) =
      some (.num (.fin q), '\x7d' :: rest) :=
    parseValue_number fuel q hb _ (by
      intro c t h
      rw [← (List.cons.inj h).1]
      exact ⟨by decide, by decide, by decide, by decide⟩)
  have h4 := parseProperties_brace (fuel + 1) "grade" _ _ rest
    [("subject", .str st.subject), ("lastName", .str st.lastName), ("name", .str st.name)] hnum
  have h3 := parseProperties_comma (fuel + 2) "subject" _ _
    (quoteJSONString "grade" ++ ':' :: (numberToChars (.fin q) ++ '\x7d' :: rest))
    [("lastName", .str st.lastName), ("name", .str st.name)]
    (parseValue_string (fuel + 1) st.subject _)
  have h2 := parseProperties_comma (fuel + 3) "lastName" _ _
    (quoteJSONString "subject" ++ ':' :: (quoteJSONString st.subject ++ ',' ::
      (quoteJSONString "grade" ++ ':' :: (numberToChars (.fin q) ++ '\x7d' :: rest))))
    [("name", .str st.name)]
    (parseValue_string (fuel + 2) st.lastName _)
  have h1 := parseProperties_comma (fuel + 4) "name" _ _
    (quoteJSONString "lastName" ++ ':' :: (quoteJSONString st.lastName ++ ',' ::
      (quoteJSONString "subject" ++ ':' :: (quoteJSONString st.subject ++ ',' ::
      (quoteJSONString "grade" ++ ':' :: (numberToChars (.fin q) ++ '\x7d' :: rest))))))
    []
    (parseValue_string (fuel + 3) st.name _)
  rw [h2, h3, h4] at h1
  have hstart : quoteJSONString "name" = '\x22' :: "name\x22".toList := by decide
  rw [stringifyValue_student st q hg, parseValue, List.cons_append, (skipWs_punct _).2.2.2.2.2.1]
  simp only [if_true, List.append_assoc, List.cons_append, List.nil_append]
  rw [hstart] at h1 ⊢
  simp only [List.cons_append] at h1 ⊢
  rw [(skipWs_punct _).2.2.2.2.1]
  simp only []
  rw [if_neg (by decide), h1]
  simp [Student.toJson, hg]

/-- The text of a Student starts with an opening brace and has more than four
characters. -/
theorem stringifyValue_student_head (st : Student) :
    ∃ t, stringifyValue st.toJson = '\x7b' :: t ∧ 4 ≤ t.length := by
  have hstart : quoteJSONString "name" = '\x22' :: "name\x22".toList := by decide
  refine ⟨_, by simp only [Student.toJson, stringifyValue]; rfl, ?_⟩
  simp only [stringifyProperties, hstart, List.length_append, List.length_cons]
  omega

/-- The elements of an array of two or more values. -/
theorem stringifyElements_cons_cons (x y : Json) (xs : List Json) :
    stringifyElements (x :: y :: xs) = stringifyValue x ++ ',' :: stringifyElements (y :: xs) := by
  rw [stringifyElements]
  simp

/-- The text of the elements of a non-empty roster starts with an opening brace
and has more characters than the roster has Students, by five or more. -/
theorem stringifyElements_head (st : Student) (l : List Student) :
    ∃ t, stringifyElements ((st :: l).map Student.toJson) = '\x7b' :: t ∧
      l.length + 4 ≤ t.length := by
  induction l generalizing st with
  | nil =>
    obtain ⟨t, ht, hl⟩ := stringifyValue_student_head st
    exact ⟨t, by simp only [List.map, stringifyElements]; exact ht, by simpa using hl⟩
  | cons st2 l ih =>
    obtain ⟨t, ht, hl⟩ := stringifyValue_student_head st
    obtain ⟨t2, ht2, hl2⟩ := ih st2
    refine ⟨t ++ ',' :: stringifyElements ((st2 :: l).map Student.toJson), ?_, ?_⟩
    · simp only [List.map, stringifyElements_cons_cons]
      simp only [List.map] at ht2
      rw [ht]
      rfl
    · rw [ht2]
      simp only [List.length_append, List.length_cons]
      omega

/-- The text of the elements of a non-empty roster with binary64 grades is read
by `parseElements` as the JSON values of its Students, in order. -/
theorem parseElements_students (l : List Student) :
    ∀ (st : Student) (fuel : Nat) (acc : List Json) (rest : List Char),
      (∀ s ∈ st :: l, ∃ q : ℚ, s.grade = .fin q ∧ Number.IsBinary64 q) →
      parseElements (fuel + l.length + 7)
          (stringifyElements ((st :: l).map Student.toJson) ++ ']' :: rest) acc =
        some (.arr (acc.reverse ++ (st :: l).map Student.toJson), rest) := by
  induction l with
  | nil =>
    intro st fuel acc rest hfin
    obtain ⟨q, hg, hb⟩ := hfin st (List.mem_cons_self _ _)
    simp only [List.map, stringifyElements, List.length_nil, Nat.add_zero]
    rw [parseElements, parseValue_student fuel st q hg hb]
    simp only [(skipWs_punct _).2.2.2.1]
    rw [if_neg (by decide)]
    simp
  | cons st2 l ih =>
    intro st fuel acc rest hfin
    obtain ⟨q, hg, hb⟩ := hfin st (List.mem_cons_self _ _)
    have hfin2 : ∀ s ∈ st2 :: l, ∃ q : ℚ, s.grade = .fin q ∧ Number.IsBinary64 q :=
      fun s hs => hfin s (List.mem_cons_of_mem _ hs)
    have ih2 := ih st2 fuel (st.toJson :: acc) rest hfin2
    simp only [List.map, stringifyElements_cons_cons, List.length_cons, List.append_assoc,
      List.cons_append] at ih2 ⊢
    have hf : fuel + (l.length + 1) + 7 = (fuel + l.length + 1 + 6) + 1 := by omega
    rw [hf, parseElements, parseValue_student (fuel + l.length + 1) st q hg hb]
    simp only [(skipWs_punct _).2.1, if_true]
    have hf2 : fuel + l.length + 1 + 6 = fuel + l.length + 7 := by omega
    rw [hf2, ih2]
    simp

/-- A JSON value written for a Student is that Student. -/
theorem ofJson_toJson (st : Student) : Student.ofJson st.toJson = some st := by
  rfl

/-- The JSON array written for a roster is that roster. -/
theorem rosterOfJson_toJson (students : List Student) :
    rosterOfJson (.arr (students.map Student.toJson)) = some students := by
  simp only [rosterOfJson]
  induction students with
  | nil => rfl
  | cons st l ih =>
    simp only [List.map, List.foldr_cons, ih, ofJson_toJson]

/-- The text that `save` writes for a roster with binary64 grades is read by
`JSON.parse` as the JSON array of its Students. -/
theorem parse_save (students : List Student)
    (hfin : ∀ st ∈ students, ∃ q : ℚ, st.grade = .fin q ∧ Number.IsBinary64 q) :
    JSON.parse (save students) = some (.arr (students.map Student.toJson)) := by
  cases students with
  | nil => rfl
  | cons st l =>
    obtain ⟨t, ht, hl⟩ := stringifyElements_head st l
    have hp := parseElements_students l st (t.length - l.length - 4) [] [] hfin
    rw [ht] at hp
    have hlen : (save (st :: l)).length + 1 = (t.length - l.length - 4 + l.length + 7) + 1 := by
      have : (save (st :: l)).length = ('[' :: ('\x7b' :: t ++ [']'])).length := by
        simp only [save, JSON.stringify, stringifyValue, ht]
        rfl
      rw [this]
      simp only [List.length_append, List.length_cons, List.length_nil]
      omega
    have htext : (save (st :: l)).toList = '[' :: ('\x7b' :: t ++ [']']) := by
      simp only [save, JSON.stringify, stringifyValue, ht]
      rfl
    unfold JSON.parse
    simp only [List.cons_append] at hp
    rw [hlen, htext, parseValue, (skipWs_punct _).2.2.2.2.2.2]
    simp only [List.cons_append, (skipWs_punct _).2.2.2.2.2.1, if_true, if_false, hp]
    simp [skipWs]

/-- C15. Persistence round trip: for every roster whose grades are finite
Numbers (binary64 values, as every Number is), the string that the effect saves
under the key `students`, when the initialiser loads it, gives the same roster,
Student for Student and field for field, in the same order; so does the empty
roster; and when the key is absent the initialiser gives the empty roster. -/
theorem load_save (students : List Student)
    (hfin : ∀ st ∈ students, ∃ q : ℚ, st.grade = .fin q ∧ Number.IsBinary64 q) :
    load (some (save students)) = some students ∧ load (some (save [])) = some [] ∧
      load none = some [] := by
  refine ⟨?_, rfl, rfl⟩
  have hne : save students ≠ "" := by
    intro h
    have := congrArg String.toList h
    simp only [save, JSON.stringify, stringifyValue] at this
    exact absurd this (by simp)
  simp only [load]
  rw [if_neg hne, parse_save students hfin]
  exact rosterOfJson_toJson students

/-- C15 at a roster of two: a name with a quote, a backslash, a line feed and a
control character and the grade `6.2`, and a negative grade `-4`. -/
theorem load_save_witness :
    load (some (save
        [⟨"A\x22n\x5ca\n\x01", "Lopez", "Math", .fin (mkRat 6980579422424269 1125899906842624)⟩,
          ⟨"Eva", "Diaz", "Art", .fin (-4)⟩])) =
      some [⟨"A\x22n\x5ca\n\x01", "Lopez", "Math", .fin (mkRat 6980579422424269 1125899906842624)⟩,
        ⟨"Eva", "Diaz", "Art", .fin (-4)⟩] ∧
      load (some (save [])) = some [] ∧ load none = some [] :=
  load_save
    [⟨"A\x22n\x5ca\n\x01", "Lopez", "Math", .fin (mkRat 6980579422424269 1125899906842624)⟩,
      ⟨"Eva", "Diaz", "Art", .fin (-4)⟩]
    (by
      intro st hst
      simp only [List.mem_cons, List.mem_singleton, List.not_mem_nil, or_false] at hst
      rcases hst with rfl | rfl
      · refine ⟨_, rfl, ?_⟩
        show Number.ofRat _ = Number.fin _
        decide
      · refine ⟨-4, rfl, ?_⟩
        show Number.ofRat _ = Number.fin _
        decide)

end App

/-! ### Rounding to binary64: the error of one rounding -/

namespace JS

/-- Rounding a quotient to the nearest integer moves it by at most one half. -/
theorem roundHalfEven_abs_sub_le (P Q : Nat) (hQ : Q ≠ 0) :
    |((roundHalfEven P Q : Nat) : ℚ) - (P : ℚ) / Q| ≤ 1 / 2 := by
  obtain ⟨hdm, hr0, hr1⟩ := div_add_mod_rat P Q hQ
  have hQ' : (0 : ℚ) < Q := by exact_mod_cast Nat.pos_of_ne_zero hQ
  have hlo : 2 * (P % Q) ≤ Q → ((P % Q : Nat) : ℚ) / Q ≤ 1 / 2 := by
    intro h
    rw [div_le_iff₀ hQ']
    have : ((2 * (P % Q) : Nat) : ℚ) ≤ (Q : ℚ) := by exact_mod_cast h
    push_cast at this
    linarith
  have hhi : Q ≤ 2 * (P % Q) → 1 / 2 ≤ ((P % Q : Nat) : ℚ) / Q := by
    intro h
    rw [le_div_iff₀ hQ']
    have : (Q : ℚ) ≤ ((2 * (P % Q) : Nat) : ℚ) := by exact_mod_cast h
    push_cast at this
    linarith
  have down : |((P / Q : Nat) : ℚ) - (P : ℚ) / Q| ≤ 1 / 2 ∨ ¬ 2 * (P % Q) ≤ Q := by
    by_cases h : 2 * (P % Q) ≤ Q
    · left
      rw [← hdm, abs_le]
      constructor <;> linarith [hlo h]
    · exact Or.inr h
  have up : |((P / Q + 1 : Nat) : ℚ) - (P : ℚ) / Q| ≤ 1 / 2 ∨ ¬ Q ≤ 2 * (P % Q) := by
    by_cases h : Q ≤ 2 * (P % Q)
    · left
      rw [← hdm, abs_le]
      push_cast
      constructor <;> linarith [hhi h]
    · exact Or.inr h
  unfold roundHalfEven
  simp only []
  by_cases c1 : 2 * (P % Q) < Q
  · rw [if_pos c1]
    rcases down with h | h
    · exact h
    · omega
  · rw [if_neg c1]
    by_cases c2 : Q < 2 * (P % Q)
    · rw [if_pos c2]
      rcases up with h | h
      · exact h
      · omega
    · rw [if_neg c2]
      by_cases c3 : P / Q % 2 = 0
      · rw [if_pos c3]
        rcases down with h | h
        · exact h
        · omega
      · rw [if_neg c3]
        rcases up with h | h
        · exact h
        · omega

namespace Number

/-- The mantissa is within one half of the scaled quotient. -/
theorem mantissa_abs_sub_le (p q : Nat) (s : Int) (hq : q ≠ 0) :
    |((mantissa p q s : Nat) : ℚ) - (p : ℚ) / q / (2 : ℚ) ^ s| ≤ 1 / 2 := by
  obtain ⟨P, Q, hm, hQ, hPQ⟩ := mantissa_eq_round p q s
  have hq' : (q : ℚ) ≠ 0 := by exact_mod_cast hq
  have hQ' : (Q : ℚ) ≠ 0 := by exact_mod_cast hQ hq
  have hs : (2 : ℚ) ^ s ≠ 0 := by positivity
  have e : (p : ℚ) / q / (2 : ℚ) ^ s = (P : ℚ) / Q := by
    rw [div_div, div_eq_div_iff (mul_ne_zero hq' hs) hQ']
    linarith
  rw [hm, e]
  exact roundHalfEven_abs_sub_le P Q (hQ hq)

/-- Rounding a quotient between `1` and `2 ^ 1000` to binary64 gives a finite
Number that differs from the quotient by at most `2 ^ (-53)` of it. -/
theorem ofFrac_rel_err (p q : Nat) (hp : p ≠ 0) (hq : q ≠ 0) (h1 : (1 : ℚ) ≤ (p : ℚ) / q)
    (h2 : (p : ℚ) / q ≤ (2 : ℚ) ^ (1000 : ℤ)) :
    ∃ y : ℚ, ofFrac false p q = fin y ∧ |y - (p : ℚ) / q| ≤ (p : ℚ) / q / 2 ^ 53 := by
  have two_ne : (2 : ℚ) ≠ 0 := by norm_num
  obtain ⟨h3, h4⟩ := floorLog2_spec p q hp hq
  have he0 : 0 ≤ floorLog2 p q := by
    have : (2 : ℚ) ^ (0 : ℤ) < (2 : ℚ) ^ (floorLog2 p q + 1) := by
      rw [zpow_zero]; exact lt_of_le_of_lt h1 h4
    have := (zpow_lt_zpow_iff_right₀ (by norm_num : (1 : ℚ) < 2)).1 this
    omega
  have he1 : floorLog2 p q ≤ 1000 := floorLog2_le p q hp hq 1000 h2
  have hmax : max (floorLog2 p q) (-1022) = floorLog2 p q := max_eq_left (by omega)
  have hof := ofFrac_eq_of_mantissa false p q (mantissa p q (floorLog2 p q - 52))
    (floorLog2 p q) hp hmax rfl (by omega) (by omega)
  simp only [Bool.false_eq_true, if_false] at hof
  refine ⟨_, hof, ?_⟩
  have herr := mantissa_abs_sub_le p q (floorLog2 p q - 52) hq
  have hs : (0 : ℚ) < (2 : ℚ) ^ (floorLog2 p q - 52) := by positivity
  have e : ((mantissa p q (floorLog2 p q - 52) : Nat) : ℚ) * (2 : ℚ) ^ (floorLog2 p q - 52) -
      (p : ℚ) / q =
      (((mantissa p q (floorLog2 p q - 52) : Nat) : ℚ) -
        (p : ℚ) / q / (2 : ℚ) ^ (floorLog2 p q - 52)) * (2 : ℚ) ^ (floorLog2 p q - 52) := by
    field_simp
    ring
  rw [e, abs_mul, abs_of_pos hs]
  have hpow : (2 : ℚ) ^ (floorLog2 p q - 52) = (2 : ℚ) ^ floorLog2 p q / 2 ^ 52 := by
    rw [zpow_sub₀ two_ne]
    norm_num
  calc |((mantissa p q (floorLog2 p q - 52) : Nat) : ℚ) -
          (p : ℚ) / q / (2 : ℚ) ^ (floorLog2 p q - 52)| * (2 : ℚ) ^ (floorLog2 p q - 52)
      ≤ 1 / 2 * (2 : ℚ) ^ (floorLog2 p q - 52) := mul_le_mul_of_nonneg_right herr hs.le
    _ = (2 : ℚ) ^ floorLog2 p q / 2 ^ 53 := by rw [hpow]; ring
    _ ≤ (p : ℚ) / q / 2 ^ 53 := div_le_div_of_nonneg_right h3 (by positivity)

end Number

end JS

/-! ### C8: the average and the arithmetic mean -/

namespace App

open JS

/-- Adding a grade between `1` and `7` to a sum between `j` and `7 j`, for
`j < N`: the rounded sum lies between `j + 1` and `7 (j + 1)` and differs from
the exact sum by at most `7 N / 2 ^ 53`. -/
theorem add_grade_near (a g : ℚ) (j N : Nat) (hN : 7 * N < 2 ^ 53) (hjN : j + 1 ≤ N)
    (ha1 : (j : ℚ) ≤ a) (ha7 : a ≤ 7 * (j : ℚ)) (hg1 : 1 ≤ g) (hg7 : g ≤ 7) :
    ∃ c : ℚ, Number.add (.fin a) (.fin g) = .fin c ∧
      ((j + 1 : ℕ) : ℚ) ≤ c ∧ c ≤ 7 * ((j + 1 : ℕ) : ℚ) ∧
      |c - (a + g)| ≤ 7 * (N : ℚ) / 2 ^ 53 := by
  have ha0 : 0 ≤ a := le_trans (by positivity) ha1
  obtain ⟨c, hc, hc1, hc7⟩ := add_grade_bound a g j (by omega) ha1 ha7 hg1 hg7
  obtain ⟨P, Q, hP, hQ, hval, hadd⟩ := add_fin_eq_ofFrac a g ha0 (by linarith)
  have hNq : ((j + 1 : ℕ) : ℚ) ≤ (N : ℚ) := by exact_mod_cast hjN
  have hsum7 : a + g ≤ 7 * (N : ℚ) := by
    push_cast at hNq
    linarith
  have hN53 : (7 : ℚ) * (N : ℚ) ≤ (2 : ℚ) ^ (1000 : ℤ) := by
    have h1 : ((7 * N : ℕ) : ℚ) < ((2 ^ 53 : ℕ) : ℚ) := by exact_mod_cast hN
    have h2 : ((2 ^ 53 : ℕ) : ℚ) ≤ (2 : ℚ) ^ (1000 : ℤ) := by
      rw [show ((2 ^ 53 : ℕ) : ℚ) = (2 : ℚ) ^ (53 : ℤ) by norm_num]
      exact zpow_le_zpow_right₀ (by norm_num) (by norm_num)
    push_cast at h1
    linarith
  obtain ⟨y, hy, herr⟩ := Number.ofFrac_rel_err P Q hP hQ (by rw [hval]; linarith)
    (by rw [hval]; linarith)
  rw [hadd, hy] at hc
  have hyc : y = c := by simpa using hc
  subst hyc
  refine ⟨y, by rw [hadd, hy], hc1, hc7, ?_⟩
  rw [hval] at herr
  calc |y - (a + g)| ≤ (a + g) / 2 ^ 53 := herr
    _ ≤ 7 * (N : ℚ) / 2 ^ 53 := div_le_div_of_nonneg_right hsum7 (by positivity)

/-- The sum that `average` accumulates over grades between `1` and `7`, with at
most `N` addends in all: it differs from the exact sum by at most `7 N / 2 ^ 53`
for each grade added. -/
theorem foldl_add_near (students : List Student) (h : ∀ st ∈ students, GradeInRange st)
    (N : Nat) (hN : 7 * N < 2 ^ 53) (a A : ℚ) (j : Nat) (E : ℚ)
    (hjN : j + students.length ≤ N) (ha1 : (j : ℚ) ≤ a) (ha7 : a ≤ 7 * (j : ℚ))
    (hE : |a - A| ≤ E) :
    ∃ c : ℚ, students.foldl (fun (acc : Number) s => acc.add s.grade) (.fin a) = .fin c ∧
      |c - (A + (students.map gradeValue).sum)| ≤
        E + (students.length : ℚ) * (7 * (N : ℚ) / 2 ^ 53) := by
  induction students generalizing a A j E with
  | nil => exact ⟨a, rfl, by simpa using hE⟩
  | cons st rest ih =>
    obtain ⟨g, hg, hg1, hg7⟩ := h st (List.mem_cons_self _ _)
    rw [List.length_cons] at hjN
    obtain ⟨c, hc, hc1, hc7, hce⟩ := add_grade_near a g j N hN (by omega) ha1 ha7 hg1 hg7
    have hgv : gradeValue st = g := by simp [gradeValue, hg]
    have hE' : |c - (A + g)| ≤ E + 7 * (N : ℚ) / 2 ^ 53 := by
      have e : c - (A + g) = (c - (a + g)) + (a - A) := by ring
      rw [e]
      exact le_trans (abs_add _ _) (by linarith)
    obtain ⟨c', hc', herr⟩ := ih (fun x hx => h x (List.mem_cons_of_mem _ hx)) c (A + g) (j + 1)
      (E + 7 * (N : ℚ) / 2 ^ 53) (by omega) hc1 hc7 hE'
    refine ⟨c', ?_, ?_⟩
    · rw [List.foldl_cons, hg, hc, hc']
    · rw [List.map_cons, List.sum_cons, hgv, List.length_cons]
      have e : A + (g + (rest.map gradeValue).sum) = A + g + (rest.map gradeValue).sum := by ring
      rw [e]
      push_cast
      linarith

/-- The mean that `average` computes for a non-empty roster of fewer than
`2 ^ 32` Students with grades between `1` and `7` is a finite Number between `1`
and `7`, within `1 / 250000` of the arithmetic mean. -/
theorem mean_near (students : List Student) (hne : students ≠ [])
    (hlen : students.length < 2 ^ 32) (h : ∀ st ∈ students, GradeInRange st) :
    ∃ m : ℚ, mean students = .fin m ∧ 1 ≤ m ∧ m ≤ 7 ∧
      |m - arithmeticMean students| ≤ 1 / 250000 := by
  have hl : students.length ≠ 0 := by simpa using hne
  have hl53 : 7 * students.length < 2 ^ 53 := by
    have : (2 : ℕ) ^ 53 = 2 ^ 32 * 2 ^ 21 := by norm_num
    omega
  have hl53' : 7 * (0 + students.length) < 2 ^ 53 := by simpa using hl53
  obtain ⟨m, hm, hm1, hm7⟩ := mean_between students hne hlen h
  obtain ⟨c, hc, hc1, hc7⟩ := foldl_add_between students h 0 0 hl53' (by simp) (by simp)
  obtain ⟨c', hc', hce⟩ := foldl_add_near students h students.length hl53 0 0 0 0
    (by simp) (by simp) (by simp) (by simp)
  rw [hc] at hc'
  have hcc : c = c' := by simpa using hc'
  subst hcc
  simp only [zero_add] at hc1 hc7 hce
  have hn0 : (0 : ℚ) < students.length := by exact_mod_cast Nat.pos_of_ne_zero hl
  have hnq : (students.length : ℚ) ≤ 2 ^ 32 - 1 := by
    have : students.length + 1 ≤ 2 ^ 32 := hlen
    have h2 : ((students.length + 1 : ℕ) : ℚ) ≤ ((2 ^ 32 : ℕ) : ℚ) := by exact_mod_cast this
    push_cast at h2
    linarith
  obtain ⟨P, Q, hP, hQ, hval, hdiv⟩ := div_fin_eq_ofFrac c students.length
    (lt_of_lt_of_le hn0 hc1) hn0
  have hq1 : (1 : ℚ) ≤ c / students.length := by
    rw [le_div_iff₀ hn0]; linarith
  have hq7 : c / students.length ≤ 7 := by
    rw [div_le_iff₀ hn0]; linarith
  obtain ⟨y, hy, herr⟩ := Number.ofFrac_rel_err P Q hP hQ (by rw [hval]; exact hq1)
    (by
      rw [hval]
      have : (7 : ℚ) ≤ (2 : ℚ) ^ (1000 : ℤ) := by
        calc (7 : ℚ) ≤ (2 : ℚ) ^ (3 : ℤ) := by norm_num
          _ ≤ (2 : ℚ) ^ (1000 : ℤ) := zpow_le_zpow_right₀ (by norm_num) (by norm_num)
      linarith)
  have hmean : mean students = .fin y := by
    unfold mean
    rw [hc, ofNat_eq_fin students.length hl (by omega), hdiv, hy]
  rw [hmean] at hm
  have hym : y = m := by simpa using hm
  subst hym
  refine ⟨y, hmean, hm1, hm7, ?_⟩
  rw [hval] at herr
  have h1 : |y - c / students.length| ≤ 7 / 2 ^ 53 :=
    le_trans herr (div_le_div_of_nonneg_right hq7 (by positivity))
  have h2 : |c / students.length - arithmeticMean students| ≤
      7 * (students.length : ℚ) / 2 ^ 53 := by
    unfold arithmeticMean
    rw [← sub_div, abs_div, abs_of_pos hn0, div_le_iff₀ hn0]
    calc |c - (students.map gradeValue).sum|
        ≤ (students.length : ℚ) * (7 * (students.length : ℚ) / 2 ^ 53) := by linarith
      _ = 7 * (students.length : ℚ) / 2 ^ 53 * (students.length : ℚ) := by ring
  have e : y - arithmeticMean students =
      (y - c / students.length) + (c / students.length - arithmeticMean students) := by ring
  rw [e]
  refine le_trans (abs_add _ _) ?_
  have h3 : 7 / 2 ^ 53 + 7 * (students.length : ℚ) / 2 ^ 53 ≤ (1 : ℚ) / 250000 := by
    have : 7 / 2 ^ 53 + 7 * (students.length : ℚ) / 2 ^ 53 =
        7 * ((students.length : ℚ) + 1) / 2 ^ 53 := by ring
    rw [this, div_le_iff₀ (by positivity)]
    have : (students.length : ℚ) + 1 ≤ 2 ^ 32 := by linarith
    norm_num
    linarith
  linarith

set_option maxRecDepth 100000 in
/-- C8, as stated, fails.  On a roster the form can build, with the grades typed
as "1", "1", "1" and "1.3": every grade is in [1, 7] and `average` is "1.07",
while the arithmetic mean of the four stored grades is nearer to `1.08` than to
`1.07` (the sum the code accumulates is the Number `4.3`, below the exact sum).
And for the roster whose one Student has the grade `1e21`, which the
initialiser loads from a stored roster, `average` is the text "1e+21", which is
not a numeral with two fractional digits, with or without a minus sign. -/
theorem average_counterexample :
    ((∀ st ∈ [(⟨"Ana", "Lopez", "Math", parseFloat (.str "1")⟩ : Student),
          ⟨"Eva", "Diaz", "Art", parseFloat (.str "1")⟩,
          ⟨"Luz", "Rios", "Bio", parseFloat (.str "1")⟩,
          ⟨"Noe", "Vera", "Geo", parseFloat (.str "1.3")⟩], GradeInRange st) ∧
        average [⟨"Ana", "Lopez", "Math", parseFloat (.str "1")⟩,
          ⟨"Eva", "Diaz", "Art", parseFloat (.str "1")⟩,
          ⟨"Luz", "Rios", "Bio", parseFloat (.str "1")⟩,
          ⟨"Noe", "Vera", "Geo", parseFloat (.str "1.3")⟩] = "1.07" ∧
        |arithmeticMean [⟨"Ana", "Lopez", "Math", parseFloat (.str "1")⟩,
            ⟨"Eva", "Diaz", "Art", parseFloat (.str "1")⟩,
            ⟨"Luz", "Rios", "Bio", parseFloat (.str "1")⟩,
            ⟨"Noe", "Vera", "Geo", parseFloat (.str "1.3")⟩] - 108 / 100| <
          |arithmeticMean [⟨"Ana", "Lopez", "Math", parseFloat (.str "1")⟩,
            ⟨"Eva", "Diaz", "Art", parseFloat (.str "1")⟩,
            ⟨"Luz", "Rios", "Bio", parseFloat (.str "1")⟩,
            ⟨"Noe", "Vera", "Geo", parseFloat (.str "1.3")⟩] - 107 / 100|) ∧
      load (some "[\x7b\x22name\x22:\x22Ana\x22,\x22lastName\x22:\x22Lopez\x22,\x22subject\x22:\x22Math\x22,\x22grade\x22:1e21\x7d]") =
        some [⟨"Ana", "Lopez", "Math", Number.ofDecimal false 1 21⟩] ∧
      ¬ ∃ (neg : Bool) (n : Nat),
        average [⟨"Ana", "Lopez", "Math", Number.ofDecimal false 1 21⟩] =
          String.mk ((if neg then ['-'] else []) ++ twoDecimals n) := by
  have h1 : parseFloat (.str "1") = .fin 1 := by decide
  have h13 : parseFloat (.str "1.3") = .fin (mkRat 5854679515581645 (2 ^ 52)) := by decide
  refine ⟨⟨?_, by decide, ?_⟩, by decide, ?_⟩
  · intro st hst
    simp only [List.mem_cons, List.mem_singleton, List.not_mem_nil, or_false] at hst
    rcases hst with rfl | rfl | rfl | rfl
    · exact ⟨1, h1, by norm_num, by norm_num⟩
    · exact ⟨1, h1, by norm_num, by norm_num⟩
    · exact ⟨1, h1, by norm_num, by norm_num⟩
    · exact ⟨_, h13, by decide, by decide⟩
  · simp only [arithmeticMean, gradeValue, h1, h13, List.map, List.sum_cons, List.sum_nil,
      List.length_cons, List.length_nil, Rat.mkRat_eq_div]
    norm_num [abs_lt, abs_of_pos, abs_of_neg]
  · have h : average [⟨"Ana", "Lopez", "Math", Number.ofDecimal false 1 21⟩] = "1e+21" := by
      decide
    rintro ⟨neg, n, hn⟩
    rw [h] at hn
    have hd : '.' ∈ ("1e+21" : String).data := by
      rw [hn]
      simp [twoDecimals]
    exact absurd hd (by decide)

/-- C8, amended. For the empty roster `average` is "N/A".  For a non-empty roster
whose mean as the code computes it in binary64 arithmetic (the grades added one
by one to `0` in roster order, the sum divided by the length) is a finite Number
`m` with `|m| < 10 ^ 21`, `average` is an optional minus sign followed by the
numeral with exactly two fractional digits of `n` hundredths, `n = ⌊100 |m| + 1/2⌋`
being the number of hundredths nearest to `|m|` (a tie goes to the larger `n`);
every roster whose grades are between `1` and `7` has such a mean.  For a roster
of fewer than `2 ^ 32` Students whose grades are between `1` and `7`, the
computed mean is between `1` and `7` and within `1 / 250000` of the arithmetic
mean, the sum of all grades divided by the number of Students, so that `average`
shows a number of hundredths within `1 / 200 + 1 / 250000` of the arithmetic
mean. -/
theorem average_spec (students : List Student) (hne : students ≠ []) :
    average [] = "N/A" ∧
      (∀ m : ℚ, mean students = .fin m → |m| < 10 ^ 21 →
        average students =
            String.mk ((if m < 0 then ['-'] else []) ++ twoDecimals ⌊|m| * 100 + 1 / 2⌋₊) ∧
          |(⌊|m| * 100 + 1 / 2⌋₊ : ℚ) / 100 - (|m|)| ≤ 1 / 200) ∧
      ((∀ st ∈ students, GradeInRange st) →
        ∃ m : ℚ, mean students = .fin m ∧ |m| < 10 ^ 21) ∧
      ((∀ st ∈ students, GradeInRange st) → students.length < 2 ^ 32 →
        ∃ m : ℚ, mean students = .fin m ∧ 1 ≤ m ∧ m ≤ 7 ∧
          |m - arithmeticMean students| ≤ 1 / 250000 ∧
          average students = String.mk (twoDecimals ⌊m * 100 + 1 / 2⌋₊) ∧
          |(⌊m * 100 + 1 / 2⌋₊ : ℚ) / 100 - arithmeticMean students| ≤
            1 / 200 + 1 / 250000) := by
  have hround : ∀ x : ℚ, 0 ≤ x → |(⌊x * 100 + 1 / 2⌋₊ : ℚ) / 100 - x| ≤ 1 / 200 := by
    intro x hx
    have h := abs_floor_half_sub_le (x * 100) (by positivity)
    have e : (⌊x * 100 + 1 / 2⌋₊ : ℚ) / 100 - x =
        ((⌊x * 100 + 1 / 2⌋₊ : ℚ) - x * 100) / 100 := by ring
    rw [e, abs_div, abs_of_pos (by norm_num : (0 : ℚ) < 100)]
    rw [div_le_iff₀ (by norm_num : (0 : ℚ) < 100)]
    linarith
  have hfmt : ∀ m : ℚ, mean students = .fin m → |m| < 10 ^ 21 →
      average students =
        String.mk ((if m < 0 then ['-'] else []) ++ twoDecimals ⌊|m| * 100 + 1 / 2⌋₊) := by
    intro m hm hlt
    rw [average_of_ne_nil students hne, hm, Number.toFixed, toFixedChars_two m hlt]
  refine ⟨rfl, fun m hm hlt => ⟨hfmt m hm hlt, hround (|m|) (abs_nonneg m)⟩,
    mean_of_gradeInRange students hne, ?_⟩
  intro hg hlen
  obtain ⟨m, hm, hm1, hm7, herr⟩ := mean_near students hne hlen hg
  have hm0 : 0 ≤ m := by linarith
  have hlt : |m| < 10 ^ 21 := by
    rw [abs_of_nonneg hm0]
    calc m ≤ 7 := hm7
      _ < 10 ^ 21 := by norm_num
  refine ⟨m, hm, hm1, hm7, herr, ?_, ?_⟩
  · have := hfmt m hm hlt
    rw [if_neg (not_lt.2 hm0), abs_of_nonneg hm0, List.nil_append] at this
    exact this
  · have e : (⌊m * 100 + 1 / 2⌋₊ : ℚ) / 100 - arithmeticMean students =
        ((⌊m * 100 + 1 / 2⌋₊ : ℚ) / 100 - m) + (m - arithmeticMean students) := by ring
    rw [e]
    exact le_trans (abs_add _ _) (add_le_add (hround m hm0) herr)

/-- C8, amended, at the grades `[6, 4]`: both are in [1, 7], `average` is
"5.00", the computed mean is the Number `5`, which is the arithmetic mean. -/
theorem average_spec_witness :
    (∀ st ∈ [(⟨"Ana", "Lopez", "Math", .fin 6⟩ : Student), ⟨"Eva", "Diaz", "Art", .fin 4⟩],
        GradeInRange st) ∧
      average [⟨"Ana", "Lopez", "Math", .fin 6⟩, ⟨"Eva", "Diaz", "Art", .fin 4⟩] = "5.00" ∧
      mean [⟨"Ana", "Lopez", "Math", .fin 6⟩, ⟨"Eva", "Diaz", "Art", .fin 4⟩] = .fin 5 ∧
      ∃ m : ℚ, mean [⟨"Ana", "Lopez", "Math", .fin 6⟩, ⟨"Eva", "Diaz", "Art", .fin 4⟩] = .fin m ∧
        1 ≤ m ∧ m ≤ 7 ∧
        |m - arithmeticMean [⟨"Ana", "Lopez", "Math", .fin 6⟩, ⟨"Eva", "Diaz", "Art", .fin 4⟩]| ≤
          1 / 250000 ∧
        average [⟨"Ana", "Lopez", "Math", .fin 6⟩, ⟨"Eva", "Diaz", "Art", .fin 4⟩] =
          String.mk (twoDecimals ⌊m * 100 + 1 / 2⌋₊) ∧
        |(⌊m * 100 + 1 / 2⌋₊ : ℚ) / 100 -
            arithmeticMean [⟨"Ana", "Lopez", "Math", .fin 6⟩, ⟨"Eva", "Diaz", "Art", .fin 4⟩]| ≤
          1 / 200 + 1 / 250000 :=
  have hg : ∀ st ∈ [(⟨"Ana", "Lopez", "Math", .fin 6⟩ : Student),
      ⟨"Eva", "Diaz", "Art", .fin 4⟩], GradeInRange st := by
    intro st hst
    simp only [List.mem_cons, List.mem_singleton, List.not_mem_nil, or_false] at hst
    rcases hst with rfl | rfl
    · exact ⟨6, rfl, by norm_num, by norm_num⟩
    · exact ⟨4, rfl, by norm_num, by norm_num⟩
  ⟨hg, by decide, by decide,
    (average_spec [⟨"Ana", "Lopez", "Math", .fin 6⟩, ⟨"Eva", "Diaz", "Art", .fin 4⟩]
      (by decide)).2.2.2 hg (by decide)⟩

end App
